import Mathlib

/-!
Verification development for a fiber-style incremental rendering engine
(`src/react.ts`): element descriptors, work nodes (fibers), the idle-slice
work loop, sibling-list reconciliation, and the commit phase that mutates a
host DOM tree.

The embedding is an arena model: fibers live in an association list keyed by
allocation ids (mirroring object identity and in-place mutation of the
JavaScript source), the host DOM is a store of numbered nodes, and every
host mutation is additionally recorded in a mutation log.  JavaScript values
compared with strict equality are modelled by the type `Value`, where `ref`
ids stand for object and function references.  Recursions that the source
runs on heap-shaped data take an explicit fuel argument and return `none`
when the fuel runs out, so all definitions are executable.
-/

namespace ReactFiber

/-- A JavaScript attribute value as far as strict equality can observe it:
a string, an integer, or a reference (object or function identity). -/
inductive Value where
  | str (s : String)
  | int (n : Int)
  | ref (id : Nat)
deriving DecidableEq, Repr

/-- Attribute maps (`props` minus the reserved `children` key): keys in
insertion order with their values. -/
abbrev Props := List (String × Value)

/-- An element descriptor: optional `type` tag, plain attributes, and the
ordered child descriptors held under the reserved `children` key. -/
inductive Element where
  | mk (type? : Option String) (attrs : Props) (children : List Element)

mutual

/-- Decidable equality of descriptors (nested induction, written out). -/
def Element.decEq : (a b : Element) → Decidable (a = b)
  | .mk t1 a1 c1, .mk t2 a2 c2 =>
    match inferInstanceAs (Decidable (t1 = t2)) with
    | isFalse h => isFalse fun hEq => by cases hEq; exact h rfl
    | isTrue h1 =>
      match inferInstanceAs (Decidable (a1 = a2)) with
      | isFalse h => isFalse fun hEq => by cases hEq; exact h rfl
      | isTrue h2 =>
        match Element.decEqList c1 c2 with
        | isFalse h => isFalse fun hEq => by cases hEq; exact h rfl
        | isTrue h3 => isTrue (by rw [h1, h2, h3])

/-- Decidable equality of descriptor lists. -/
def Element.decEqList : (a b : List Element) → Decidable (a = b)
  | [], [] => isTrue rfl
  | [], _ :: _ => isFalse (by simp)
  | _ :: _, [] => isFalse (by simp)
  | x :: xs, y :: ys =>
    match Element.decEq x y, Element.decEqList xs ys with
    | isTrue h1, isTrue h2 => isTrue (by rw [h1, h2])
    | isFalse h, _ => isFalse fun hEq => by cases hEq; exact h rfl
    | _, isFalse h => isFalse fun hEq => by cases hEq; exact h rfl

end

instance : DecidableEq Element := Element.decEq

mutual

/-- Rendering of a descriptor for diagnostics. -/
def Element.describe : Element → String
  | .mk t _ c => "El " ++ toString t ++ " [" ++ Element.describeList c ++ "]"

/-- Rendering of a descriptor list for diagnostics. -/
def Element.describeList : List Element → String
  | [] => ""
  | e :: es => Element.describe e ++ ";" ++ Element.describeList es

end

instance : Repr Element := ⟨fun e _ => Std.Format.text e.describe⟩

/-- The `type` field of a descriptor. -/
def Element.type? : Element → Option String
  | .mk t _ _ => t

/-- The plain attributes of a descriptor. -/
def Element.attrs : Element → Props
  | .mk _ a _ => a

/-- The child descriptors of a descriptor. -/
def Element.children : Element → List Element
  | .mk _ _ c => c

/-- `effectTag` of a work node: PLACEMENT, UPDATE or DELETION. -/
inductive Effect where
  | placement
  | update
  | deletion
deriving DecidableEq, Repr

/-- One work node (fiber).  `attrs` and `children` together are the
JavaScript `props` object; links are arena ids. -/
structure FiberData where
  type? : Option String
  attrs : Props
  children : List Element
  dom : Option Nat
  parent : Option Nat
  child : Option Nat
  sibling : Option Nat
  alternate : Option Nat
  effectTag : Option Effect
deriving DecidableEq, Repr

/-- A host DOM node: element or text, its written properties, attached
listeners, and child node ids in order. -/
structure DomNode where
  isText : Bool
  tag : String
  props : Props
  listeners : List (String × Value)
  children : List Nat
deriving DecidableEq, Repr

/-- The host DOM store: an allocation counter and the nodes. -/
structure Dom where
  counter : Nat
  nodes : List (Nat × DomNode)
deriving DecidableEq, Repr

/-- One host-tree mutation, as performed by the commit phase or by
`createDom` materialisation. -/
inductive Mutation where
  | setProp (node : Nat) (name : String) (v : Value)
  | clearProp (node : Nat) (name : String)
  | addListener (node : Nat) (event : String) (h : Value)
  | removeListener (node : Nat) (event : String) (h : Value)
  | appendChild (parent : Nat) (child : Nat)
  | removeChild (parent : Nat) (child : Nat)
deriving DecidableEq, Repr

/-- The module-level mutable state of the renderer: the fiber arena, the
DOM store, and the four scheduling variables of the source. -/
structure State where
  fibers : List (Nat × FiberData)
  fiberCounter : Nat
  dom : Dom
  nextUnitOfWork : Option Nat
  currentRoot : Option Nat
  wipRoot : Option Nat
  deletions : Option (List Nat)
deriving DecidableEq, Repr

/-- First-match lookup in an association list. -/
def assocFind {κ α : Type} [DecidableEq κ] (k : κ) : List (κ × α) → Option α
  | [] => none
  | (k', v) :: t => if k' = k then some v else assocFind k t

/-- Write a key in an association list: replace the first binding or append
a new one (JavaScript property assignment). -/
def assocSet {κ α : Type} [DecidableEq κ] (k : κ) (v : α) : List (κ × α) → List (κ × α)
  | [] => [(k, v)]
  | (k', v') :: t => if k' = k then (k, v) :: t else (k', v') :: assocSet k v t

/-- Fetch a fiber from the arena. -/
def getFiber (s : State) (i : Nat) : Option FiberData :=
  assocFind i s.fibers

/-- Overwrite a fiber in the arena (in-place object mutation). -/
def setFiber (s : State) (i : Nat) (fd : FiberData) : State :=
  { s with fibers := assocSet i fd s.fibers }

/-- Allocate a fresh fiber, returning the new state and its id. -/
def allocFiber (s : State) (fd : FiberData) : State × Nat :=
  ({ s with fibers := (s.fiberCounter, fd) :: s.fibers,
            fiberCounter := s.fiberCounter + 1 }, s.fiberCounter)

/-- `deletions?.push(f)`: append to the deletion list when it is non-null. -/
def pushDeletion (s : State) (i : Nat) : State :=
  { s with deletions := s.deletions.map (fun l => l ++ [i]) }

/-- A key is an event-listener key when it starts with the reserved `on`
marker (`isEvent` in the source). -/
def isEvent (key : String) : Bool :=
  key.data.take 2 == ['o', 'n']

/-- A key is a plain property when it is neither `children` nor an event
key (`isProperty` in the source). -/
def isProp (key : String) : Bool :=
  key != "children" && !isEvent key

/-- `isNew` in the source: the value under a key differs between the two
attribute maps by strict (in)equality. -/
def isNew (prev next : Props) (key : String) : Bool :=
  assocFind key prev != assocFind key next

/-- `isGone` in the source: the key is absent from the next attribute map. -/
def isGone (next : Props) (key : String) : Bool :=
  !(assocFind key next).isSome

/-- `name.toLowerCase().substring(2)`: derive the event name from an
`on`-prefixed key. -/
def eventTypeOf (name : String) : String :=
  String.mk ((name.data.map Char.toLower).drop 2)

/-- Value looked up under a key, defaulting to the empty string (the key is
always present at use sites). -/
def lookupD (p : Props) (k : String) : Value :=
  (assocFind k p).getD (Value.str "")

/-- The keys of an attribute map in insertion order (`Object.keys`). -/
def keysOf (p : Props) : List String :=
  p.map Prod.fst

/-- `updateDom` of the source as a mutation-list producer for host node
`node`: remove stale or changed listeners, clear gone plain properties, set
new or changed plain properties, then attach new or changed listeners. -/
def updateDom (node : Nat) (prevProps nextProps : Props) : List Mutation :=
  (((keysOf prevProps).filter isEvent).filter
      (fun key => !(assocFind key nextProps).isSome || isNew prevProps nextProps key)).map
    (fun name => Mutation.removeListener node (eventTypeOf name) (lookupD prevProps name))
  ++ (((keysOf prevProps).filter isProp).filter (isGone nextProps)).map
    (fun name => Mutation.clearProp node name)
  ++ (((keysOf nextProps).filter isProp).filter (isNew prevProps nextProps)).map
    (fun name => Mutation.setProp node name (lookupD nextProps name))
  ++ (((keysOf nextProps).filter isEvent).filter (isNew prevProps nextProps)).map
    (fun name => Mutation.addListener node (eventTypeOf name) (lookupD nextProps name))

/-- Rewrite one DOM node in the store. -/
def updateNode (d : Dom) (n : Nat) (f : DomNode → DomNode) : Dom :=
  match assocFind n d.nodes with
  | none => d
  | some nd => { d with nodes := assocSet n (f nd) d.nodes }

/-- Apply one mutation to the DOM store. -/
def applyMut (d : Dom) (m : Mutation) : Dom :=
  match m with
  | .setProp n k v => updateNode d n (fun nd => { nd with props := assocSet k v nd.props })
  | .clearProp n k => updateNode d n (fun nd => { nd with props := assocSet k (Value.str "") nd.props })
  | .addListener n e h => updateNode d n (fun nd =>
      if (e, h) ∈ nd.listeners then nd else { nd with listeners := nd.listeners ++ [(e, h)] })
  | .removeListener n e h => updateNode d n (fun nd => { nd with listeners := nd.listeners.erase (e, h) })
  | .appendChild p c => updateNode d p (fun nd => { nd with children := nd.children ++ [c] })
  | .removeChild p c => updateNode d p (fun nd => { nd with children := nd.children.erase c })

/-- Apply a list of mutations to the DOM store in order. -/
def applyMuts (d : Dom) (ms : List Mutation) : Dom :=
  ms.foldl applyMut d

/-- `createDom` of the source: allocate a text node for the text marker or
an element node of the given tag (empty tag when `type` is missing), then
mirror the fiber's plain attributes onto it via `updateDom` against an
empty previous attribute map.  Returns the new state, the node id and the
mutations performed on the fresh node. -/
def createDom (s : State) (fd : FiberData) : State × Nat × List Mutation :=
  let nid := s.dom.counter
  let node : DomNode :=
    if fd.type? = some "TEXT_ELEMENT" then
      { isText := true, tag := "", props := [], listeners := [], children := [] }
    else
      { isText := false, tag := fd.type?.getD "", props := [], listeners := [], children := [] }
  let d1 : Dom := { counter := nid + 1, nodes := (nid, node) :: s.dom.nodes }
  let muts := updateDom nid [] fd.attrs
  ({ s with dom := applyMuts d1 muts }, nid, muts)

/-- Read a fiber through an optional id, distinguishing a null cursor
(`some none`) from a dangling id (`none`, impossible in the source). -/
def fetchFiber (s : State) : Option Nat → Option (Option (Nat × FiberData))
  | none => some none
  | some i =>
    match getFiber s i with
    | none => none
    | some fd => some (some (i, fd))

/-- Assign the `child` link of an existing fiber. -/
def setFiberChild (s : State) (i : Nat) (c : Option Nat) : Option State :=
  (getFiber s i).map fun fd => setFiber s i { fd with child := c }

/-- Assign the `sibling` link of an existing fiber. -/
def setFiberSibling (s : State) (i : Nat) (c : Option Nat) : Option State :=
  (getFiber s i).map fun fd => setFiber s i { fd with sibling := c }

/-- One iteration of the `reconcileChildren` loop body: compare the
descriptor at `index` with the previous-chain cursor, allocate an UPDATE or
PLACEMENT fiber, mark an obsolete previous fiber DELETION, advance the
previous cursor, and link the new fiber into the chain.  Returns the new
state, the advanced previous cursor and the new fiber id (the next
`prevSibling`). -/
def reconcileStep (wip : Nat) (elements : List Element) (s : State) (index : Nat)
    (oldFiber prevSibling : Option Nat) : Option (State × Option Nat × Option Nat) :=
  match fetchFiber s oldFiber with
  | none => none
  | some oldF =>
    let element := elements.get? index
    let sameType : Bool :=
      match oldF, element with
      | some (_, ofd), some e => ofd.type? = e.type?
      | _, _ => false
    let alloc : State × Option Nat :=
      if sameType then
        match oldF, element with
        | some (oid, ofd), some e =>
          let (s', nid) := allocFiber s
            { type? := ofd.type?, attrs := e.attrs, children := e.children,
              dom := ofd.dom, parent := some wip, child := none, sibling := none,
              alternate := some oid, effectTag := some Effect.update }
          (s', some nid)
        | _, _ => (s, none)
      else
        match element with
        | some e =>
          let (s', nid) := allocFiber s
            { type? := e.type?, attrs := e.attrs, children := e.children,
              dom := none, parent := some wip, child := none, sibling := none,
              alternate := none, effectTag := some Effect.placement }
          (s', some nid)
        | none => (s, none)
    let s1 := alloc.1
    let newFiber := alloc.2
    let delStep : Option State :=
      if sameType then some s1
      else
        match oldF with
        | some (oid, _) =>
          match getFiber s1 oid with
          | some cur =>
            some (pushDeletion (setFiber s1 oid { cur with effectTag := some Effect.deletion }) oid)
          | none => none
        | none => some s1
    match delStep with
    | none => none
    | some s2 =>
      let oldNext : Option Nat :=
        match oldF with
        | some (oid, _) => (getFiber s2 oid).bind (fun cur => cur.sibling)
        | none => none
      let linkStep : Option State :=
        if index = 0 then setFiberChild s2 wip newFiber
        else
          match element, prevSibling with
          | some _, some p => setFiberSibling s2 p newFiber
          | some _, none => none
          | none, _ => some s2
      match linkStep with
      | none => none
      | some s3 => some (s3, oldNext, newFiber)

/-- The loop of `reconcileChildren`: walk the new descriptor list by index
in parallel with the previous child chain, one `reconcileStep` per
iteration, while a descriptor or a previous fiber remains. -/
def reconcileAux (wip : Nat) (elements : List Element) :
    Nat → State → Nat → Option Nat → Option Nat → Option State
  | 0, _, _, _, _ => none
  | fuel + 1, s, index, oldFiber, prevSibling =>
    if index < elements.length || oldFiber.isSome then
      match reconcileStep wip elements s index oldFiber prevSibling with
      | none => none
      | some (s3, oldNext, newFiber) =>
        reconcileAux wip elements fuel s3 (index + 1) oldNext newFiber
    else
      some s

/-- `reconcileChildren` of the source: fetch the previous child chain head
through `wip.alternate` and run the diff loop. -/
def reconcileChildren (fuel : Nat) (s : State) (wip : Nat) (elements : List Element) :
    Option State :=
  match getFiber s wip with
  | none => none
  | some wfd =>
    let oldHead : Option (Option Nat) :=
      match wfd.alternate with
      | none => some none
      | some a => (getFiber s a).map (fun afd => afd.child)
    match oldHead with
    | none => none
    | some oldFiber => reconcileAux wip elements fuel s 0 oldFiber none

/-- The ancestor climb at the end of `performUnitOfWork`: return the fiber's
own sibling, else the nearest ancestor's sibling, else null at the root. -/
def climb : Nat → State → Nat → Option (Option Nat)
  | 0, _, _ => none
  | fuel + 1, s, fid =>
    match getFiber s fid with
    | none => none
    | some fd =>
      match fd.sibling with
      | some sib => some (some sib)
      | none =>
        match fd.parent with
        | none => some none
        | some p => climb fuel s p

/-- `performUnitOfWork` of the source: materialise the fiber's host node if
absent, reconcile its children, and pick the next fiber in preorder.
Returns the new state, the next unit of work and the host mutations
performed (all on the freshly created node, if any). -/
def performUnitOfWork (fuel : Nat) (s : State) (fid : Nat) :
    Option (State × Option Nat × List Mutation) :=
  match getFiber s fid with
  | none => none
  | some fd =>
    let step1 : State × List Mutation :=
      match fd.dom with
      | some _ => (s, [])
      | none =>
        let (s', nid, muts) := createDom s fd
        (setFiber s' fid { fd with dom := some nid }, muts)
    let s1 := step1.1
    let muts := step1.2
    match reconcileChildren fuel s1 fid fd.children with
    | none => none
    | some s2 =>
      match getFiber s2 fid with
      | none => none
      | some fd2 =>
        match fd2.child with
        | some c => some (s2, some c, muts)
        | none =>
          match climb fuel s2 fid with
          | none => none
          | some nxt => some (s2, nxt, muts)

/-- The effect application for one fiber inside `commitWork`: PLACEMENT
appends the fiber's host node under the parent's host node, UPDATE runs the
attribute diff against the alternate's attributes, DELETION removes the
fiber's host node from the parent's host node. -/
def commitOwn (s : State) (fd : FiberData) : Option (State × List Mutation) :=
  let domParentStep : Option (Option Nat) :=
    match fd.parent with
    | none => some none
    | some p => (getFiber s p).map (fun pfd => pfd.dom)
  match domParentStep with
  | none => none
  | some domParent =>
    match fd.effectTag, fd.dom with
    | some Effect.placement, some d =>
      match domParent with
      | some dp => some ({ s with dom := applyMut s.dom (.appendChild dp d) }, [.appendChild dp d])
      | none => some (s, [])
    | some Effect.update, some d =>
      match fd.alternate with
      | none => none
      | some alt =>
        match getFiber s alt with
        | none => none
        | some afd =>
          let muts := updateDom d afd.attrs fd.attrs
          some ({ s with dom := applyMuts s.dom muts }, muts)
    | some Effect.deletion, some d =>
      match domParent with
      | some dp => some ({ s with dom := applyMut s.dom (.removeChild dp d) }, [.removeChild dp d])
      | none => some (s, [])
    | _, _ => some (s, [])

/-- `commitWork` of the source: apply the fiber's own effect, then recurse
into its child and its sibling. -/
def commitWork : Nat → State → Option Nat → Option (State × List Mutation)
  | _, s, none => some (s, [])
  | 0, _, some _ => none
  | fuel + 1, s, some fid =>
    match getFiber s fid with
    | none => none
    | some fd =>
      match commitOwn s fd with
      | none => none
      | some (s1, m1) =>
        match commitWork fuel s1 fd.child with
        | none => none
        | some (s2, m2) =>
          match commitWork fuel s2 fd.sibling with
          | none => none
          | some (s3, m3) => some (s3, m1 ++ m2 ++ m3)

/-- The `deletions?.forEach(commitWork)` pass of `commitRoot`. -/
def commitDeletions (fuel : Nat) : State → List Nat → Option (State × List Mutation)
  | s, [] => some (s, [])
  | s, f :: fs =>
    match commitWork fuel s (some f) with
    | none => none
    | some (s1, m1) =>
      match commitDeletions fuel s1 fs with
      | none => none
      | some (s2, m2) => some (s2, m1 ++ m2)

/-- `commitRoot` of the source: commit every fiber on the deletion list,
commit the work-in-progress tree from the root's child, then promote the
work-in-progress root to committed root and null the work-in-progress
root.  The deletion list is left as it is. -/
def commitRoot (fuel : Nat) (s : State) : Option (State × List Mutation) :=
  match commitDeletions fuel s (s.deletions.getD []) with
  | none => none
  | some (s1, dmuts) =>
    let childStep : Option (Option Nat) :=
      match s1.wipRoot with
      | none => some none
      | some w => (getFiber s1 w).map (fun wfd => wfd.child)
    match childStep with
    | none => none
    | some rootChild =>
      match commitWork fuel s1 rootChild with
      | none => none
      | some (s2, cmuts) =>
        some ({ s2 with currentRoot := s2.wipRoot, wipRoot := none }, dmuts ++ cmuts)

/-- The stepping loop of `workLoop`: process units of work while work
remains and the most recent `timeRemaining` query reported at least one
millisecond.  `deadline q` is the result of the `q`-th query of this
invocation; the query is made after each step, exactly as in the source.
Returns the final state, the mutations performed and the number of units
processed (which also counts the queries made). -/
def workLoopAux (deadline : Nat → Nat) :
    Nat → Nat → State → Option (State × List Mutation × Nat)
  | 0, _, _ => none
  | fuel + 1, q, s =>
    match s.nextUnitOfWork with
    | none => some (s, [], 0)
    | some fid =>
      match performUnitOfWork fuel s fid with
      | none => none
      | some (s1, nxt, muts) =>
        let s2 := { s1 with nextUnitOfWork := nxt }
        if deadline q < 1 then some (s2, muts, 1)
        else
          match workLoopAux deadline fuel (q + 1) s2 with
          | none => none
          | some (s3, rest, st) => some (s3, muts ++ rest, st + 1)

/-- One invocation of `workLoop`: run the stepping loop, and when no unit
of work remains while a work-in-progress root exists, run `commitRoot`
synchronously in the same invocation.  The source then unconditionally
reschedules itself via the idle-callback facility; repetition is modelled
by `runSlices`. -/
def workLoop (deadline : Nat → Nat) (fuel : Nat) (s : State) :
    Option (State × List Mutation × Nat) :=
  match workLoopAux deadline fuel 0 s with
  | none => none
  | some (s1, muts, steps) =>
    if s1.nextUnitOfWork.isNone && s1.wipRoot.isSome then
      match commitRoot fuel s1 with
      | none => none
      | some (s2, cmuts) => some (s2, muts ++ cmuts, steps)
    else some (s1, muts, steps)

/-- A sequence of idle slices: the `i`-th slice runs `workLoop` with the
deadline function `deadlines i`.  Returns the final state and the mutation
log of each slice. -/
def runSlices (deadlines : Nat → Nat → Nat) (fuel : Nat) :
    Nat → State → Option (State × List (List Mutation))
  | 0, s => some (s, [])
  | n + 1, s =>
    match workLoop (deadlines 0) fuel s with
    | none => none
    | some (s1, muts, _) =>
      match runSlices (fun i => deadlines (i + 1)) fuel n s1 with
      | none => none
      | some (s2, rest) => some (s2, muts :: rest)

/-- `render` of the source: build a fresh work-in-progress root anchored at
`container` whose single child descriptor is `element`, link it to the
committed root, reset the deletion list, and set it as the next unit of
work.  No validation of the descriptor takes place. -/
def render (element : Element) (container : Nat) (s : State) : State :=
  let rootFd : FiberData :=
    { type? := none, attrs := [], children := [element], dom := some container,
      parent := none, child := none, sibling := none,
      alternate := s.currentRoot, effectTag := none }
  let (s1, rid) := allocFiber s rootFd
  { s1 with wipRoot := some rid, deletions := some ([] : List Nat),
            nextUnitOfWork := some rid }

/-- The work-in-progress root fiber that `render` allocates. -/
def renderRootFd (element : Element) (container : Nat) (cr : Option Nat) : FiberData :=
  { type? := none, attrs := [], children := [element], dom := some container,
    parent := none, child := none, sibling := none,
    alternate := cr, effectTag := none }

/-- `createTextElement` of the source. -/
def createTextElement (text : String) : Element :=
  Element.mk (some "TEXT_ELEMENT") [("nodeValue", Value.str text)] []

/-- A child argument of `createElement`: a string or a descriptor. -/
inductive ChildArg where
  | text (s : String)
  | elem (e : Element)

/-- `createElement` of the source: string children are normalised into
text-marker descriptors. -/
def createElement (type : String) (props : Props) (children : List ChildArg) : Element :=
  Element.mk (some type) props
    (children.map fun c =>
      match c with
      | .text t => createTextElement t
      | .elem e => e)

/-- Every arena key is below the allocation counter. -/
def fibersBelow (s : State) : Bool :=
  s.fibers.all fun p => p.1 < s.fiberCounter

/-- Every DOM store key is below the DOM counter and every recorded child
id is below the DOM counter. -/
def domClosed (d : Dom) : Bool :=
  d.nodes.all fun p => p.1 < d.counter && p.2.children.all fun c => c < d.counter

/-- The host node whose stored record a mutation rewrites. -/
def mutTarget : Mutation → Nat
  | .setProp n _ _ => n
  | .clearProp n _ => n
  | .addListener n _ _ => n
  | .removeListener n _ _ => n
  | .appendChild p _ => p
  | .removeChild p _ => p

/-- Whether a mutation changes the tree structure (appendChild or
removeChild) rather than attributes or listeners. -/
def isAttachMut : Mutation → Bool
  | .appendChild _ _ => true
  | .removeChild _ _ => true
  | _ => false

/-- The plain-property key a mutation writes, if any. -/
def mutPropKey : Mutation → Option String
  | .setProp _ k _ => some k
  | .clearProp _ k => some k
  | _ => none

/-- Host-tree reachability: the nodes reachable from `root` through the
recorded child lists of a DOM store. -/
inductive DomReach (nodes : List (Nat × DomNode)) (root : Nat) : Nat → Prop where
  | refl : DomReach nodes root root
  | step (n c : Nat) (nd : DomNode) : DomReach nodes root n →
      assocFind n nodes = some nd → c ∈ nd.children → DomReach nodes root c

/-- A sibling chain in the arena: starting from an optional cursor, the
listed fibers are found in order, each linked to the next by its `sibling`
field, ending in a null sibling. -/
def isChainB (s : State) : Option Nat → List (Nat × FiberData) → Bool
  | none, [] => true
  | none, _ :: _ => false
  | some _, [] => false
  | some i, (j, fd) :: rest =>
    decide (i = j) && decide (getFiber s i = some fd) && isChainB s fd.sibling rest

/-- The previous-chain head exactly as `reconcileChildren` computes it:
null when the fiber has no alternate, else the alternate's child link
(`none` marks a dangling alternate id, impossible in the source). -/
def oldChainCursor (s : State) (wfd : FiberData) : Option (Option Nat) :=
  match wfd.alternate with
  | none => some none
  | some a => (getFiber s a).map (fun afd => afd.child)

/-- The UPDATE work node the reconciler builds at a type-matching
position. -/
def updateFiberFD (wip oid : Nat) (ofd : FiberData) (e : Element) : FiberData :=
  { type? := ofd.type?, attrs := e.attrs, children := e.children,
    dom := ofd.dom, parent := some wip, child := none, sibling := none,
    alternate := some oid, effectTag := some Effect.update }

/-- The PLACEMENT work node the reconciler builds at a fresh or
type-mismatching position. -/
def placementFiberFD (wip : Nat) (e : Element) : FiberData :=
  { type? := e.type?, attrs := e.attrs, children := e.children,
    dom := none, parent := some wip, child := none, sibling := none,
    alternate := none, effectTag := some Effect.placement }

/-- The descriptor-driven new child fibers of one reconciliation, in
order: UPDATE where the type matches the previous chain positionally,
PLACEMENT otherwise, with sibling links to consecutive allocation ids
starting at `ctr`. -/
def reconcileNews (wip : Nat) : Nat → List Element → List (Nat × FiberData) → List FiberData
  | _, [], _ => []
  | ctr, e :: es, olds =>
    let fd : FiberData :=
      match olds with
      | (oid, ofd) :: _ =>
        if ofd.type? = e.type? then updateFiberFD wip oid ofd e
        else placementFiberFD wip e
      | [] => placementFiberFD wip e
    { fd with sibling := if es.isEmpty then none else some (ctr + 1) }
      :: reconcileNews wip (ctr + 1) es olds.tail

/-- The previous-chain fibers one reconciliation marks DELETION, in chain
order: every position whose type mismatches the new descriptor and every
trailing position beyond the new list. -/
def reconcileDels : List Element → List (Nat × FiberData) → List Nat
  | _, [] => []
  | [], (oid, _) :: olds => oid :: reconcileDels [] olds
  | e :: es, (oid, ofd) :: olds =>
    if ofd.type? = e.type? then reconcileDels es olds
    else oid :: reconcileDels es olds

/-- Allocate a list of fibers at consecutive ids. -/
def allocNews (s : State) (news : List FiberData) : State :=
  news.foldl (fun s fd => (allocFiber s fd).1) s

/-- Mark one previous fiber DELETION and append it to the deletion list. -/
def markDeletion (s : State) (oid : Nat) : State :=
  match getFiber s oid with
  | some fd => pushDeletion (setFiber s oid { fd with effectTag := some Effect.deletion }) oid
  | none => s

/-- Mark a list of previous fibers DELETION in order. -/
def markDeletions (s : State) (dels : List Nat) : State :=
  dels.foldl markDeletion s

/-- Overwrite the `child` link of a fiber, total version. -/
def setChildTotal (s : State) (i : Nat) (c : Option Nat) : State :=
  match getFiber s i with
  | some fd => setFiber s i { fd with child := c }
  | none => s

/-- Overwrite the `sibling` link of a fiber, total version. -/
def setSiblingTotal (s : State) (i : Nat) (c : Option Nat) : State :=
  match getFiber s i with
  | some fd => setFiber s i { fd with sibling := c }
  | none => s

/-- The combined state effect of one full `reconcileChildren` call, in
grouped form: allocate the new child fibers, mark and record the
deletions, then link the wip fiber's child to the new chain head (no link
write at all when both the descriptor list and the previous chain are
empty, since the loop body never runs). -/
def applyReconcile (s : State) (wip : Nat) (es : List Element)
    (olds : List (Nat × FiberData)) : State :=
  let s1 := allocNews s (reconcileNews wip s.fiberCounter es olds)
  let s2 := markDeletions s1 (reconcileDels es olds)
  if es.isEmpty && olds.isEmpty then s2
  else setChildTotal s2 wip (if es.isEmpty then none else some s.fiberCounter)

/-- The combined state effect of the reconcile loop entered at an index
past zero with pending previous sibling `prevSib`: as `applyReconcile`,
but the chain head is linked as the previous sibling's `sibling` (only
when a descriptor remains, as in the source). -/
def applyReconcileTail (s : State) (wip : Nat) (es : List Element)
    (olds : List (Nat × FiberData)) (prevSib : Option Nat) : State :=
  let s1 := allocNews s (reconcileNews wip s.fiberCounter es olds)
  let s2 := markDeletions s1 (reconcileDels es olds)
  match es, prevSib with
  | _ :: _, some p => setSiblingTotal s2 p (some s.fiberCounter)
  | _, _ => s2

/-- An optional id that is either null or inside the half-open generation
range. -/
def inRangeOpt (n0 ctr : Nat) : Option Nat → Bool
  | none => true
  | some i => decide (n0 ≤ i) && decide (i < ctr)

/-- The previous (committed, pre-`n0`) subtree chain starting at a cursor
matches a descriptor list exactly: same types, same attributes, a host
node present, and matching recursively below.  All ids involved are below
the generation boundary `n0`. -/
def oldMatchesBelow (s : State) (n0 : Nat) : Nat → Option Nat → List Element → Bool
  | _, none, [] => true
  | _, none, _ :: _ => false
  | _, some _, [] => false
  | 0, some _, _ :: _ => false
  | fuel + 1, some i, Element.mk t a c :: es =>
    decide (i < n0) &&
    (match getFiber s i with
     | none => false
     | some fd =>
       decide (fd.type? = t) && decide (fd.attrs = a) && fd.dom.isSome &&
       oldMatchesBelow s n0 fuel fd.child c && oldMatchesBelow s n0 fuel fd.sibling es)

/-- A work fiber of the current generation (ids at or past `n0`) during a
no-op re-render: host node inherited, effect UPDATE (or none for the root
fiber `n0`), links inside the generation, and an alternate below `n0`
whose attributes agree and whose previous subtree matches this fiber's
descriptor children. -/
def goodFiber (F : Nat) (s : State) (n0 : Nat) (id : Nat) : Bool :=
  match getFiber s id with
  | none => false
  | some fd =>
    fd.dom.isSome &&
    (decide (id = n0 ∧ fd.effectTag = none) || decide (fd.effectTag = some Effect.update)) &&
    inRangeOpt n0 s.fiberCounter fd.parent &&
    inRangeOpt n0 s.fiberCounter fd.child &&
    inRangeOpt n0 s.fiberCounter fd.sibling &&
    (match fd.alternate with
     | none => false
     | some a =>
       decide (a < n0) &&
       (match getFiber s a with
        | none => false
        | some afd =>
          (!decide (fd.effectTag = some Effect.update) || decide (afd.attrs = fd.attrs)) &&
          oldMatchesBelow s n0 F afd.child fd.children))

/-- All fibers of the current generation are good. -/
def rangeAll (F : Nat) (s : State) (n0 : Nat) : Bool :=
  (List.range (s.fiberCounter - n0)).all fun j => goodFiber F s n0 (n0 + j)

/-- The state invariant of a no-op re-render build phase: generation
boundary respected, empty deletion list, the work-in-progress root is the
generation's first fiber, the next unit of work stays in the generation,
and every generation fiber is good. -/
def noopInv (F : Nat) (s : State) (n0 : Nat) : Bool :=
  decide (n0 ≤ s.fiberCounter) && fibersBelow s &&
  decide (s.deletions = some ([] : List Nat)) &&
  decide (s.wipRoot = some n0) &&
  inRangeOpt n0 s.fiberCounter s.nextUnitOfWork &&
  rangeAll F s n0

/-- The committed tree under the current root consists of exactly one
child fiber whose subtree matches the descriptor `e`. -/
def rootOldMatches (F : Nat) (s : State) (e : Element) : Bool :=
  match s.currentRoot with
  | none => false
  | some r =>
    match getFiber s r with
    | none => false
    | some rfd => oldMatchesBelow s s.fiberCounter F rfd.child [e]

/-- Stated from the specification for comparison with the code: the host
node of the nearest proper ancestor that owns a host node, skipping up
through ancestors with no host node. -/
def specNearestHostAncestorDom : Nat → State → Nat → Option Nat
  | 0, _, _ => none
  | fuel + 1, s, fid =>
    match getFiber s fid with
    | none => none
    | some fd =>
      match fd.parent with
      | none => none
      | some p =>
        match getFiber s p with
        | none => none
        | some pfd =>
          match pfd.dom with
          | some d => some d
          | none => specNearestHostAncestorDom fuel s p

/-- A host container node for concrete runs. -/
def containerNode : DomNode :=
  { isText := false, tag := "root", props := [], listeners := [], children := [] }

/-- A fresh renderer state: one container node (id 0), nothing rendered. -/
def baseState : State :=
  { fibers := [], fiberCounter := 0,
    dom := { counter := 1, nodes := [(0, containerNode)] },
    nextUnitOfWork := none, currentRoot := none, wipRoot := none, deletions := none }

/-- Concrete descriptor: an empty `div`. -/
def elDiv : Element := Element.mk (some "div") [] []

/-- Concrete descriptor: a `span` with one attribute. -/
def elSpan : Element := Element.mk (some "span") [("id", Value.str "s")] []

/-- Concrete descriptor: an empty `p`. -/
def elP : Element := Element.mk (some "p") [] []

/-- Concrete descriptor: `main` with children `[div, span]`. -/
def eMain1 : Element := Element.mk (some "main") [("class", Value.str "c")] [elDiv, elSpan]

/-- Concrete descriptor: `main` with children `[p, span]`. -/
def eMain2 : Element := Element.mk (some "main") [("class", Value.str "c")] [elP, elSpan]

/-- A deadline schedule with plenty of remaining time at every query. -/
def fullTime : Nat → Nat → Nat := fun _ _ => 100

/-- A deadline schedule that reports no remaining time at every query, so
each slice processes exactly one work node. -/
def oneNodeTime : Nat → Nat → Nat := fun _ _ => 0

/-- The state component of a run result, defaulting to the fresh state. -/
def stateAfter (r : Option (State × List (List Mutation))) : State :=
  (r.map Prod.fst).getD baseState

/-- First concrete cycle: render `main [div, span]` and run to
completion. -/
def firstCycle : Option (State × List (List Mutation)) :=
  runSlices fullTime 1000 2 (render eMain1 0 baseState)

/-- The state after the first concrete cycle. -/
def s1c : State := stateAfter firstCycle

/-- Second concrete cycle: render `main [p, span]` over the committed
first cycle and run to completion. -/
def secondCycle : Option (State × List (List Mutation)) :=
  runSlices fullTime 1000 2 (render eMain2 0 s1c)

/-- The state after the second concrete cycle. -/
def s2c : State := stateAfter secondCycle

/-- The second cycle yields exactly one DELETION (the old `div`, fiber 2),
one PLACEMENT (the new `p`, fiber 6) and one UPDATE (the `span`, fiber 7),
with the new chain holding exactly the placement followed by the update. -/
def c2check : Bool :=
  decide (s2c.deletions = some [2]) &&
  (match getFiber s2c 2 with
   | some fd => decide (fd.effectTag = some Effect.deletion) && decide (fd.type? = some "div")
   | none => false) &&
  (match getFiber s2c 5 with
   | some fd => decide (fd.child = some 6) && decide (fd.effectTag = some Effect.update)
   | none => false) &&
  (match getFiber s2c 6, getFiber s2c 7 with
   | some f6, some f7 =>
     decide (f6.effectTag = some Effect.placement) && decide (f6.type? = some "p") &&
     decide (f6.sibling = some 7) &&
     decide (f7.effectTag = some Effect.update) && decide (f7.type? = some "span") &&
     decide (f7.sibling = none)
   | _, _ => false)

/-- The state right after `render elDiv` on the fresh state: one pending
unit of work. -/
def sC6 : State := render elDiv 0 baseState

/-- A commit-phase state for the `domParent` question: fiber 2 carries
PLACEMENT and a host node, its parent (fiber 1) owns no host node, and its
grandparent (fiber 0) owns host node 5. -/
def fiberG : FiberData :=
  { type? := some "g", attrs := [], children := [], dom := some 5, parent := none,
    child := some 1, sibling := none, alternate := none, effectTag := none }

/-- The middle fiber without a host node. -/
def fiberMid : FiberData :=
  { type? := some "m", attrs := [], children := [], dom := none, parent := some 0,
    child := some 2, sibling := none, alternate := none, effectTag := none }

/-- The PLACEMENT leaf fiber owning host node 7. -/
def fiberLeaf : FiberData :=
  { type? := some "x", attrs := [], children := [], dom := some 7, parent := some 1,
    child := none, sibling := none, alternate := none, effectTag := some Effect.placement }

/-- A DELETION leaf fiber owning host node 7, also under the host-less
middle fiber. -/
def fiberLeafDel : FiberData :=
  { type? := some "y", attrs := [], children := [], dom := some 7, parent := some 1,
    child := none, sibling := none, alternate := none, effectTag := some Effect.deletion }

/-- A PLACEMENT fiber whose immediate parent (fiber 0) owns host node 5. -/
def fiberAtt : FiberData :=
  { type? := some "a", attrs := [], children := [], dom := some 7, parent := some 0,
    child := none, sibling := none, alternate := none, effectTag := some Effect.placement }

/-- A DELETION fiber whose immediate parent (fiber 0) owns host node 5. -/
def fiberDet : FiberData :=
  { type? := some "b", attrs := [], children := [], dom := some 7, parent := some 0,
    child := none, sibling := none, alternate := none, effectTag := some Effect.deletion }

/-- The commit-phase state for the `domParent` question: fibers 2
(PLACEMENT) and 3 (DELETION) own host node 7 under the host-less middle
fiber 1, whose own parent fiber 0 owns host node 5. -/
def sC7 : State :=
  { fibers := [(0, fiberG), (1, fiberMid), (2, fiberLeaf), (3, fiberLeafDel)],
    fiberCounter := 4,
    dom := { counter := 8, nodes := [(5, containerNode), (7, containerNode)] },
    nextUnitOfWork := none, currentRoot := none, wipRoot := none, deletions := some [] }

/-- The built-but-not-yet-committed state of the second concrete cycle,
obtained by running only the stepping loop. -/
def preCommitC8 : State :=
  ((workLoopAux (fullTime 0) 1000 0 (render eMain2 0 s1c)).map (fun r => r.1)).getD baseState

/-- `commitRoot` applied to the built second-cycle state. -/
def postCommitC8 : Option (State × List Mutation) := commitRoot 1000 preCommitC8

/-- A malformed descriptor: a non-text node with no `type`. -/
def badEl : Element := Element.mk none [] []

/-- The state right after `render badEl` on the fresh state. -/
def sC9 : State := render badEl 0 baseState

/-- Third concrete cycle: re-render the identical descriptor `eMain1`
over the committed first cycle. -/
def thirdCycle : Option (State × List (List Mutation)) :=
  runSlices fullTime 1000 2 (render eMain1 0 s1c)

/-- The state after the identical re-render cycle. -/
def s3c : State := stateAfter thirdCycle

/-- The per-slice logs of the identical re-render cycle. -/
def logs3c : List (List Mutation) := ((thirdCycle.map fun r => r.2)).getD []

/-- The ids-and-data view of a freshly allocated new-fiber list, keyed at
consecutive ids starting at `ctr`. -/
def newsChain (ctr : Nat) : List FiberData → List (Nat × FiberData)
  | [] => []
  | fd :: t => (ctr, fd) :: newsChain (ctr + 1) t

/-- An old committed child fiber of type `div` (id 1), for the concrete
mismatch scenario. -/
def oldDivFd : FiberData :=
  { type? := some "div", attrs := [], children := [], dom := some 1,
    parent := some 0, child := none, sibling := none, alternate := none,
    effectTag := none }

/-- The committed parent fiber (id 0) whose child chain is the single
`div`. -/
def oldRootFd : FiberData :=
  { type? := some "main", attrs := [], children := [elDiv], dom := some 0,
    parent := none, child := some 1, sibling := none, alternate := none,
    effectTag := none }

/-- The work-in-progress parent fiber (id 2) re-rendering `[p]` over the
committed `div` chain. -/
def wipMainFd : FiberData :=
  { type? := some "main", attrs := [], children := [elP], dom := some 0,
    parent := none, child := none, sibling := none, alternate := some 0,
    effectTag := some Effect.update }

/-- A small mid-build state: committed parent 0 with child `div` 1, fresh
work parent 2 about to reconcile `[p]`. -/
def sMismatch : State :=
  { fibers := [(2, wipMainFd), (1, oldDivFd), (0, oldRootFd)], fiberCounter := 3,
    dom := { counter := 2, nodes := [(0, containerNode)] },
    nextUnitOfWork := some 2, currentRoot := some 0, wipRoot := some 2,
    deletions := some [] }

theorem assocFind_set_self {κ α : Type} [DecidableEq κ] (k : κ) (v : α) (l : List (κ × α)) :
    assocFind k (assocSet k v l) = some v := by
  induction l with
  | nil => simp [assocSet, assocFind]
  | cons p t ih =>
    obtain ⟨k', v'⟩ := p
    by_cases h : k' = k
    · simp [assocSet, assocFind, h]
    · simp [assocSet, assocFind, h, ih]

theorem assocFind_set_ne {κ α : Type} [DecidableEq κ] {j k : κ} (v : α) (l : List (κ × α))
    (h : j ≠ k) : assocFind j (assocSet k v l) = assocFind j l := by
  have hkj : ¬ k = j := fun hh => h hh.symm
  induction l with
  | nil => simp [assocSet, assocFind, hkj]
  | cons p t ih =>
    obtain ⟨k', v'⟩ := p
    by_cases hk : k' = k
    · subst hk
      simp [assocSet, assocFind, hkj]
    · simp only [assocSet, if_neg hk]
      by_cases hj : k' = j
      · simp [assocFind, hj]
      · simp [assocFind, hj, ih]

theorem assocFind_mem {κ α : Type} [DecidableEq κ] {k : κ} {v : α} {l : List (κ × α)}
    (h : assocFind k l = some v) : (k, v) ∈ l := by
  induction l with
  | nil => simp [assocFind] at h
  | cons p t ih =>
    obtain ⟨k', v'⟩ := p
    by_cases hk : k' = k
    · subst hk
      simp [assocFind] at h
      simp [h]
    · simp [assocFind, hk] at h
      exact List.mem_cons_of_mem _ (ih h)

theorem assocSet_comm {κ α : Type} [DecidableEq κ] {i j : κ} (v w : α) (l : List (κ × α))
    (hij : i ≠ j) (hi : (assocFind i l).isSome) :
    assocSet j w (assocSet i v l) = assocSet i v (assocSet j w l) := by
  have hji : ¬ j = i := fun hh => hij hh.symm
  induction l with
  | nil => simp [assocFind] at hi
  | cons p t ih =>
    obtain ⟨k', v'⟩ := p
    by_cases hki : k' = i
    · subst hki
      simp [assocSet, hij, hji]
    · by_cases hkj : k' = j
      · subst hkj
        simp [assocSet, hki, hji]
      · simp [assocFind, hki] at hi
        simp [assocSet, hki, hkj, ih hi]

theorem getFiber_set_self (s : State) (i : Nat) (fd : FiberData) :
    getFiber (setFiber s i fd) i = some fd := by
  simp [getFiber, setFiber, assocFind_set_self]

theorem getFiber_set_ne (s : State) {i j : Nat} (fd : FiberData) (h : j ≠ i) :
    getFiber (setFiber s i fd) j = getFiber s j := by
  simp [getFiber, setFiber, assocFind_set_ne _ _ h]

theorem getFiber_alloc_self (s : State) (fd : FiberData) :
    getFiber ((allocFiber s fd).1) s.fiberCounter = some fd := by
  simp [getFiber, allocFiber, assocFind]

theorem getFiber_alloc_ne (s : State) {j : Nat} (fd : FiberData) (h : j ≠ s.fiberCounter) :
    getFiber ((allocFiber s fd).1) j = getFiber s j := by
  have h' : ¬ s.fiberCounter = j := fun hh => h hh.symm
  simp [getFiber, allocFiber, assocFind, h']

theorem getFiber_pushDeletion (s : State) (i j : Nat) :
    getFiber (pushDeletion s i) j = getFiber s j := rfl

theorem getFiber_markDeletion_ne (s : State) {oid j : Nat} (h : j ≠ oid) :
    getFiber (markDeletion s oid) j = getFiber s j := by
  unfold markDeletion
  cases hf : getFiber s oid with
  | none => rfl
  | some fd => simp [getFiber_pushDeletion, getFiber_set_ne _ _ h]

theorem getFiber_markDeletion_self {s : State} {oid : Nat} {fd : FiberData}
    (h : getFiber s oid = some fd) :
    getFiber (markDeletion s oid) oid = some { fd with effectTag := some Effect.deletion } := by
  unfold markDeletion
  rw [h]
  simp [getFiber_pushDeletion, getFiber_set_self]

theorem markDeletion_fiberCounter (s : State) (oid : Nat) :
    (markDeletion s oid).fiberCounter = s.fiberCounter := by
  unfold markDeletion
  cases getFiber s oid <;> rfl

theorem setFiber_fiberCounter (s : State) (i : Nat) (fd : FiberData) :
    (setFiber s i fd).fiberCounter = s.fiberCounter := rfl

theorem getFiber_markDeletions_notMem (s : State) (dels : List Nat) {j : Nat}
    (h : j ∉ dels) : getFiber (markDeletions s dels) j = getFiber s j := by
  induction dels generalizing s with
  | nil => rfl
  | cons d t ih =>
    have hj : j ≠ d := fun hh => h (hh ▸ List.mem_cons_self d t)
    have ht : j ∉ t := fun hh => h (List.mem_cons_of_mem d hh)
    rw [markDeletions, List.foldl_cons, ← markDeletions, ih _ ht]
    exact getFiber_markDeletion_ne s hj

theorem markDeletions_fiberCounter (s : State) (dels : List Nat) :
    (markDeletions s dels).fiberCounter = s.fiberCounter := by
  induction dels generalizing s with
  | nil => rfl
  | cons d t ih =>
    rw [markDeletions, List.foldl_cons, ← markDeletions, ih, markDeletion_fiberCounter]

theorem getFiber_markDeletions_mem (s : State) {dels : List Nat} {oid : Nat} {fd : FiberData}
    (hnd : dels.Nodup) (hmem : oid ∈ dels) (h : getFiber s oid = some fd) :
    getFiber (markDeletions s dels) oid = some { fd with effectTag := some Effect.deletion } := by
  induction dels generalizing s with
  | nil => simp at hmem
  | cons d t ih =>
    rw [markDeletions, List.foldl_cons, ← markDeletions]
    rcases List.mem_cons.mp hmem with hd | ht
    · subst hd
      have hnot : oid ∉ t := (List.nodup_cons.mp hnd).1
      rw [getFiber_markDeletions_notMem _ _ hnot, getFiber_markDeletion_self h]
    · have hne : oid ≠ d := fun hh => (List.nodup_cons.mp hnd).1 (hh ▸ ht)
      exact ih _ (List.nodup_cons.mp hnd).2 ht (by rw [getFiber_markDeletion_ne s hne]; exact h)

theorem allocNews_fiberCounter (s : State) (news : List FiberData) :
    (allocNews s news).fiberCounter = s.fiberCounter + news.length := by
  induction news generalizing s with
  | nil => rfl
  | cons fd t ih =>
    rw [allocNews, List.foldl_cons, ← allocNews, ih]
    simp [allocFiber]
    omega

theorem getFiber_allocNews_low (s : State) (news : List FiberData) {j : Nat}
    (h : j < s.fiberCounter) : getFiber (allocNews s news) j = getFiber s j := by
  induction news generalizing s with
  | nil => rfl
  | cons fd t ih =>
    rw [allocNews, List.foldl_cons, ← allocNews]
    have h2 : j < ((allocFiber s fd).1).fiberCounter := by
      simp [allocFiber]; omega
    rw [ih _ h2]
    exact getFiber_alloc_ne s fd (by omega)

theorem getFiber_allocNews_at (s : State) (news : List FiberData) :
    ∀ k, k < news.length →
      getFiber (allocNews s news) (s.fiberCounter + k) = news.get? k := by
  induction news generalizing s with
  | nil => intro k hk; simp at hk
  | cons fd t ih =>
    intro k hk
    rw [allocNews, List.foldl_cons, ← allocNews]
    cases k with
    | zero =>
      have hlow : s.fiberCounter < ((allocFiber s fd).1).fiberCounter := by
        simp [allocFiber]
      rw [Nat.add_zero, getFiber_allocNews_low _ _ hlow]
      simpa using getFiber_alloc_self s fd
    | succ k' =>
      have hk' : k' < t.length := by simpa using hk
      have hrec := ih ((allocFiber s fd).1) k' hk'
      have hc : ((allocFiber s fd).1).fiberCounter = s.fiberCounter + 1 := by
        simp [allocFiber]
      rw [hc] at hrec
      have harith : s.fiberCounter + 1 + k' = s.fiberCounter + (k' + 1) := by omega
      rw [harith] at hrec
      simpa using hrec

theorem setFiber_setFiber_comm (s : State) {i j : Nat} (v w : FiberData) (hij : i ≠ j)
    (hi : (getFiber s i).isSome) :
    setFiber (setFiber s i v) j w = setFiber (setFiber s j w) i v := by
  unfold setFiber
  rw [assocSet_comm v w s.fibers hij hi]

theorem setFiber_alloc_comm (s : State) {j : Nat} (fd nf : FiberData) (h : j ≠ s.fiberCounter) :
    (allocFiber (setFiber s j fd) nf).1 = setFiber ((allocFiber s nf).1) j fd := by
  have h' : ¬ s.fiberCounter = j := fun hh => h hh.symm
  unfold allocFiber setFiber
  simp [assocSet, h']

theorem pushDeletion_alloc_comm (s : State) (i : Nat) (nf : FiberData) :
    (allocFiber (pushDeletion s i) nf).1 = pushDeletion ((allocFiber s nf).1) i := rfl

theorem pushDeletion_setFiber_comm (s : State) (i j : Nat) (fd : FiberData) :
    setFiber (pushDeletion s i) j fd = pushDeletion (setFiber s j fd) i := rfl

theorem markDeletions_cons (s : State) (d : Nat) (t : List Nat) :
    markDeletions s (d :: t) = markDeletions (markDeletion s d) t := rfl

theorem allocNews_cons (s : State) (fd : FiberData) (t : List FiberData) :
    allocNews s (fd :: t) = allocNews ((allocFiber s fd).1) t := rfl

theorem setFiber_markDeletion_comm (s : State) {p oid : Nat} (v : FiberData) (hne : p ≠ oid)
    (hp : (getFiber s p).isSome) :
    markDeletion (setFiber s p v) oid = setFiber (markDeletion s oid) p v := by
  unfold markDeletion
  rw [getFiber_set_ne s v (Ne.symm hne)]
  cases hf : getFiber s oid with
  | none => rfl
  | some fd =>
    show pushDeletion
        (setFiber (setFiber s p v) oid { fd with effectTag := some Effect.deletion }) oid =
      setFiber (pushDeletion (setFiber s oid { fd with effectTag := some Effect.deletion }) oid) p v
    rw [pushDeletion_setFiber_comm]
    rw [setFiber_setFiber_comm s v _ hne hp]

theorem getFiber_isSome_markDeletion (s : State) (d : Nat) {x : Nat}
    (h : (getFiber s x).isSome) : (getFiber (markDeletion s d) x).isSome := by
  by_cases hx : x = d
  · subst hx
    cases hf : getFiber s x with
    | none => rw [hf] at h; simp at h
    | some fd => rw [getFiber_markDeletion_self hf]; rfl
  · rw [getFiber_markDeletion_ne s hx]; exact h

theorem setFiber_markDeletions_comm (s : State) {p : Nat} (v : FiberData) (dels : List Nat)
    (hne : p ∉ dels) (hp : (getFiber s p).isSome) :
    markDeletions (setFiber s p v) dels = setFiber (markDeletions s dels) p v := by
  induction dels generalizing s with
  | nil => rfl
  | cons d t ih =>
    have hpd : p ≠ d := fun hh => hne (hh ▸ List.mem_cons_self d t)
    have hpt : p ∉ t := fun hh => hne (List.mem_cons_of_mem d hh)
    rw [markDeletions_cons, setFiber_markDeletion_comm s v hpd hp,
        ih _ hpt (getFiber_isSome_markDeletion s d hp)]
    rfl

theorem markDeletion_alloc_comm (s : State) {oid : Nat} (nf : FiberData)
    (hne : oid ≠ s.fiberCounter) :
    markDeletion ((allocFiber s nf).1) oid = (allocFiber (markDeletion s oid) nf).1 := by
  unfold markDeletion
  rw [getFiber_alloc_ne s nf hne]
  cases hf : getFiber s oid with
  | none => rfl
  | some fd =>
    show pushDeletion
        (setFiber ((allocFiber s nf).1) oid { fd with effectTag := some Effect.deletion }) oid =
      (allocFiber
        (pushDeletion (setFiber s oid { fd with effectTag := some Effect.deletion }) oid) nf).1
    rw [pushDeletion_alloc_comm, setFiber_alloc_comm s _ nf hne]

theorem markDeletion_allocNews_comm (s : State) {oid : Nat} (news : List FiberData)
    (h : oid < s.fiberCounter) :
    markDeletion (allocNews s news) oid = allocNews (markDeletion s oid) news := by
  induction news generalizing s with
  | nil => rfl
  | cons fd t ih =>
    rw [allocNews_cons]
    have h2 : oid < ((allocFiber s fd).1).fiberCounter := by simp [allocFiber]; omega
    rw [ih _ h2, markDeletion_alloc_comm s fd (by omega)]
    rfl

theorem markDeletions_allocNews_comm (s : State) (dels : List Nat) (news : List FiberData)
    (h : ∀ oid ∈ dels, oid < s.fiberCounter) :
    markDeletions (allocNews s news) dels = allocNews (markDeletions s dels) news := by
  induction dels generalizing s with
  | nil => rfl
  | cons d t ih =>
    rw [markDeletions_cons, markDeletion_allocNews_comm s news (h d (List.mem_cons_self d t)),
        ih _ (fun oid hm => by
          rw [markDeletion_fiberCounter]
          exact h oid (List.mem_cons_of_mem d hm))]
    rfl

theorem setFiber_allocNews_comm (s : State) {j : Nat} (fd : FiberData) (news : List FiberData)
    (h : j < s.fiberCounter) :
    allocNews (setFiber s j fd) news = setFiber (allocNews s news) j fd := by
  induction news generalizing s with
  | nil => rfl
  | cons nf t ih =>
    rw [allocNews_cons]
    rw [show (allocFiber (setFiber s j fd) nf).1 = setFiber ((allocFiber s nf).1) j fd from
          setFiber_alloc_comm s fd nf (by omega)]
    have h2 : j < ((allocFiber s nf).1).fiberCounter := by simp [allocFiber]; omega
    rw [ih _ h2]
    rfl

theorem alloc_absorb (s : State) (nf nf' : FiberData) :
    setFiber ((allocFiber s nf).1) s.fiberCounter nf' = (allocFiber s nf').1 := by
  unfold allocFiber setFiber
  simp [assocSet]

theorem setSiblingTotal_eq {s : State} {i : Nat} {fd : FiberData} (c : Option Nat)
    (h : getFiber s i = some fd) :
    setSiblingTotal s i c = setFiber s i { fd with sibling := c } := by
  unfold setSiblingTotal
  rw [h]

theorem setChildTotal_eq {s : State} {i : Nat} {fd : FiberData} (c : Option Nat)
    (h : getFiber s i = some fd) :
    setChildTotal s i c = setFiber s i { fd with child := c } := by
  unfold setChildTotal
  rw [h]

theorem isChainB_entries {s : State} : ∀ {cur : Option Nat} {olds : List (Nat × FiberData)},
    isChainB s cur olds = true → ∀ pr ∈ olds, getFiber s pr.1 = some pr.2 := by
  intro cur olds
  induction olds generalizing cur with
  | nil => intro _ pr hpr; simp at hpr
  | cons hd t ih =>
    obtain ⟨j, fd⟩ := hd
    intro h pr hpr
    cases cur with
    | none => simp [isChainB] at h
    | some i =>
      simp only [isChainB, Bool.and_eq_true, decide_eq_true_eq] at h
      obtain ⟨⟨hij, hent⟩, hrest⟩ := h
      subst hij
      rcases List.mem_cons.mp hpr with he | ht
      · subst he
        exact hent
      · exact ih hrest pr ht

theorem isChainB_preserve {s s' : State} : ∀ {cur : Option Nat} {olds : List (Nat × FiberData)},
    isChainB s cur olds = true →
    (∀ pr ∈ olds, getFiber s' pr.1 = getFiber s pr.1) →
    isChainB s' cur olds = true := by
  intro cur olds
  induction olds generalizing cur with
  | nil => intro h _; cases cur <;> simpa [isChainB] using h
  | cons hd t ih =>
    obtain ⟨j, fd⟩ := hd
    intro h hsame
    cases cur with
    | none => simp [isChainB] at h
    | some i =>
      simp only [isChainB, Bool.and_eq_true, decide_eq_true_eq] at h ⊢
      obtain ⟨⟨hij, hent⟩, hrest⟩ := h
      subst hij
      have hs : getFiber s' i = getFiber s i := hsame (i, fd) (List.mem_cons_self _ _)
      refine ⟨⟨rfl, ?_⟩, ?_⟩
      · rw [hs]
        exact hent
      · exact ih hrest (fun pr hpr => hsame pr (List.mem_cons_of_mem _ hpr))

theorem isChainB_unique {s : State} : ∀ {l1 : List (Nat × FiberData)} {cur : Option Nat}
    {l2 : List (Nat × FiberData)},
    isChainB s cur l1 = true → isChainB s cur l2 = true → l1 = l2 := by
  intro l1
  induction l1 with
  | nil =>
    intro cur l2 h1 h2
    cases cur with
    | none => cases l2 with
      | nil => rfl
      | cons x xs => simp [isChainB] at h2
    | some i => simp [isChainB] at h1
  | cons hd t ih =>
    obtain ⟨j, fd⟩ := hd
    intro cur l2 h1 h2
    cases cur with
    | none => simp [isChainB] at h1
    | some i =>
      simp only [isChainB, Bool.and_eq_true, decide_eq_true_eq] at h1
      obtain ⟨⟨hij, hent⟩, hrest⟩ := h1
      subst hij
      cases l2 with
      | nil => simp [isChainB] at h2
      | cons hd2 t2 =>
        obtain ⟨j2, fd2⟩ := hd2
        simp only [isChainB, Bool.and_eq_true, decide_eq_true_eq] at h2
        obtain ⟨⟨hij2, hent2⟩, hrest2⟩ := h2
        subst hij2
        have hfd : fd = fd2 := Option.some.inj (hent.symm.trans hent2)
        subst hfd
        rw [ih hrest hrest2]

theorem isChainB_member_chain {s : State} :
    ∀ {pre : List (Nat × FiberData)} {cur : Option Nat} {j : Nat} {fd : FiberData}
      {suf : List (Nat × FiberData)},
    isChainB s cur (pre ++ (j, fd) :: suf) = true →
    isChainB s (some j) ((j, fd) :: suf) = true := by
  intro pre
  induction pre with
  | nil =>
    intro cur j fd suf h
    cases cur with
    | none => simp [isChainB] at h
    | some i =>
      simp only [List.nil_append] at h
      simp only [isChainB, Bool.and_eq_true, decide_eq_true_eq] at h ⊢
      obtain ⟨⟨hij, hent⟩, hrest⟩ := h
      subst hij
      exact ⟨⟨by simp, hent⟩, hrest⟩
  | cons hd t ih =>
    obtain ⟨k, kfd⟩ := hd
    intro cur j fd suf h
    cases cur with
    | none => simp [isChainB] at h
    | some i =>
      simp only [List.cons_append, isChainB, Bool.and_eq_true, decide_eq_true_eq] at h
      exact ih h.2

theorem isChainB_nodup {s : State} : ∀ {olds : List (Nat × FiberData)} {cur : Option Nat},
    isChainB s cur olds = true → (olds.map Prod.fst).Nodup := by
  intro olds
  induction olds with
  | nil => intro _ _; simp
  | cons hd t ih =>
    obtain ⟨j, fd⟩ := hd
    intro cur h
    cases cur with
    | none => simp [isChainB] at h
    | some i =>
      simp only [isChainB, Bool.and_eq_true, decide_eq_true_eq] at h
      obtain ⟨⟨hij, hent⟩, hrest⟩ := h
      rw [hij] at hent
      simp only [List.map_cons, List.nodup_cons]
      refine ⟨?_, ih hrest⟩
      intro hmem
      obtain ⟨⟨j2, fd2⟩, hpr, hj2⟩ := List.exists_of_mem_map hmem
      have hj2' : j2 = j := hj2
      rw [hj2'] at hpr
      obtain ⟨pre, suf, hsplit⟩ := List.append_of_mem hpr
      have hrest2 := hrest
      rw [hsplit] at hrest2
      have hsub := isChainB_member_chain hrest2
      have hfull : isChainB s (some j) ((j, fd) :: t) = true := by
        simp only [isChainB, Bool.and_eq_true, decide_eq_true_eq]
        exact ⟨⟨by simp, hent⟩, hrest⟩
      have heq := isChainB_unique hfull hsub
      have hlen : ((j, fd) :: t).length = ((j, fd2) :: suf).length := by rw [heq]
      simp only [List.length_cons] at hlen
      rw [hsplit] at hlen
      simp [List.length_append] at hlen
      omega

theorem isChainB_nil_cur {s : State} {cur : Option Nat}
    (h : isChainB s cur [] = true) : cur = none := by
  cases cur with
  | none => rfl
  | some i => simp [isChainB] at h

theorem isChainB_cons_elim {s : State} {cur : Option Nat} {j : Nat} {fd : FiberData}
    {rest : List (Nat × FiberData)} (h : isChainB s cur ((j, fd) :: rest) = true) :
    cur = some j ∧ getFiber s j = some fd ∧ isChainB s fd.sibling rest = true := by
  cases cur with
  | none => simp [isChainB] at h
  | some i =>
    simp only [isChainB, Bool.and_eq_true, decide_eq_true_eq] at h
    obtain ⟨⟨hij, hent⟩, hrest⟩ := h
    rw [hij] at hent
    exact ⟨by rw [hij], hent, hrest⟩

theorem reconcileDels_subset : ∀ (es : List Element) (olds : List (Nat × FiberData)),
    ∀ oid ∈ reconcileDels es olds, oid ∈ olds.map Prod.fst := by
  intro es
  induction es with
  | nil =>
    intro olds
    induction olds with
    | nil => intro oid h; simp [reconcileDels] at h
    | cons hd t iht =>
      obtain ⟨j, fd⟩ := hd
      intro oid h
      simp only [reconcileDels] at h
      rcases List.mem_cons.mp h with he | ht
      · simp [he]
      · exact List.mem_cons_of_mem _ (iht oid ht)
  | cons e es ih =>
    intro olds
    cases olds with
    | nil => intro oid h; simp [reconcileDels] at h
    | cons hd t =>
      obtain ⟨j, fd⟩ := hd
      intro oid h
      simp only [reconcileDels] at h
      by_cases htype : fd.type? = e.type?
      · rw [if_pos htype] at h
        exact List.mem_cons_of_mem _ (ih t oid h)
      · rw [if_neg htype] at h
        rcases List.mem_cons.mp h with he | ht
        · simp [he]
        · exact List.mem_cons_of_mem _ (ih t oid ht)

theorem reconcileDels_olds_nil (es : List Element) :
    reconcileDels es [] = [] := by
  cases es <;> rfl

theorem allocFiber_snd (s : State) (fd : FiberData) : (allocFiber s fd).2 = s.fiberCounter := rfl

theorem reconcileStep_delTail {wip : Nat} {elements : List Element} {s : State} {i oid : Nat}
    {ofd : FiberData} (prevSib : Option Nat)
    (hone : getFiber s oid = some ofd) (he : elements.get? i = none) (hi : i ≠ 0) :
    reconcileStep wip elements s i (some oid) prevSib =
      some (markDeletion s oid, ofd.sibling, none) := by
  unfold reconcileStep
  simp only [fetchFiber, hone, he]
  simp [markDeletion, hone, hi, getFiber_pushDeletion, getFiber_set_self]

theorem reconcileStep_placeTail {wip : Nat} {elements : List Element} {s : State} {i : Nat}
    {e : Element} {p : Nat} {pfd : FiberData}
    (he : elements.get? i = some e) (hi : i ≠ 0)
    (hpc : p ≠ s.fiberCounter) (hp : getFiber s p = some pfd) :
    reconcileStep wip elements s i none (some p) =
      some (setFiber ((allocFiber s (placementFiberFD wip e)).1) p
              { pfd with sibling := some s.fiberCounter },
            none, some s.fiberCounter) := by
  unfold reconcileStep
  simp only [fetchFiber, he]
  have hp1 : getFiber ((allocFiber s (placementFiberFD wip e)).1) p = some pfd := by
    rw [getFiber_alloc_ne s _ hpc]; exact hp
  simp only [placementFiberFD] at hp1
  simp [hi, setFiberSibling, hp1, placementFiberFD, allocFiber_snd]

theorem reconcileStep_updateTail {wip : Nat} {elements : List Element} {s : State}
    {i oid : Nat} {ofd : FiberData} {e : Element} {p : Nat} {pfd : FiberData}
    (hone : getFiber s oid = some ofd) (he : elements.get? i = some e)
    (htype : ofd.type? = e.type?) (hi : i ≠ 0)
    (hoc : oid ≠ s.fiberCounter) (hpc : p ≠ s.fiberCounter)
    (hp : getFiber s p = some pfd) :
    reconcileStep wip elements s i (some oid) (some p) =
      some (setFiber ((allocFiber s (updateFiberFD wip oid ofd e)).1) p
              { pfd with sibling := some s.fiberCounter },
            ofd.sibling, some s.fiberCounter) := by
  unfold reconcileStep
  simp only [fetchFiber, hone, he, hi]
  have ho1 : getFiber ((allocFiber s (updateFiberFD wip oid ofd e)).1) oid = some ofd := by
    rw [getFiber_alloc_ne s _ hoc]; exact hone
  have hp1 : getFiber ((allocFiber s (updateFiberFD wip oid ofd e)).1) p = some pfd := by
    rw [getFiber_alloc_ne s _ hpc]; exact hp
  simp only [updateFiberFD] at ho1 hp1
  simp only [htype] at ho1 hp1
  simp [hi, htype, setFiberSibling, ho1, hp1, updateFiberFD, allocFiber_snd]

theorem reconcileStep_mismatchTail {wip : Nat} {elements : List Element} {s : State}
    {i oid : Nat} {ofd : FiberData} {e : Element} {p : Nat} {pfd : FiberData}
    (hone : getFiber s oid = some ofd) (he : elements.get? i = some e)
    (htype : ¬ ofd.type? = e.type?) (hi : i ≠ 0)
    (hoc : oid ≠ s.fiberCounter) (hpc : p ≠ s.fiberCounter) (hpo : p ≠ oid)
    (hp : getFiber s p = some pfd) :
    reconcileStep wip elements s i (some oid) (some p) =
      some (setFiber (markDeletion ((allocFiber s (placementFiberFD wip e)).1) oid) p
              { pfd with sibling := some s.fiberCounter },
            ofd.sibling, some s.fiberCounter) := by
  unfold reconcileStep
  simp only [fetchFiber, hone, he]
  have ho1 : getFiber ((allocFiber s (placementFiberFD wip e)).1) oid = some ofd := by
    rw [getFiber_alloc_ne s _ hoc]; exact hone
  have ho2 : getFiber (markDeletion ((allocFiber s (placementFiberFD wip e)).1) oid) oid =
      some { ofd with effectTag := some Effect.deletion } := getFiber_markDeletion_self ho1
  have hp2 : getFiber (markDeletion ((allocFiber s (placementFiberFD wip e)).1) oid) p =
      some pfd := by
    rw [getFiber_markDeletion_ne _ hpo, getFiber_alloc_ne s _ hpc]; exact hp
  simp only [markDeletion, ho1] at ho2 hp2
  simp only [placementFiberFD] at ho1 ho2 hp2
  simp [hi, htype, setFiberSibling, ho1, ho2, hp2, markDeletion, placementFiberFD, allocFiber_snd]

theorem reconcileStep_delHead {wip : Nat} {elements : List Element} {s : State} {oid : Nat}
    {ofd wfd : FiberData} (prevSib : Option Nat)
    (hone : getFiber s oid = some ofd) (he : elements.get? 0 = none)
    (hwo : wip ≠ oid) (hw : getFiber s wip = some wfd) :
    reconcileStep wip elements s 0 (some oid) prevSib =
      some (setFiber (markDeletion s oid) wip { wfd with child := none },
            ofd.sibling, none) := by
  unfold reconcileStep
  simp only [fetchFiber, hone, he]
  have hw2 : getFiber (markDeletion s oid) wip = some wfd := by
    rw [getFiber_markDeletion_ne s hwo]; exact hw
  have ho2 : getFiber (markDeletion s oid) oid =
      some { ofd with effectTag := some Effect.deletion } := getFiber_markDeletion_self hone
  simp only [markDeletion, hone] at hw2 ho2
  simp [setFiberChild, hw2, ho2, markDeletion, hone]

theorem reconcileStep_placeHead {wip : Nat} {elements : List Element} {s : State}
    {e : Element} {wfd : FiberData} (prevSib : Option Nat)
    (he : elements.get? 0 = some e)
    (hwc : wip ≠ s.fiberCounter) (hw : getFiber s wip = some wfd) :
    reconcileStep wip elements s 0 none prevSib =
      some (setFiber ((allocFiber s (placementFiberFD wip e)).1) wip
              { wfd with child := some s.fiberCounter },
            none, some s.fiberCounter) := by
  unfold reconcileStep
  simp only [fetchFiber, he]
  have hw1 : getFiber ((allocFiber s (placementFiberFD wip e)).1) wip = some wfd := by
    rw [getFiber_alloc_ne s _ hwc]; exact hw
  simp only [placementFiberFD] at hw1
  simp [setFiberChild, hw1, placementFiberFD, allocFiber_snd]

theorem reconcileStep_updateHead {wip : Nat} {elements : List Element} {s : State}
    {oid : Nat} {ofd : FiberData} {e : Element} {wfd : FiberData} (prevSib : Option Nat)
    (hone : getFiber s oid = some ofd) (he : elements.get? 0 = some e)
    (htype : ofd.type? = e.type?)
    (hoc : oid ≠ s.fiberCounter) (hwc : wip ≠ s.fiberCounter)
    (hw : getFiber s wip = some wfd) :
    reconcileStep wip elements s 0 (some oid) prevSib =
      some (setFiber ((allocFiber s (updateFiberFD wip oid ofd e)).1) wip
              { wfd with child := some s.fiberCounter },
            ofd.sibling, some s.fiberCounter) := by
  unfold reconcileStep
  simp only [fetchFiber, hone, he]
  have ho1 : getFiber ((allocFiber s (updateFiberFD wip oid ofd e)).1) oid = some ofd := by
    rw [getFiber_alloc_ne s _ hoc]; exact hone
  have hw1 : getFiber ((allocFiber s (updateFiberFD wip oid ofd e)).1) wip = some wfd := by
    rw [getFiber_alloc_ne s _ hwc]; exact hw
  simp only [updateFiberFD] at ho1 hw1
  simp only [htype] at ho1 hw1
  simp [htype, setFiberChild, ho1, hw1, updateFiberFD, allocFiber_snd]

theorem reconcileStep_mismatchHead {wip : Nat} {elements : List Element} {s : State}
    {oid : Nat} {ofd : FiberData} {e : Element} {wfd : FiberData} (prevSib : Option Nat)
    (hone : getFiber s oid = some ofd) (he : elements.get? 0 = some e)
    (htype : ¬ ofd.type? = e.type?)
    (hoc : oid ≠ s.fiberCounter) (hwc : wip ≠ s.fiberCounter) (hwo : wip ≠ oid)
    (hw : getFiber s wip = some wfd) :
    reconcileStep wip elements s 0 (some oid) prevSib =
      some (setFiber (markDeletion ((allocFiber s (placementFiberFD wip e)).1) oid) wip
              { wfd with child := some s.fiberCounter },
            ofd.sibling, some s.fiberCounter) := by
  unfold reconcileStep
  simp only [fetchFiber, hone, he]
  have ho1 : getFiber ((allocFiber s (placementFiberFD wip e)).1) oid = some ofd := by
    rw [getFiber_alloc_ne s _ hoc]; exact hone
  have ho2 : getFiber (markDeletion ((allocFiber s (placementFiberFD wip e)).1) oid) oid =
      some { ofd with effectTag := some Effect.deletion } := getFiber_markDeletion_self ho1
  have hw2 : getFiber (markDeletion ((allocFiber s (placementFiberFD wip e)).1) oid) wip =
      some wfd := by
    rw [getFiber_markDeletion_ne _ hwo, getFiber_alloc_ne s _ hwc]; exact hw
  simp only [markDeletion, ho1] at ho2 hw2
  simp only [placementFiberFD] at ho1 ho2 hw2
  simp [htype, setFiberChild, ho1, ho2, hw2, markDeletion, placementFiberFD, allocFiber_snd]

theorem markDeletions_append (s : State) (a b : List Nat) :
    markDeletions s (a ++ b) = markDeletions (markDeletions s a) b := by
  simp [markDeletions, List.foldl_append]

theorem get?_eq_head?_drop {α : Type} (l : List α) (i : Nat) :
    l.get? i = (l.drop i).head? := by
  have h1 : (l.drop i).get? 0 = l.get? (i + 0) := List.get?_drop l i 0
  rw [Nat.add_zero] at h1
  rw [← h1]
  cases l.drop i <;> rfl

theorem getFiber_isSome_markDeletions (s : State) (dels : List Nat) {x : Nat}
    (h : (getFiber s x).isSome) : (getFiber (markDeletions s dels) x).isSome := by
  induction dels generalizing s with
  | nil => exact h
  | cons d t ih => exact ih _ (getFiber_isSome_markDeletion s d h)

theorem reconcileStep_tail_noPrev {wip : Nat} {elements : List Element} {s : State}
    {i : Nat} {e : Element} (cur : Option Nat)
    (he : elements.get? i = some e) (hi : i ≠ 0) :
    reconcileStep wip elements s i cur none = none := by
  have he' : elements[i]? = some e := by rw [← List.get?_eq_getElem?]; exact he
  unfold reconcileStep
  cases hf : fetchFiber s cur with
  | none => rfl
  | some oldF =>
    cases oldF with
    | none => simp [he, he', hi]
    | some pr =>
      obtain ⟨oid, ofd⟩ := pr
      by_cases ht : ofd.type? = e.type?
      · simp [he, he', hi, ht]
      · cases hg : getFiber ((allocFiber s
            { type? := e.type?, attrs := e.attrs, children := e.children, dom := none,
              parent := some wip, child := none, sibling := none,
              alternate := none, effectTag := some Effect.placement }).1) oid with
        | none => simp [he, he', hi, ht, hg]
        | some cur2 => simp [he, he', hi, ht, hg]

theorem linkRecombine (s : State) {p : Nat} (v nf : FiberData)
    (delHead dels' : List Nat) (news' : List FiberData) (linkNew : Bool)
    (hp : (getFiber s p).isSome) (hplt : p < s.fiberCounter)
    (hpd1 : p ∉ delHead) (hpd2 : p ∉ dels')
    (hd1 : ∀ d ∈ delHead, d < s.fiberCounter) (hd2 : ∀ d ∈ dels', d < s.fiberCounter)
    (hctr2 : s.fiberCounter ∉ dels') :
    (if linkNew then
      setSiblingTotal
        (markDeletions (allocNews
          (setFiber (markDeletions ((allocFiber s nf).1) delHead) p v) news') dels')
        s.fiberCounter (some (s.fiberCounter + 1))
    else
      markDeletions (allocNews
        (setFiber (markDeletions ((allocFiber s nf).1) delHead) p v) news') dels') =
      setFiber (markDeletions (allocNews s
          ({ nf with sibling := if linkNew then some (s.fiberCounter + 1) else nf.sibling }
            :: news')) (delHead ++ dels')) p v := by
  have hpc : p ≠ s.fiberCounter := Nat.ne_of_lt hplt
  have hctr1 : s.fiberCounter ∉ delHead := fun hmem => absurd (hd1 _ hmem) (by omega)
  have hctr2' : s.fiberCounter ∉ delHead ++ dels' := by
    intro hmem
    rcases List.mem_append.mp hmem with h1 | h2
    · exact hctr1 h1
    · exact hctr2 h2
  have hpdAll : p ∉ delHead ++ dels' := by
    intro hmem
    rcases List.mem_append.mp hmem with h1 | h2
    · exact hpd1 h1
    · exact hpd2 h2
  have hs1ctr : ((allocFiber s nf).1).fiberCounter = s.fiberCounter + 1 := rfl
  have hmctr : (markDeletions ((allocFiber s nf).1) delHead).fiberCounter =
      s.fiberCounter + 1 := by
    rw [markDeletions_fiberCounter, hs1ctr]
  have hpm : (getFiber (markDeletions ((allocFiber s nf).1) delHead) p).isSome := by
    rw [getFiber_markDeletions_notMem _ _ hpd1, getFiber_alloc_ne s nf hpc]
    exact hp
  -- pull the p-write out of the allocations and marks
  have hstep1 : markDeletions (allocNews
      (setFiber (markDeletions ((allocFiber s nf).1) delHead) p v) news') dels' =
      setFiber (markDeletions
        (allocNews (markDeletions ((allocFiber s nf).1) delHead) news') dels') p v := by
    rw [setFiber_allocNews_comm _ v news' (by rw [hmctr]; omega)]
    rw [setFiber_markDeletions_comm _ v dels' hpd2]
    rw [getFiber_allocNews_low (markDeletions ((allocFiber s nf).1) delHead) news'
        (by rw [hmctr]; omega)]
    exact hpm
  -- merge the two mark passes
  have hstep2 : markDeletions (allocNews (markDeletions ((allocFiber s nf).1) delHead) news')
      dels' = markDeletions (allocNews ((allocFiber s nf).1) news') (delHead ++ dels') := by
    rw [← markDeletions_allocNews_comm _ delHead news'
          (fun d hd => by rw [hs1ctr]; exact Nat.lt_succ_of_lt (hd1 d hd)),
        markDeletions_append]
  cases linkNew with
  | false =>
    simp only [if_false, Bool.false_eq_true]
    rw [hstep1, hstep2]
    rfl
  | true =>
    simp only [if_true]
    have hpresCtr : (getFiber (allocNews ((allocFiber s nf).1) news') s.fiberCounter).isSome := by
      rw [getFiber_allocNews_low _ news' (by rw [hs1ctr]; omega),
          getFiber_alloc_self s nf]
      rfl
    have hread : getFiber (markDeletions (allocNews
        (setFiber (markDeletions ((allocFiber s nf).1) delHead) p v) news') dels')
        s.fiberCounter = some nf := by
      rw [hstep1, hstep2]
      rw [getFiber_set_ne _ _ (Ne.symm hpc)]
      rw [getFiber_markDeletions_notMem _ _ hctr2']
      rw [getFiber_allocNews_low _ news' (by rw [hs1ctr]; omega)]
      exact getFiber_alloc_self s nf
    rw [setSiblingTotal_eq _ hread, hstep1, hstep2]
    have hpresP : (getFiber (markDeletions (allocNews ((allocFiber s nf).1) news')
        (delHead ++ dels')) p).isSome := by
      rw [getFiber_markDeletions_notMem _ _ hpdAll]
      rw [getFiber_allocNews_low _ news' (by rw [hs1ctr]; omega)]
      rw [getFiber_alloc_ne s nf hpc]
      exact hp
    rw [setFiber_setFiber_comm _ v _ hpc hpresP]
    rw [← setFiber_markDeletions_comm _ _ (delHead ++ dels') hctr2' hpresCtr]
    rw [← setFiber_allocNews_comm _ _ news' (by rw [hs1ctr]; omega)]
    rw [alloc_absorb]
    rfl

theorem reconcileAux_done {wip : Nat} {es : List Element} {fuel i : Nat} {s : State}
    {prevSib : Option Nat} {s' : State}
    (hdrop : es.drop i = ([] : List Element))
    (hrun : reconcileAux wip es fuel s i none prevSib = some s') :
    s' = s := by
  cases fuel with
  | zero => simp [reconcileAux] at hrun
  | succ f =>
    have hlen : ¬ i < es.length := by
      have hl := List.length_drop i es
      rw [hdrop] at hl
      simp at hl
      omega
    simp only [reconcileAux] at hrun
    rw [if_neg (by simp [hlen])] at hrun
    exact (Option.some.inj hrun).symm

theorem applyReconcileTail_nil (s : State) (wip : Nat) (prevSib : Option Nat) :
    applyReconcileTail s wip [] [] prevSib = s := rfl

theorem applyTail_step (s : State) (wip p : Nat) (pfd nf : FiberData) (e : Element)
    (esfx' : List Element) (oldsAll olds' : List (Nat × FiberData))
    (delHead dels' : List Nat) (news' : List FiberData)
    (hpfd : getFiber s p = some pfd) (hplt : p < s.fiberCounter)
    (hnfsib : nf.sibling = none)
    (hN : reconcileNews wip s.fiberCounter (e :: esfx') oldsAll =
      { nf with sibling := if esfx'.isEmpty then none else some (s.fiberCounter + 1) } :: news')
    (hN' : reconcileNews wip (s.fiberCounter + 1) esfx' olds' = news')
    (hDAll : reconcileDels (e :: esfx') oldsAll = delHead ++ dels')
    (hD' : reconcileDels esfx' olds' = dels')
    (hpd1 : p ∉ delHead) (hpd2 : p ∉ dels')
    (hd1 : ∀ d ∈ delHead, d < s.fiberCounter) (hd2 : ∀ d ∈ dels', d < s.fiberCounter)
    (hctr2 : s.fiberCounter ∉ dels') :
    applyReconcileTail (setFiber (markDeletions ((allocFiber s nf).1) delHead) p
        { pfd with sibling := some s.fiberCounter }) wip esfx' olds' (some s.fiberCounter) =
      applyReconcileTail s wip (e :: esfx') oldsAll (some p) := by
  have hpdAll : p ∉ delHead ++ dels' := by
    intro hmem
    rcases List.mem_append.mp hmem with h1 | h2
    · exact hpd1 h1
    · exact hpd2 h2
  have hS3ctr : (setFiber (markDeletions ((allocFiber s nf).1) delHead) p
      { pfd with sibling := some s.fiberCounter }).fiberCounter = s.fiberCounter + 1 := by
    rw [setFiber_fiberCounter, markDeletions_fiberCounter]
    rfl
  cases esfx' with
  | nil =>
    have hifn : (if ([] : List Element).isEmpty then (none : Option Nat)
        else some (s.fiberCounter + 1)) = none := rfl
    rw [hifn] at hN
    have hN2 : news' = [] := by
      have hx : reconcileNews wip (s.fiberCounter + 1) ([] : List Element) olds' = [] := rfl
      rw [hx] at hN'
      exact hN'.symm
    subst hN2
    have hreadP : getFiber (markDeletions (allocNews s
        ({ nf with sibling := (none : Option Nat) } :: ([] : List FiberData)))
        (delHead ++ dels')) p = some pfd := by
      rw [getFiber_markDeletions_notMem _ _ hpdAll, getFiber_allocNews_low _ _ hplt]
      exact hpfd
    show markDeletions (allocNews
        (setFiber (markDeletions ((allocFiber s nf).1) delHead) p
          { pfd with sibling := some s.fiberCounter })
        (reconcileNews wip (setFiber (markDeletions ((allocFiber s nf).1) delHead) p
          { pfd with sibling := some s.fiberCounter }).fiberCounter [] olds'))
      (reconcileDels [] olds') = _
    rw [hS3ctr, show reconcileNews wip (s.fiberCounter + 1) ([] : List Element) olds' =
        ([] : List FiberData) from rfl, hD']
    show _ = setSiblingTotal (markDeletions (allocNews s
        (reconcileNews wip s.fiberCounter [e] oldsAll)) (reconcileDels [e] oldsAll))
        p (some s.fiberCounter)
    rw [hN, hDAll]
    rw [setSiblingTotal_eq (some s.fiberCounter) hreadP]
    have hrec := linkRecombine s ({ pfd with sibling := some s.fiberCounter }) nf
      delHead dels' [] false (by rw [hpfd]; rfl) hplt hpd1 hpd2 hd1 hd2 hctr2
    simp only [Bool.false_eq_true, if_false] at hrec
    have hhead2 : ({ nf with sibling := nf.sibling } : FiberData) = nf := rfl
    rw [hhead2] at hrec
    have hhead : ({ nf with sibling := (none : Option Nat) } : FiberData) = nf := by
      rw [← hnfsib]
    rw [hhead]
    exact hrec
  | cons e2 es2 =>
    have hifs : (if (e2 :: es2).isEmpty then (none : Option Nat)
        else some (s.fiberCounter + 1)) = some (s.fiberCounter + 1) := rfl
    rw [hifs] at hN
    have hreadP : getFiber (markDeletions (allocNews s
        ({ nf with sibling := some (s.fiberCounter + 1) } :: news'))
        (delHead ++ dels')) p = some pfd := by
      rw [getFiber_markDeletions_notMem _ _ hpdAll, getFiber_allocNews_low _ _ hplt]
      exact hpfd
    show setSiblingTotal (markDeletions (allocNews
        (setFiber (markDeletions ((allocFiber s nf).1) delHead) p
          { pfd with sibling := some s.fiberCounter })
        (reconcileNews wip (setFiber (markDeletions ((allocFiber s nf).1) delHead) p
          { pfd with sibling := some s.fiberCounter }).fiberCounter (e2 :: es2) olds'))
      (reconcileDels (e2 :: es2) olds')) s.fiberCounter
      (some (setFiber (markDeletions ((allocFiber s nf).1) delHead) p
        { pfd with sibling := some s.fiberCounter }).fiberCounter) = _
    rw [hS3ctr, hN', hD']
    show _ = setSiblingTotal (markDeletions (allocNews s
        (reconcileNews wip s.fiberCounter (e :: e2 :: es2) oldsAll))
        (reconcileDels (e :: e2 :: es2) oldsAll)) p (some s.fiberCounter)
    rw [hN, hDAll]
    rw [setSiblingTotal_eq (some s.fiberCounter) hreadP]
    have hrec := linkRecombine s ({ pfd with sibling := some s.fiberCounter }) nf
      delHead dels' news' true (by rw [hpfd]; rfl) hplt hpd1 hpd2 hd1 hd2 hctr2
    simp only [if_true] at hrec
    exact hrec

theorem reconcileAux_tail (wip : Nat) (es : List Element) :
    ∀ (n : Nat) (esfx : List Element) (olds : List (Nat × FiberData)) (fuel i : Nat)
      (s : State) (cur prevSib : Option Nat) (s' : State),
    esfx.length + olds.length ≤ n →
    es.drop i = esfx →
    1 ≤ i →
    isChainB s cur olds = true →
    (∀ jj ∈ olds.map Prod.fst, jj < s.fiberCounter) →
    (∀ p, prevSib = some p →
      p < s.fiberCounter ∧ p ∉ olds.map Prod.fst ∧ (getFiber s p).isSome) →
    reconcileAux wip es fuel s i cur prevSib = some s' →
    s' = applyReconcileTail s wip esfx olds prevSib := by
  intro n
  induction n with
  | zero =>
    intro esfx olds fuel i s cur prevSib s' hn hdrop hi hch hb hp hrun
    have h1 : esfx = [] := List.eq_nil_of_length_eq_zero (by omega)
    have h2 : olds = [] := List.eq_nil_of_length_eq_zero (by omega)
    subst h1; subst h2
    rw [applyReconcileTail_nil]
    have hcur := isChainB_nil_cur hch
    subst hcur
    exact reconcileAux_done hdrop hrun
  | succ n ih =>
    intro esfx olds fuel i s cur prevSib s' hn hdrop hi hch hb hp hrun
    have hi0 : i ≠ 0 := by omega
    cases esfx with
    | nil =>
      cases olds with
      | nil =>
        rw [applyReconcileTail_nil]
        have hcur := isChainB_nil_cur hch
        subst hcur
        exact reconcileAux_done hdrop hrun
      | cons hd olds' =>
        obtain ⟨oid, ofd⟩ := hd
        obtain ⟨hcur, hent, hrest⟩ := isChainB_cons_elim hch
        subst hcur
        have he : es.get? i = none := by rw [get?_eq_head?_drop, hdrop]; rfl
        cases fuel with
        | zero => simp [reconcileAux] at hrun
        | succ f =>
          simp only [reconcileAux] at hrun
          rw [if_pos (by simp)] at hrun
          rw [reconcileStep_delTail prevSib hent he hi0] at hrun
          have hnd := isChainB_nodup hch
          simp only [List.map_cons, List.nodup_cons] at hnd
          have hnotin : oid ∉ olds'.map Prod.fst := hnd.1
          have hch' : isChainB (markDeletion s oid) ofd.sibling olds' = true := by
            refine isChainB_preserve hrest ?_
            intro pr hpr
            have : pr.1 ≠ oid := fun hh =>
              hnotin (hh ▸ List.mem_map_of_mem Prod.fst hpr)
            exact getFiber_markDeletion_ne s this
          have hb' : ∀ jj ∈ olds'.map Prod.fst, jj < (markDeletion s oid).fiberCounter := by
            intro jj hjj
            rw [markDeletion_fiberCounter]
            exact hb jj (by simp [hjj])
          have hdrop' : es.drop (i + 1) = ([] : List Element) := by
            rw [← List.tail_drop, hdrop]; rfl
          have happly := ih [] olds' f (i + 1) (markDeletion s oid) ofd.sibling none s'
            (by simp at hn ⊢; omega) hdrop' (by omega) hch' hb'
            (by intro p hp'; exact absurd hp' (by simp)) hrun
          rw [happly]
          rfl
    | cons e esfx' =>
      have he : es.get? i = some e := by rw [get?_eq_head?_drop, hdrop]; rfl
      have hlen : i < es.length := by
        have hl := List.length_drop i es
        rw [hdrop] at hl
        simp at hl
        omega
      cases fuel with
      | zero => simp [reconcileAux] at hrun
      | succ f =>
        simp only [reconcileAux] at hrun
        rw [if_pos (by simp [hlen])] at hrun
        cases prevSib with
        | none =>
          rw [reconcileStep_tail_noPrev _ he hi0] at hrun
          simp at hrun
        | some p =>
          obtain ⟨hplt, hpnot, hppres⟩ := hp p rfl
          obtain ⟨pfd, hpfd⟩ := Option.isSome_iff_exists.mp hppres
          have hpc : p ≠ s.fiberCounter := Nat.ne_of_lt hplt
          cases olds with
          | nil =>
            have hcur := isChainB_nil_cur hch
            subst hcur
            rw [reconcileStep_placeTail he hi0 hpc hpfd] at hrun
            have hpres3 : getFiber (setFiber ((allocFiber s (placementFiberFD wip e)).1) p
                { pfd with sibling := some s.fiberCounter }) s.fiberCounter =
                some (placementFiberFD wip e) := by
              rw [getFiber_set_ne _ _ (Ne.symm hpc)]
              exact getFiber_alloc_self s (placementFiberFD wip e)
            have happly := ih esfx' [] f (i + 1)
              (setFiber ((allocFiber s (placementFiberFD wip e)).1) p
                { pfd with sibling := some s.fiberCounter })
              none (some s.fiberCounter) s'
              (by simp at hn ⊢; omega)
              (by rw [← List.tail_drop, hdrop]; rfl) (by omega)
              (by simp [isChainB]) (by simp)
              (by
                intro q hq
                injection hq with hq
                subst hq
                refine ⟨by simp [setFiber, allocFiber], by simp, ?_⟩
                rw [hpres3]; rfl)
              hrun
            rw [happly]
            exact applyTail_step s wip p pfd (placementFiberFD wip e) e esfx' [] []
              [] [] (reconcileNews wip (s.fiberCounter + 1) esfx' [])
              hpfd hplt rfl rfl rfl (by rw [reconcileDels_olds_nil]; rfl)
              (reconcileDels_olds_nil esfx')
              (by simp) (by simp) (by simp) (by simp) (by simp)
          | cons hd olds' =>
            obtain ⟨oid, ofd⟩ := hd
            obtain ⟨hcur, hent, hrest⟩ := isChainB_cons_elim hch
            subst hcur
            have hoidlt : oid < s.fiberCounter := hb oid (by simp)
            have hoc : oid ≠ s.fiberCounter := Nat.ne_of_lt hoidlt
            have hpo : p ≠ oid := fun hh => hpnot (by simp [hh])
            have hnd := isChainB_nodup hch
            simp only [List.map_cons, List.nodup_cons] at hnd
            have hnotin : oid ∉ olds'.map Prod.fst := hnd.1
            have hpnot' : p ∉ olds'.map Prod.fst := fun hh => hpnot (by simp [hh])
            have hb' : ∀ jj ∈ olds'.map Prod.fst, jj < s.fiberCounter :=
              fun jj hjj => hb jj (by simp [hjj])
            have hdelsub := reconcileDels_subset esfx' olds'
            have hpd2 : p ∉ reconcileDels esfx' olds' := fun hh => hpnot' (hdelsub p hh)
            have hd2 : ∀ d ∈ reconcileDels esfx' olds', d < s.fiberCounter :=
              fun d hd => hb' d (hdelsub d hd)
            have hctr2 : s.fiberCounter ∉ reconcileDels esfx' olds' := fun hh =>
              absurd (hd2 _ hh) (by omega)
            by_cases htype : ofd.type? = e.type?
            · rw [reconcileStep_updateTail hent he htype hi0 hoc hpc hpfd] at hrun
              have hch' : isChainB (setFiber ((allocFiber s
                  (updateFiberFD wip oid ofd e)).1) p
                  { pfd with sibling := some s.fiberCounter }) ofd.sibling olds' = true := by
                refine isChainB_preserve hrest ?_
                intro pr hpr
                have hprp : pr.1 ≠ p := fun hh =>
                  hpnot' (hh ▸ List.mem_map_of_mem Prod.fst hpr)
                have hprc : pr.1 ≠ s.fiberCounter :=
                  Nat.ne_of_lt (hb' pr.1 (List.mem_map_of_mem Prod.fst hpr))
                rw [getFiber_set_ne _ _ hprp, getFiber_alloc_ne s _ hprc]
              have hpres3 : getFiber (setFiber ((allocFiber s
                  (updateFiberFD wip oid ofd e)).1) p
                  { pfd with sibling := some s.fiberCounter }) s.fiberCounter =
                  some (updateFiberFD wip oid ofd e) := by
                rw [getFiber_set_ne _ _ (Ne.symm hpc)]
                exact getFiber_alloc_self s _
              have happly := ih esfx' olds' f (i + 1)
                (setFiber ((allocFiber s (updateFiberFD wip oid ofd e)).1) p
                  { pfd with sibling := some s.fiberCounter })
                ofd.sibling (some s.fiberCounter) s'
                (by simp at hn ⊢; omega)
                (by rw [← List.tail_drop, hdrop]; rfl) (by omega)
                hch'
                (by
                  intro jj hjj
                  rw [setFiber_fiberCounter]
                  exact Nat.lt_succ_of_lt (hb' jj hjj))
                (by
                  intro q hq
                  injection hq with hq
                  subst hq
                  refine ⟨by simp [setFiber, allocFiber], fun hh => ?_, ?_⟩
                  · exact absurd (hb' _ hh) (by omega)
                  · rw [hpres3]; rfl)
                hrun
              rw [happly]
              refine applyTail_step s wip p pfd (updateFiberFD wip oid ofd e) e esfx'
                ((oid, ofd) :: olds') olds' [] (reconcileDels esfx' olds')
                (reconcileNews wip (s.fiberCounter + 1) esfx' olds')
                hpfd hplt rfl ?_ rfl ?_ rfl (by simp) hpd2 (by simp) hd2 hctr2
              · show reconcileNews wip s.fiberCounter (e :: esfx') ((oid, ofd) :: olds') = _
                simp only [reconcileNews]
                rw [if_pos htype]
                rfl
              · show reconcileDels (e :: esfx') ((oid, ofd) :: olds') = _
                simp only [reconcileDels]
                rw [if_pos htype]
                rfl
            · rw [reconcileStep_mismatchTail hent he htype hi0 hoc hpc hpo hpfd] at hrun
              have hch' : isChainB (setFiber (markDeletion ((allocFiber s
                  (placementFiberFD wip e)).1) oid) p
                  { pfd with sibling := some s.fiberCounter }) ofd.sibling olds' = true := by
                refine isChainB_preserve hrest ?_
                intro pr hpr
                have hprp : pr.1 ≠ p := fun hh =>
                  hpnot' (hh ▸ List.mem_map_of_mem Prod.fst hpr)
                have hpro : pr.1 ≠ oid := fun hh =>
                  hnotin (hh ▸ List.mem_map_of_mem Prod.fst hpr)
                have hprc : pr.1 ≠ s.fiberCounter :=
                  Nat.ne_of_lt (hb' pr.1 (List.mem_map_of_mem Prod.fst hpr))
                rw [getFiber_set_ne _ _ hprp, getFiber_markDeletion_ne _ hpro,
                    getFiber_alloc_ne s _ hprc]
              have hpres3 : getFiber (setFiber (markDeletion ((allocFiber s
                  (placementFiberFD wip e)).1) oid) p
                  { pfd with sibling := some s.fiberCounter }) s.fiberCounter =
                  some (placementFiberFD wip e) := by
                rw [getFiber_set_ne _ _ (Ne.symm hpc),
                    getFiber_markDeletion_ne _ (Ne.symm hoc)]
                exact getFiber_alloc_self s _
              have happly := ih esfx' olds' f (i + 1)
                (setFiber (markDeletion ((allocFiber s (placementFiberFD wip e)).1) oid) p
                  { pfd with sibling := some s.fiberCounter })
                ofd.sibling (some s.fiberCounter) s'
                (by simp at hn ⊢; omega)
                (by rw [← List.tail_drop, hdrop]; rfl) (by omega)
                hch'
                (by
                  intro jj hjj
                  rw [setFiber_fiberCounter, markDeletion_fiberCounter]
                  exact Nat.lt_succ_of_lt (hb' jj hjj))
                (by
                  intro q hq
                  injection hq with hq
                  subst hq
                  refine ⟨by simp [setFiber, markDeletion_fiberCounter, allocFiber], fun hh => ?_, ?_⟩
                  · exact absurd (hb' _ hh) (by omega)
                  · rw [hpres3]; rfl)
                hrun
              rw [happly]
              refine applyTail_step s wip p pfd (placementFiberFD wip e) e esfx'
                ((oid, ofd) :: olds') olds' [oid] (reconcileDels esfx' olds')
                (reconcileNews wip (s.fiberCounter + 1) esfx' olds')
                hpfd hplt rfl ?_ rfl ?_ rfl (by simp [hpo]) hpd2
                (by simp [hoidlt]) hd2 hctr2
              · show reconcileNews wip s.fiberCounter (e :: esfx') ((oid, ofd) :: olds') = _
                simp only [reconcileNews]
                rw [if_neg htype]
                rfl
              · show reconcileDels (e :: esfx') ((oid, ofd) :: olds') = _
                simp only [reconcileDels]
                rw [if_neg htype]
                rfl

theorem applyHead_step (s : State) (wip : Nat) (wfd nf : FiberData) (e : Element)
    (esfx' : List Element) (oldsAll olds' : List (Nat × FiberData))
    (delHead dels' : List Nat) (news' : List FiberData)
    (hwfd : getFiber s wip = some wfd) (hwlt : wip < s.fiberCounter)
    (hnfsib : nf.sibling = none)
    (hN : reconcileNews wip s.fiberCounter (e :: esfx') oldsAll =
      { nf with sibling := if esfx'.isEmpty then none else some (s.fiberCounter + 1) } :: news')
    (hN' : reconcileNews wip (s.fiberCounter + 1) esfx' olds' = news')
    (hDAll : reconcileDels (e :: esfx') oldsAll = delHead ++ dels')
    (hD' : reconcileDels esfx' olds' = dels')
    (hpd1 : wip ∉ delHead) (hpd2 : wip ∉ dels')
    (hd1 : ∀ d ∈ delHead, d < s.fiberCounter) (hd2 : ∀ d ∈ dels', d < s.fiberCounter)
    (hctr2 : s.fiberCounter ∉ dels') :
    applyReconcileTail (setFiber (markDeletions ((allocFiber s nf).1) delHead) wip
        { wfd with child := some s.fiberCounter }) wip esfx' olds' (some s.fiberCounter) =
      applyReconcile s wip (e :: esfx') oldsAll := by
  have hpdAll : wip ∉ delHead ++ dels' := by
    intro hmem
    rcases List.mem_append.mp hmem with h1 | h2
    · exact hpd1 h1
    · exact hpd2 h2
  have hS3ctr : (setFiber (markDeletions ((allocFiber s nf).1) delHead) wip
      { wfd with child := some s.fiberCounter }).fiberCounter = s.fiberCounter + 1 := by
    rw [setFiber_fiberCounter, markDeletions_fiberCounter]
    rfl
  cases esfx' with
  | nil =>
    have hifn : (if ([] : List Element).isEmpty then (none : Option Nat)
        else some (s.fiberCounter + 1)) = none := rfl
    rw [hifn] at hN
    have hN2 : news' = [] := by
      have hx : reconcileNews wip (s.fiberCounter + 1) ([] : List Element) olds' = [] := rfl
      rw [hx] at hN'
      exact hN'.symm
    subst hN2
    have hreadP : getFiber (markDeletions (allocNews s
        ({ nf with sibling := (none : Option Nat) } :: ([] : List FiberData)))
        (delHead ++ dels')) wip = some wfd := by
      rw [getFiber_markDeletions_notMem _ _ hpdAll, getFiber_allocNews_low _ _ hwlt]
      exact hwfd
    show markDeletions (allocNews
        (setFiber (markDeletions ((allocFiber s nf).1) delHead) wip
          { wfd with child := some s.fiberCounter })
        (reconcileNews wip (setFiber (markDeletions ((allocFiber s nf).1) delHead) wip
          { wfd with child := some s.fiberCounter }).fiberCounter [] olds'))
      (reconcileDels [] olds') = _
    rw [hS3ctr, show reconcileNews wip (s.fiberCounter + 1) ([] : List Element) olds' =
        ([] : List FiberData) from rfl, hD']
    show _ = setChildTotal (markDeletions (allocNews s
        (reconcileNews wip s.fiberCounter [e] oldsAll)) (reconcileDels [e] oldsAll))
        wip (some s.fiberCounter)
    rw [hN, hDAll]
    rw [setChildTotal_eq (some s.fiberCounter) hreadP]
    have hrec := linkRecombine s ({ wfd with child := some s.fiberCounter }) nf
      delHead dels' [] false (by rw [hwfd]; rfl) hwlt hpd1 hpd2 hd1 hd2 hctr2
    simp only [Bool.false_eq_true, if_false] at hrec
    have hhead2 : ({ nf with sibling := nf.sibling } : FiberData) = nf := rfl
    rw [hhead2] at hrec
    have hhead : ({ nf with sibling := (none : Option Nat) } : FiberData) = nf := by
      rw [← hnfsib]
    rw [hhead]
    exact hrec
  | cons e2 es2 =>
    have hifs : (if (e2 :: es2).isEmpty then (none : Option Nat)
        else some (s.fiberCounter + 1)) = some (s.fiberCounter + 1) := rfl
    rw [hifs] at hN
    have hreadP : getFiber (markDeletions (allocNews s
        ({ nf with sibling := some (s.fiberCounter + 1) } :: news'))
        (delHead ++ dels')) wip = some wfd := by
      rw [getFiber_markDeletions_notMem _ _ hpdAll, getFiber_allocNews_low _ _ hwlt]
      exact hwfd
    show setSiblingTotal (markDeletions (allocNews
        (setFiber (markDeletions ((allocFiber s nf).1) delHead) wip
          { wfd with child := some s.fiberCounter })
        (reconcileNews wip (setFiber (markDeletions ((allocFiber s nf).1) delHead) wip
          { wfd with child := some s.fiberCounter }).fiberCounter (e2 :: es2) olds'))
      (reconcileDels (e2 :: es2) olds')) s.fiberCounter
      (some (setFiber (markDeletions ((allocFiber s nf).1) delHead) wip
        { wfd with child := some s.fiberCounter }).fiberCounter) = _
    rw [hS3ctr, hN', hD']
    show _ = setChildTotal (markDeletions (allocNews s
        (reconcileNews wip s.fiberCounter (e :: e2 :: es2) oldsAll))
        (reconcileDels (e :: e2 :: es2) oldsAll)) wip (some s.fiberCounter)
    rw [hN, hDAll]
    rw [setChildTotal_eq (some s.fiberCounter) hreadP]
    have hrec := linkRecombine s ({ wfd with child := some s.fiberCounter }) nf
      delHead dels' news' true (by rw [hwfd]; rfl) hwlt hpd1 hpd2 hd1 hd2 hctr2
    simp only [if_true] at hrec
    exact hrec

theorem reconcileAux_head (wip : Nat) (es : List Element) (olds : List (Nat × FiberData))
    (fuel : Nat) (s : State) (cur : Option Nat) (s' : State) {wfd : FiberData}
    (hch : isChainB s cur olds = true)
    (hb : ∀ jj ∈ olds.map Prod.fst, jj < s.fiberCounter)
    (hw : getFiber s wip = some wfd) (hwlt : wip < s.fiberCounter)
    (hwnot : wip ∉ olds.map Prod.fst)
    (hrun : reconcileAux wip es fuel s 0 cur none = some s') :
    s' = applyReconcile s wip es olds := by
  have hwc : wip ≠ s.fiberCounter := Nat.ne_of_lt hwlt
  cases es with
  | nil =>
    cases olds with
    | nil =>
      have hcur := isChainB_nil_cur hch
      subst hcur
      rw [reconcileAux_done (by rfl) hrun]
      rfl
    | cons hd olds' =>
      obtain ⟨oid, ofd⟩ := hd
      obtain ⟨hcur, hent, hrest⟩ := isChainB_cons_elim hch
      subst hcur
      have hwo : wip ≠ oid := fun hh => hwnot (by simp [hh])
      have hwnot' : wip ∉ olds'.map Prod.fst := fun hh => hwnot (by simp [hh])
      have hnd := isChainB_nodup hch
      simp only [List.map_cons, List.nodup_cons] at hnd
      have hnotin : oid ∉ olds'.map Prod.fst := hnd.1
      cases fuel with
      | zero => simp [reconcileAux] at hrun
      | succ f =>
        simp only [reconcileAux] at hrun
        rw [if_pos (by simp)] at hrun
        rw [reconcileStep_delHead none hent (by rfl) hwo hw] at hrun
        have hch' : isChainB (setFiber (markDeletion s oid) wip
            { wfd with child := none }) ofd.sibling olds' = true := by
          refine isChainB_preserve hrest ?_
          intro pr hpr
          have hprw : pr.1 ≠ wip := fun hh =>
            hwnot' (hh ▸ List.mem_map_of_mem Prod.fst hpr)
          have hpro : pr.1 ≠ oid := fun hh =>
            hnotin (hh ▸ List.mem_map_of_mem Prod.fst hpr)
          rw [getFiber_set_ne _ _ hprw, getFiber_markDeletion_ne s hpro]
        have happly := reconcileAux_tail wip ([] : List Element) olds'.length
          [] olds' f 1
          (setFiber (markDeletion s oid) wip { wfd with child := none })
          ofd.sibling none s'
          (by simp)
          (by rfl) (by omega)
          hch'
          (by
            intro jj hjj
            rw [setFiber_fiberCounter, markDeletion_fiberCounter]
            exact hb jj (by simp [hjj]))
          (by intro q hq; exact absurd hq (by simp))
          hrun
        rw [happly]
        have hwd : wip ∉ reconcileDels ([] : List Element) olds' := fun hh =>
          hwnot' (reconcileDels_subset [] olds' wip hh)
        have hw2 : getFiber (markDeletion s oid) wip = some wfd := by
          rw [getFiber_markDeletion_ne s hwo]
          exact hw
        show markDeletions (setFiber (markDeletion s oid) wip { wfd with child := none })
            (reconcileDels ([] : List Element) olds') = _
        rw [setFiber_markDeletions_comm _ _ _ hwd (by rw [hw2]; rfl)]
        have hw3 : getFiber (markDeletions (markDeletion s oid)
            (reconcileDels ([] : List Element) olds')) wip = some wfd := by
          rw [getFiber_markDeletions_notMem _ _ hwd]
          exact hw2
        show _ = setChildTotal (markDeletions (markDeletion s oid)
            (reconcileDels ([] : List Element) olds')) wip none
        rw [setChildTotal_eq none hw3]
  | cons e es' =>
    cases fuel with
    | zero => simp [reconcileAux] at hrun
    | succ f =>
      simp only [reconcileAux] at hrun
      rw [if_pos (by simp)] at hrun
      cases olds with
      | nil =>
        have hcur := isChainB_nil_cur hch
        subst hcur
        rw [reconcileStep_placeHead none (by rfl) hwc hw] at hrun
        have hpres3 : getFiber (setFiber ((allocFiber s (placementFiberFD wip e)).1) wip
            { wfd with child := some s.fiberCounter }) s.fiberCounter =
            some (placementFiberFD wip e) := by
          rw [getFiber_set_ne _ _ (Ne.symm hwc)]
          exact getFiber_alloc_self s (placementFiberFD wip e)
        have happly := reconcileAux_tail wip (e :: es') es'.length es' [] f 1
          (setFiber ((allocFiber s (placementFiberFD wip e)).1) wip
            { wfd with child := some s.fiberCounter })
          none (some s.fiberCounter) s'
          (by simp)
          (by rfl) (by omega)
          (by simp [isChainB]) (by simp)
          (by
            intro q hq
            injection hq with hq
            subst hq
            refine ⟨by simp [setFiber, allocFiber], by simp, ?_⟩
            rw [hpres3]; rfl)
          hrun
        rw [happly]
        exact applyHead_step s wip wfd (placementFiberFD wip e) e es' [] []
          [] [] (reconcileNews wip (s.fiberCounter + 1) es' [])
          hw hwlt rfl rfl rfl (by rw [reconcileDels_olds_nil]; rfl)
          (reconcileDels_olds_nil es')
          (by simp) (by simp) (by simp) (by simp) (by simp)
      | cons hd olds' =>
        obtain ⟨oid, ofd⟩ := hd
        obtain ⟨hcur, hent, hrest⟩ := isChainB_cons_elim hch
        subst hcur
        have hoidlt : oid < s.fiberCounter := hb oid (by simp)
        have hoc : oid ≠ s.fiberCounter := Nat.ne_of_lt hoidlt
        have hwo : wip ≠ oid := fun hh => hwnot (by simp [hh])
        have hnd := isChainB_nodup hch
        simp only [List.map_cons, List.nodup_cons] at hnd
        have hnotin : oid ∉ olds'.map Prod.fst := hnd.1
        have hwnot' : wip ∉ olds'.map Prod.fst := fun hh => hwnot (by simp [hh])
        have hb' : ∀ jj ∈ olds'.map Prod.fst, jj < s.fiberCounter :=
          fun jj hjj => hb jj (by simp [hjj])
        have hdelsub := reconcileDels_subset es' olds'
        have hwd2 : wip ∉ reconcileDels es' olds' := fun hh => hwnot' (hdelsub wip hh)
        have hd2 : ∀ d ∈ reconcileDels es' olds', d < s.fiberCounter :=
          fun d hd => hb' d (hdelsub d hd)
        have hctr2 : s.fiberCounter ∉ reconcileDels es' olds' := fun hh =>
          absurd (hd2 _ hh) (by omega)
        by_cases htype : ofd.type? = e.type?
        · rw [reconcileStep_updateHead none hent (by rfl) htype hoc hwc hw] at hrun
          have hch' : isChainB (setFiber ((allocFiber s
              (updateFiberFD wip oid ofd e)).1) wip
              { wfd with child := some s.fiberCounter }) ofd.sibling olds' = true := by
            refine isChainB_preserve hrest ?_
            intro pr hpr
            have hprw : pr.1 ≠ wip := fun hh =>
              hwnot' (hh ▸ List.mem_map_of_mem Prod.fst hpr)
            have hprc : pr.1 ≠ s.fiberCounter :=
              Nat.ne_of_lt (hb' pr.1 (List.mem_map_of_mem Prod.fst hpr))
            rw [getFiber_set_ne _ _ hprw, getFiber_alloc_ne s _ hprc]
          have hpres3 : getFiber (setFiber ((allocFiber s
              (updateFiberFD wip oid ofd e)).1) wip
              { wfd with child := some s.fiberCounter }) s.fiberCounter =
              some (updateFiberFD wip oid ofd e) := by
            rw [getFiber_set_ne _ _ (Ne.symm hwc)]
            exact getFiber_alloc_self s _
          have happly := reconcileAux_tail wip (e :: es') (es'.length + olds'.length)
            es' olds' f 1
            (setFiber ((allocFiber s (updateFiberFD wip oid ofd e)).1) wip
              { wfd with child := some s.fiberCounter })
            ofd.sibling (some s.fiberCounter) s'
            (by simp)
            (by rfl) (by omega)
            hch'
            (by
              intro jj hjj
              rw [setFiber_fiberCounter]
              exact Nat.lt_succ_of_lt (hb' jj hjj))
            (by
              intro q hq
              injection hq with hq
              subst hq
              refine ⟨by simp [setFiber, allocFiber], fun hh => ?_, ?_⟩
              · exact absurd (hb' _ hh) (by omega)
              · rw [hpres3]; rfl)
            hrun
          rw [happly]
          refine applyHead_step s wip wfd (updateFiberFD wip oid ofd e) e es'
            ((oid, ofd) :: olds') olds' [] (reconcileDels es' olds')
            (reconcileNews wip (s.fiberCounter + 1) es' olds')
            hw hwlt rfl ?_ rfl ?_ rfl (by simp) hwd2 (by simp) hd2 hctr2
          · show reconcileNews wip s.fiberCounter (e :: es') ((oid, ofd) :: olds') = _
            simp only [reconcileNews]
            rw [if_pos htype]
            rfl
          · show reconcileDels (e :: es') ((oid, ofd) :: olds') = _
            simp only [reconcileDels]
            rw [if_pos htype]
            rfl
        · rw [reconcileStep_mismatchHead none hent (by rfl) htype hoc hwc hwo hw] at hrun
          have hch' : isChainB (setFiber (markDeletion ((allocFiber s
              (placementFiberFD wip e)).1) oid) wip
              { wfd with child := some s.fiberCounter }) ofd.sibling olds' = true := by
            refine isChainB_preserve hrest ?_
            intro pr hpr
            have hprw : pr.1 ≠ wip := fun hh =>
              hwnot' (hh ▸ List.mem_map_of_mem Prod.fst hpr)
            have hpro : pr.1 ≠ oid := fun hh =>
              hnotin (hh ▸ List.mem_map_of_mem Prod.fst hpr)
            have hprc : pr.1 ≠ s.fiberCounter :=
              Nat.ne_of_lt (hb' pr.1 (List.mem_map_of_mem Prod.fst hpr))
            rw [getFiber_set_ne _ _ hprw, getFiber_markDeletion_ne _ hpro,
                getFiber_alloc_ne s _ hprc]
          have hpres3 : getFiber (setFiber (markDeletion ((allocFiber s
              (placementFiberFD wip e)).1) oid) wip
              { wfd with child := some s.fiberCounter }) s.fiberCounter =
              some (placementFiberFD wip e) := by
            rw [getFiber_set_ne _ _ (Ne.symm hwc),
                getFiber_markDeletion_ne _ (Ne.symm hoc)]
            exact getFiber_alloc_self s _
          have happly := reconcileAux_tail wip (e :: es') (es'.length + olds'.length)
            es' olds' f 1
            (setFiber (markDeletion ((allocFiber s (placementFiberFD wip e)).1) oid) wip
              { wfd with child := some s.fiberCounter })
            ofd.sibling (some s.fiberCounter) s'
            (by simp)
            (by rfl) (by omega)
            hch'
            (by
              intro jj hjj
              rw [setFiber_fiberCounter, markDeletion_fiberCounter]
              exact Nat.lt_succ_of_lt (hb' jj hjj))
            (by
              intro q hq
              injection hq with hq
              subst hq
              refine ⟨by simp [setFiber, markDeletion_fiberCounter, allocFiber], fun hh => ?_, ?_⟩
              · exact absurd (hb' _ hh) (by omega)
              · rw [hpres3]; rfl)
            hrun
          rw [happly]
          refine applyHead_step s wip wfd (placementFiberFD wip e) e es'
            ((oid, ofd) :: olds') olds' [oid] (reconcileDels es' olds')
            (reconcileNews wip (s.fiberCounter + 1) es' olds')
            hw hwlt rfl ?_ rfl ?_ rfl (by simp [hwo]) hwd2
            (by simp [hoidlt]) hd2 hctr2
          · show reconcileNews wip s.fiberCounter (e :: es') ((oid, ofd) :: olds') = _
            simp only [reconcileNews]
            rw [if_neg htype]
            rfl
          · show reconcileDels (e :: es') ((oid, ofd) :: olds') = _
            simp only [reconcileDels]
            rw [if_neg htype]
            rfl

theorem reconcileChildren_run (fuel : Nat) (s : State) (wip : Nat) (es : List Element)
    (wfd : FiberData) (cur : Option Nat)
    (hw : getFiber s wip = some wfd) (hcur : oldChainCursor s wfd = some cur) :
    reconcileChildren fuel s wip es = reconcileAux wip es fuel s 0 cur none := by
  unfold oldChainCursor at hcur
  cases halt : wfd.alternate with
  | none =>
    rw [halt] at hcur
    injection hcur with h
    subst h
    simp [reconcileChildren, hw, halt]
  | some a =>
    rw [halt] at hcur
    simp at hcur
    obtain ⟨afd, hga, hch⟩ := hcur
    simp [reconcileChildren, hw, halt, hga, hch]

theorem reconcileNews_get?_mismatch (wip : Nat) :
    ∀ (k : Nat) (es : List Element) (olds : List (Nat × FiberData)) (ctr : Nat)
      (e : Element) (oid : Nat) (ofd : FiberData),
    es.get? k = some e → olds.get? k = some (oid, ofd) → ¬ ofd.type? = e.type? →
    (reconcileNews wip ctr es olds).get? k =
      some { placementFiberFD wip e with
             sibling := if (es.drop (k + 1)).isEmpty then none else some (ctr + k + 1) } := by
  intro k
  induction k with
  | zero =>
    intro es olds ctr e oid ofd he ho htype
    cases es with
    | nil => simp at he
    | cons e0 es' =>
      cases olds with
      | nil => simp at ho
      | cons o0 olds' =>
        have he0 : e0 = e := by simpa using he
        have ho0 : o0 = (oid, ofd) := by simpa using ho
        subst he0
        subst ho0
        show (reconcileNews wip ctr (e0 :: es') ((oid, ofd) :: olds')).get? 0 = _
        simp only [reconcileNews]
        rw [if_neg htype]
        rfl
  | succ k ih =>
    intro es olds ctr e oid ofd he ho htype
    cases es with
    | nil => simp at he
    | cons e0 es' =>
      cases olds with
      | nil => simp at ho
      | cons o0 olds' =>
        obtain ⟨oid0, ofd0⟩ := o0
        have he' : es'.get? k = some e := by simpa using he
        have ho' : olds'.get? k = some (oid, ofd) := by simpa using ho
        have hstep := ih es' olds' (ctr + 1) e oid ofd he' ho' htype
        show (reconcileNews wip ctr (e0 :: es') ((oid0, ofd0) :: olds')).get? (k + 1) = _
        simp only [reconcileNews]
        rw [List.get?_cons_succ]
        rw [show ((oid0, ofd0) :: olds').tail = olds' from rfl]
        rw [hstep]
        have h1 : (e0 :: es').drop (k + 1 + 1) = es'.drop (k + 1) := rfl
        have h2 : ctr + 1 + k + 1 = ctr + (k + 1) + 1 := by omega
        rw [h1, h2]

theorem reconcileDels_mem_mismatch :
    ∀ (k : Nat) (es : List Element) (olds : List (Nat × FiberData))
      (e : Element) (oid : Nat) (ofd : FiberData),
    es.get? k = some e → olds.get? k = some (oid, ofd) → ¬ ofd.type? = e.type? →
    oid ∈ reconcileDels es olds := by
  intro k
  induction k with
  | zero =>
    intro es olds e oid ofd he ho htype
    cases es with
    | nil => simp at he
    | cons e0 es' =>
      cases olds with
      | nil => simp at ho
      | cons o0 olds' =>
        have he0 : e0 = e := by simpa using he
        have ho0 : o0 = (oid, ofd) := by simpa using ho
        subst he0
        subst ho0
        show oid ∈ reconcileDels (e0 :: es') ((oid, ofd) :: olds')
        simp only [reconcileDels]
        rw [if_neg htype]
        simp
  | succ k ih =>
    intro es olds e oid ofd he ho htype
    cases es with
    | nil => simp at he
    | cons e0 es' =>
      cases olds with
      | nil => simp at ho
      | cons o0 olds' =>
        obtain ⟨oid0, ofd0⟩ := o0
        have he' : es'.get? k = some e := by simpa using he
        have ho' : olds'.get? k = some (oid, ofd) := by simpa using ho
        have hmem := ih es' olds' e oid ofd he' ho' htype
        show oid ∈ reconcileDels (e0 :: es') ((oid0, ofd0) :: olds')
        simp only [reconcileDels]
        by_cases ht0 : ofd0.type? = e0.type?
        · rw [if_pos ht0]; exact hmem
        · rw [if_neg ht0]; simp [hmem]

theorem reconcileDels_sublist : ∀ (es : List Element) (olds : List (Nat × FiberData)),
    (reconcileDels es olds).Sublist (olds.map Prod.fst) := by
  intro es
  induction es with
  | nil =>
    intro olds
    induction olds with
    | nil => simp [reconcileDels]
    | cons hd t iht =>
      obtain ⟨oid, ofd⟩ := hd
      show (oid :: reconcileDels [] t).Sublist (oid :: t.map Prod.fst)
      exact List.Sublist.cons₂ oid iht
  | cons e es' ih =>
    intro olds
    cases olds with
    | nil => simp [reconcileDels]
    | cons hd t =>
      obtain ⟨oid, ofd⟩ := hd
      show (if ofd.type? = e.type? then reconcileDels es' t
        else oid :: reconcileDels es' t).Sublist (oid :: t.map Prod.fst)
      by_cases ht : ofd.type? = e.type?
      · rw [if_pos ht]
        exact List.Sublist.cons oid (ih t)
      · rw [if_neg ht]
        exact List.Sublist.cons₂ oid (ih t)

theorem allocNews_deletions (s : State) (news : List FiberData) :
    (allocNews s news).deletions = s.deletions := by
  induction news generalizing s with
  | nil => rfl
  | cons fd t ih =>
    rw [allocNews_cons, ih]
    rfl

theorem setChildTotal_deletions (s : State) (i : Nat) (c : Option Nat) :
    (setChildTotal s i c).deletions = s.deletions := by
  unfold setChildTotal
  cases getFiber s i <;> rfl

theorem markDeletions_deletions (s : State) (dels : List Nat) (l : List Nat)
    (hall : ∀ x ∈ dels, (getFiber s x).isSome)
    (hdel : s.deletions = some l) :
    (markDeletions s dels).deletions = some (l ++ dels) := by
  induction dels generalizing s l with
  | nil => simpa [markDeletions] using hdel
  | cons d t ih =>
    rw [markDeletions_cons]
    obtain ⟨fd, hfd⟩ := Option.isSome_iff_exists.mp (hall d (by simp))
    have hmd : (markDeletion s d).deletions = some (l ++ [d]) := by
      unfold markDeletion
      rw [hfd]
      simp [pushDeletion, setFiber, hdel]
    have hrest := ih (markDeletion s d) (l ++ [d])
      (fun x hx => getFiber_isSome_markDeletion s d (hall x (by simp [hx]))) hmd
    rw [hrest]
    simp

theorem getFiber_applyReconcile_new (s : State) (wip : Nat) (es : List Element)
    (olds : List (Nat × FiberData)) (k : Nat)
    (hwlt : wip < s.fiberCounter)
    (hb : ∀ jj ∈ olds.map Prod.fst, jj < s.fiberCounter)
    (hk : k < (reconcileNews wip s.fiberCounter es olds).length) :
    getFiber (applyReconcile s wip es olds) (s.fiberCounter + k) =
      (reconcileNews wip s.fiberCounter es olds).get? k := by
  have hdlt : ∀ d ∈ reconcileDels es olds, d < s.fiberCounter :=
    fun d hd => hb d (reconcileDels_subset es olds d hd)
  have hne : s.fiberCounter + k ∉ reconcileDels es olds := fun hh =>
    absurd (hdlt _ hh) (by omega)
  have hnw : s.fiberCounter + k ≠ wip := by omega
  have hbase : getFiber (markDeletions
      (allocNews s (reconcileNews wip s.fiberCounter es olds))
      (reconcileDels es olds)) (s.fiberCounter + k) =
      (reconcileNews wip s.fiberCounter es olds).get? k := by
    rw [getFiber_markDeletions_notMem _ _ hne]
    exact getFiber_allocNews_at s _ k hk
  unfold applyReconcile
  cases hemp : (es.isEmpty && olds.isEmpty) with
  | true =>
    simp only [hemp, if_true]
    exact hbase
  | false =>
    simp only [hemp, Bool.false_eq_true, if_false]
    unfold setChildTotal
    cases hgw : getFiber (markDeletions
        (allocNews s (reconcileNews wip s.fiberCounter es olds))
        (reconcileDels es olds)) wip with
    | none => exact hbase
    | some fd2 =>
      rw [getFiber_set_ne _ _ hnw]
      exact hbase

theorem applyReconcile_deletions (s : State) (wip : Nat) (es : List Element)
    (olds : List (Nat × FiberData)) (dl : List Nat)
    (hdl : s.deletions = some dl)
    (hb : ∀ jj ∈ olds.map Prod.fst, jj < s.fiberCounter)
    (hpres : ∀ d ∈ reconcileDels es olds, (getFiber s d).isSome) :
    (applyReconcile s wip es olds).deletions =
      some (dl ++ reconcileDels es olds) := by
  have hdlt : ∀ d ∈ reconcileDels es olds, d < s.fiberCounter :=
    fun d hd => hb d (reconcileDels_subset es olds d hd)
  have h1 : (allocNews s (reconcileNews wip s.fiberCounter es olds)).deletions =
      some dl := by rw [allocNews_deletions]; exact hdl
  have hpres1 : ∀ d ∈ reconcileDels es olds,
      (getFiber (allocNews s (reconcileNews wip s.fiberCounter es olds)) d).isSome := by
    intro d hd
    rw [getFiber_allocNews_low _ _ (hdlt d hd)]
    exact hpres d hd
  have h2 := markDeletions_deletions _ (reconcileDels es olds) dl hpres1 h1
  unfold applyReconcile
  cases hemp : (es.isEmpty && olds.isEmpty) with
  | true =>
    simp only [hemp, if_true]
    exact h2
  | false =>
    simp only [hemp, Bool.false_eq_true, if_false]
    rw [setChildTotal_deletions]
    exact h2

theorem getFiber_applyReconcile_old_del (s : State) (wip : Nat) (es : List Element)
    (olds : List (Nat × FiberData)) (oid : Nat) (ofd0 : FiberData)
    (hnd : (olds.map Prod.fst).Nodup)
    (hmem : oid ∈ reconcileDels es olds)
    (hb : ∀ jj ∈ olds.map Prod.fst, jj < s.fiberCounter)
    (hwo : oid ≠ wip)
    (hof : getFiber s oid = some ofd0) :
    getFiber (applyReconcile s wip es olds) oid =
      some { ofd0 with effectTag := some Effect.deletion } := by
  have holt : oid < s.fiberCounter := hb oid (reconcileDels_subset es olds oid hmem)
  have hndd : (reconcileDels es olds).Nodup :=
    (reconcileDels_sublist es olds).nodup hnd
  have hbase : getFiber (markDeletions
      (allocNews s (reconcileNews wip s.fiberCounter es olds))
      (reconcileDels es olds)) oid =
      some { ofd0 with effectTag := some Effect.deletion } := by
    refine getFiber_markDeletions_mem _ hndd hmem ?_
    rw [getFiber_allocNews_low _ _ holt]
    exact hof
  unfold applyReconcile
  cases hemp : (es.isEmpty && olds.isEmpty) with
  | true =>
    simp only [hemp, if_true]
    exact hbase
  | false =>
    simp only [hemp, Bool.false_eq_true, if_false]
    unfold setChildTotal
    cases hgw : getFiber (markDeletions
        (allocNews s (reconcileNews wip s.fiberCounter es olds))
        (reconcileDels es olds)) wip with
    | none => exact hbase
    | some fd2 =>
      rw [getFiber_set_ne _ _ hwo]
      exact hbase

/-- C2: at every index where the previous child chain holds one type and
the new descriptor list a different type, reconciliation produces a
PLACEMENT work node for the new descriptor at that position (fresh host
node, no alternate) and marks the old node DELETION, appending it to the
deletion list; in the concrete `[div, span]` → `[p, span]` re-render this
yields exactly one DELETION (the old div, fiber 2), one PLACEMENT (the p,
fiber 6) and one UPDATE (the span, fiber 7), with no reorder. -/
theorem c2_positional_mismatch
    (fuel : Nat) (s : State) (wip : Nat) (es : List Element)
    (olds : List (Nat × FiberData)) (s' : State) (wfd : FiberData) (cur : Option Nat)
    (k : Nat) (e : Element) (oid : Nat) (ofd : FiberData) (dl : List Nat)
    (hw : getFiber s wip = some wfd) (hwlt : wip < s.fiberCounter)
    (hcur : oldChainCursor s wfd = some cur)
    (hch : isChainB s cur olds = true)
    (hb : ∀ jj ∈ olds.map Prod.fst, jj < s.fiberCounter)
    (hwnot : wip ∉ olds.map Prod.fst)
    (hdl : s.deletions = some dl)
    (he : es.get? k = some e) (ho : olds.get? k = some (oid, ofd))
    (htype : ¬ ofd.type? = e.type?)
    (hrun : reconcileChildren fuel s wip es = some s') :
    (∃ fd, getFiber s' (s.fiberCounter + k) = some fd ∧
      fd.effectTag = some Effect.placement ∧ fd.type? = e.type? ∧
      fd.attrs = e.attrs ∧ fd.dom = none ∧ fd.alternate = none) ∧
    (∃ dfd, getFiber s' oid = some dfd ∧
      dfd.effectTag = some Effect.deletion ∧
      s'.deletions = some (dl ++ reconcileDels es olds) ∧
      oid ∈ dl ++ reconcileDels es olds) ∧
    c2check = true := by
  rw [reconcileChildren_run fuel s wip es wfd cur hw hcur] at hrun
  have hs' : s' = applyReconcile s wip es olds :=
    reconcileAux_head wip es olds fuel s cur s' hch hb hw hwlt hwnot hrun
  subst hs'
  have hget := reconcileNews_get?_mismatch wip k es olds s.fiberCounter e oid ofd he ho htype
  have hk : k < (reconcileNews wip s.fiberCounter es olds).length := by
    by_contra hk
    rw [List.get?_eq_none.mpr (by omega)] at hget
    cases hget
  have hmem := reconcileDels_mem_mismatch k es olds e oid ofd he ho htype
  have hoid_in : oid ∈ olds.map Prod.fst := reconcileDels_subset es olds oid hmem
  have hwo : oid ≠ wip := fun hh => hwnot (hh ▸ hoid_in)
  have hof : getFiber s oid = some ofd := by
    have hin : (oid, ofd) ∈ olds := List.get?_mem ho
    exact isChainB_entries hch _ hin
  have hnd : (olds.map Prod.fst).Nodup := isChainB_nodup hch
  have hpres : ∀ d ∈ reconcileDels es olds, (getFiber s d).isSome := by
    intro d hd
    obtain ⟨pr, hpr, hfst⟩ := List.mem_map.mp (reconcileDels_subset es olds d hd)
    rw [← hfst, isChainB_entries hch pr hpr]
    rfl
  refine ⟨?_, ?_, by decide⟩
  · refine ⟨{ placementFiberFD wip e with
        sibling := if (es.drop (k + 1)).isEmpty then none
                   else some (s.fiberCounter + k + 1) }, ?_, rfl, rfl, rfl, rfl, rfl⟩
    rw [getFiber_applyReconcile_new s wip es olds k hwlt hb hk]
    exact hget
  · refine ⟨{ ofd with effectTag := some Effect.deletion }, ?_, rfl, ?_, by simp [hmem]⟩
    · exact getFiber_applyReconcile_old_del s wip es olds oid ofd hnd hmem hb hwo hof
    · exact applyReconcile_deletions s wip es olds dl hdl hb hpres

/-- Witness for C2: the concrete mid-build state `sMismatch` reconciling
`[p]` over a committed `div` chain satisfies every hypothesis, and the
new fiber 3 is the predicted PLACEMENT node. -/
theorem c2_positional_mismatch_witness :
    (¬ oldDivFd.type? = elP.type?) ∧
    (∃ fd, getFiber ((reconcileChildren 10 sMismatch 2 [elP]).getD baseState)
        (sMismatch.fiberCounter + 0) = some fd ∧
      fd.effectTag = some Effect.placement ∧ fd.type? = elP.type? ∧
      fd.attrs = elP.attrs ∧ fd.dom = none ∧ fd.alternate = none) := by
  refine ⟨by decide, ?_⟩
  have h := c2_positional_mismatch 10 sMismatch 2 [elP] [(1, oldDivFd)]
    ((reconcileChildren 10 sMismatch 2 [elP]).getD baseState) wipMainFd (some 1)
    0 elP 1 oldDivFd []
    rfl (by decide) rfl (by decide) (by decide) (by decide) rfl rfl rfl
    (by decide) rfl
  exact h.1

theorem newsChain_mem : ∀ (news : List FiberData) (c : Nat) (pr : Nat × FiberData),
    pr ∈ newsChain c news → pr.2 ∈ news := by
  intro news
  induction news with
  | nil => intro c pr h; simp [newsChain] at h
  | cons fd t ih =>
    intro c pr h
    simp only [newsChain] at h
    rcases List.mem_cons.mp h with h1 | h2
    · subst h1; simp
    · exact List.mem_cons_of_mem _ (ih (c + 1) pr h2)

theorem reconcileNews_effect (wip : Nat) :
    ∀ (es : List Element) (olds : List (Nat × FiberData)) (ctr : Nat) (fd : FiberData),
    fd ∈ reconcileNews wip ctr es olds →
    fd.effectTag = some Effect.update ∨ fd.effectTag = some Effect.placement := by
  intro es
  induction es with
  | nil => intro olds ctr fd h; simp [reconcileNews] at h
  | cons e es' ih =>
    intro olds ctr fd h
    obtain ⟨fd0, hnews, heff⟩ : ∃ fd0 : FiberData, (reconcileNews wip ctr (e :: es') olds =
        { fd0 with sibling := if es'.isEmpty then none else some (ctr + 1) } ::
          reconcileNews wip (ctr + 1) es' olds.tail) ∧
        (fd0.effectTag = some Effect.update ∨ fd0.effectTag = some Effect.placement) := by
      cases olds with
      | nil => exact ⟨placementFiberFD wip e, rfl, Or.inr rfl⟩
      | cons o t =>
        obtain ⟨oid, ofd⟩ := o
        by_cases ht : ofd.type? = e.type?
        · refine ⟨updateFiberFD wip oid ofd e, ?_, Or.inl rfl⟩
          show reconcileNews wip ctr (e :: es') ((oid, ofd) :: t) = _
          simp only [reconcileNews]
          rw [if_pos ht]
        · refine ⟨placementFiberFD wip e, ?_, Or.inr rfl⟩
          show reconcileNews wip ctr (e :: es') ((oid, ofd) :: t) = _
          simp only [reconcileNews]
          rw [if_neg ht]
    rw [hnews] at h
    rcases List.mem_cons.mp h with h1 | h2
    · subst h1
      exact heff
    · exact ih olds.tail (ctr + 1) fd h2

theorem isChainB_reconcileNews (s' : State) (wip : Nat) :
    ∀ (es : List Element) (olds : List (Nat × FiberData)) (ctr : Nat),
    (∀ k, k < (reconcileNews wip ctr es olds).length →
      getFiber s' (ctr + k) = (reconcileNews wip ctr es olds).get? k) →
    isChainB s' (if es.isEmpty then none else some ctr)
      (newsChain ctr (reconcileNews wip ctr es olds)) = true := by
  intro es
  induction es with
  | nil => intro olds ctr hlook; rfl
  | cons e es' ih =>
    intro olds ctr hlook
    obtain ⟨fd0, hnews⟩ : ∃ fd0 : FiberData, reconcileNews wip ctr (e :: es') olds =
        { fd0 with sibling := if es'.isEmpty then none else some (ctr + 1) } ::
          reconcileNews wip (ctr + 1) es' olds.tail := ⟨_, rfl⟩
    have h0 : getFiber s' ctr =
        some { fd0 with sibling := if es'.isEmpty then none else some (ctr + 1) } := by
      have hl := hlook 0 (by rw [hnews]; simp)
      rw [hnews] at hl
      simpa using hl
    have hrest : ∀ k, k < (reconcileNews wip (ctr + 1) es' olds.tail).length →
        getFiber s' (ctr + 1 + k) = (reconcileNews wip (ctr + 1) es' olds.tail).get? k := by
      intro k hk
      have hl := hlook (k + 1) (by rw [hnews]; simp; omega)
      rw [hnews] at hl
      have harith : ctr + (k + 1) = ctr + 1 + k := by omega
      rw [harith] at hl
      simpa using hl
    have hih := ih olds.tail (ctr + 1) hrest
    show isChainB s' (some ctr)
      (newsChain ctr (reconcileNews wip ctr (e :: es') olds)) = true
    rw [hnews]
    show (decide (ctr = ctr) &&
      decide (getFiber s' ctr =
        some { fd0 with sibling := if es'.isEmpty then none else some (ctr + 1) }) &&
      isChainB s' (if es'.isEmpty then none else some (ctr + 1))
        (newsChain (ctr + 1) (reconcileNews wip (ctr + 1) es' olds.tail))) = true
    simp [h0]
    simpa using hih

theorem getFiber_applyReconcile_wip (s : State) (wip : Nat) (es : List Element)
    (olds : List (Nat × FiberData)) (wfd : FiberData)
    (hw : getFiber s wip = some wfd) (hwlt : wip < s.fiberCounter)
    (hwnot : wip ∉ olds.map Prod.fst) :
    getFiber (applyReconcile s wip es olds) wip =
      some (if es.isEmpty && olds.isEmpty then wfd
            else { wfd with child := if es.isEmpty then none else some s.fiberCounter }) := by
  have hwd : wip ∉ reconcileDels es olds := fun hh =>
    hwnot (reconcileDels_subset es olds wip hh)
  have h2 : getFiber (markDeletions
      (allocNews s (reconcileNews wip s.fiberCounter es olds))
      (reconcileDels es olds)) wip = some wfd := by
    rw [getFiber_markDeletions_notMem _ _ hwd, getFiber_allocNews_low _ _ hwlt]
    exact hw
  unfold applyReconcile
  cases hemp : (es.isEmpty && olds.isEmpty) with
  | true =>
    simp only [hemp, if_true]
    exact h2
  | false =>
    simp only [hemp, Bool.false_eq_true, if_false]
    rw [setChildTotal_eq _ h2]
    exact getFiber_set_self _ _ _

/-- C4: for every input to reconciliation, the work-in-progress child
chain that reconciliation links below the parent is a well-formed
null-terminated sibling chain containing no fiber tagged DELETION: every
linked work node is an UPDATE or PLACEMENT, while every DELETION-marked
previous fiber is appended to the side deletion list instead. -/
theorem c4_deletion_never_linked
    (fuel : Nat) (s : State) (wip : Nat) (es : List Element)
    (olds : List (Nat × FiberData)) (s' : State) (wfd : FiberData) (cur : Option Nat)
    (dl : List Nat)
    (hw : getFiber s wip = some wfd) (hwlt : wip < s.fiberCounter)
    (hchild0 : wfd.child = none)
    (hcur : oldChainCursor s wfd = some cur)
    (hch : isChainB s cur olds = true)
    (hb : ∀ jj ∈ olds.map Prod.fst, jj < s.fiberCounter)
    (hwnot : wip ∉ olds.map Prod.fst)
    (hdl : s.deletions = some dl)
    (hrun : reconcileChildren fuel s wip es = some s') :
    ∃ wfd' newChain, getFiber s' wip = some wfd' ∧
      isChainB s' wfd'.child newChain = true ∧
      (∀ pr ∈ newChain, ¬ pr.2.effectTag = some Effect.deletion) ∧
      s'.deletions = some (dl ++ reconcileDels es olds) := by
  rw [reconcileChildren_run fuel s wip es wfd cur hw hcur] at hrun
  have hs' : s' = applyReconcile s wip es olds :=
    reconcileAux_head wip es olds fuel s cur s' hch hb hw hwlt hwnot hrun
  subst hs'
  have hpres : ∀ d ∈ reconcileDels es olds, (getFiber s d).isSome := by
    intro d hd
    obtain ⟨pr, hpr, hfst⟩ := List.mem_map.mp (reconcileDels_subset es olds d hd)
    rw [← hfst, isChainB_entries hch pr hpr]
    rfl
  have hdels := applyReconcile_deletions s wip es olds dl hdl hb hpres
  have hwip := getFiber_applyReconcile_wip s wip es olds wfd hw hwlt hwnot
  have heffAll : ∀ pr ∈ newsChain s.fiberCounter (reconcileNews wip s.fiberCounter es olds),
      ¬ pr.2.effectTag = some Effect.deletion := by
    intro pr hpr hcon
    rcases reconcileNews_effect wip es olds s.fiberCounter pr.2
        (newsChain_mem _ _ _ hpr) with h | h
    · rw [hcon] at h; simp at h
    · rw [hcon] at h; simp at h
  cases hemp : (es.isEmpty && olds.isEmpty) with
  | true =>
    rw [hemp] at hwip
    simp at hwip
    refine ⟨wfd, [], hwip, ?_, by simp, hdels⟩
    rw [hchild0]
    rfl
  | false =>
    rw [hemp] at hwip
    simp only [Bool.false_eq_true, if_false] at hwip
    have hlook : ∀ k, k < (reconcileNews wip s.fiberCounter es olds).length →
        getFiber (applyReconcile s wip es olds) (s.fiberCounter + k) =
          (reconcileNews wip s.fiberCounter es olds).get? k :=
      fun k hk => getFiber_applyReconcile_new s wip es olds k hwlt hb hk
    have hchain := isChainB_reconcileNews (applyReconcile s wip es olds) wip es olds
      s.fiberCounter hlook
    exact ⟨_, newsChain s.fiberCounter (reconcileNews wip s.fiberCounter es olds),
      hwip, hchain, heffAll, hdels⟩

/-- Witness for C4: in the concrete mismatch scenario the reconciled child
chain of the work parent is the single fresh PLACEMENT fiber, and the old
div lands on the deletion list. -/
theorem c4_deletion_never_linked_witness :
    wipMainFd.child = none ∧
    ∃ wfd' newChain,
      getFiber ((reconcileChildren 10 sMismatch 2 [elP]).getD baseState) 2 = some wfd' ∧
      isChainB ((reconcileChildren 10 sMismatch 2 [elP]).getD baseState)
        wfd'.child newChain = true ∧
      (∀ pr ∈ newChain, ¬ pr.2.effectTag = some Effect.deletion) ∧
      ((reconcileChildren 10 sMismatch 2 [elP]).getD baseState).deletions =
        some ([] ++ reconcileDels [elP] [(1, oldDivFd)]) := by
  refine ⟨rfl, ?_⟩
  exact c4_deletion_never_linked 10 sMismatch 2 [elP] [(1, oldDivFd)]
    ((reconcileChildren 10 sMismatch 2 [elP]).getD baseState) wipMainFd (some 1) []
    rfl (by decide) rfl rfl (by decide) (by decide) (by decide) rfl rfl

theorem updateDom_setProp_mem (node : Nat) (prev next : Props) (key : String) (v : Value) :
    Mutation.setProp node key v ∈ updateDom node prev next ↔
      key ∈ keysOf next ∧ isProp key = true ∧ isNew prev next key = true ∧
      lookupD next key = v := by
  simp only [updateDom, List.mem_append, List.mem_map, List.mem_filter]
  constructor
  · rintro (((⟨name, hmem, heq⟩ | ⟨name, hmem, heq⟩) | ⟨name, hmem, heq⟩) | ⟨name, hmem, heq⟩)
    · simp at heq
    · simp at heq
    · injection heq with ha hb hc
      subst hb
      exact ⟨hmem.1.1, hmem.1.2, hmem.2, hc⟩
    · simp at heq
  · rintro ⟨h1, h2, h3, h4⟩
    exact Or.inl (Or.inr ⟨key, ⟨⟨h1, h2⟩, h3⟩, by rw [h4]⟩)

theorem updateDom_clearProp_mem (node : Nat) (prev next : Props) (key : String) :
    Mutation.clearProp node key ∈ updateDom node prev next ↔
      key ∈ keysOf prev ∧ isProp key = true ∧ isGone next key = true := by
  simp only [updateDom, List.mem_append, List.mem_map, List.mem_filter]
  constructor
  · rintro (((⟨name, hmem, heq⟩ | ⟨name, hmem, heq⟩) | ⟨name, hmem, heq⟩) | ⟨name, hmem, heq⟩)
    · simp at heq
    · injection heq with ha hb
      subst hb
      exact ⟨hmem.1.1, hmem.1.2, hmem.2⟩
    · simp at heq
    · simp at heq
  · rintro ⟨h1, h2, h3⟩
    exact Or.inl (Or.inl (Or.inr ⟨key, ⟨⟨h1, h2⟩, h3⟩, rfl⟩))

theorem assocFind_isSome_of_mem_keys {p : Props} {key : String}
    (h : key ∈ keysOf p) : (assocFind key p).isSome := by
  induction p with
  | nil => simp [keysOf] at h
  | cons hd t ih =>
    obtain ⟨k, v⟩ := hd
    by_cases hk : k = key
    · simp [assocFind, hk]
    · simp [keysOf] at h
      rcases h with h | h
      · exact absurd h.symm (by simpa using hk)
      · simpa [assocFind, hk] using ih (by simpa [keysOf] using h)

/-- C5: the attribute diff writes exactly the plain keys of the next map
whose value is new or changed under strict (reference/value) inequality,
and clears exactly the plain keys of the previous map that are gone from
the next map; a key whose looked-up value is unchanged triggers no write
and no clear.  Concretely, `{id: x, class: c1} → {id: x, class: c2}`
rewrites only `class`, and a reference-distinct `ref` value is rewritten
even though its content is not compared. -/
theorem c5_attribute_diff_minimality (node : Nat) (prev next : Props) (key : String) :
    (∀ v, Mutation.setProp node key v ∈ updateDom node prev next ↔
      key ∈ keysOf next ∧ isProp key = true ∧ isNew prev next key = true ∧
      lookupD next key = v) ∧
    (Mutation.clearProp node key ∈ updateDom node prev next ↔
      key ∈ keysOf prev ∧ isProp key = true ∧ isGone next key = true) ∧
    (assocFind key prev = assocFind key next →
      (∀ v, Mutation.setProp node key v ∉ updateDom node prev next) ∧
      Mutation.clearProp node key ∉ updateDom node prev next) ∧
    updateDom node [("id", Value.str "x"), ("class", Value.str "c1")]
        [("id", Value.str "x"), ("class", Value.str "c2")] =
      [Mutation.setProp node "class" (Value.str "c2")] ∧
    updateDom node [("cfg", Value.ref 1)] [("cfg", Value.ref 2)] =
      [Mutation.setProp node "cfg" (Value.ref 2)] := by
  refine ⟨fun v => updateDom_setProp_mem node prev next key v,
    updateDom_clearProp_mem node prev next key, ?_, by rfl, by rfl⟩
  intro heq
  constructor
  · intro v hv
    obtain ⟨_, _, h3, _⟩ := (updateDom_setProp_mem node prev next key v).mp hv
    simp [isNew, heq] at h3
  · intro hv
    obtain ⟨h1, h2, h3⟩ := (updateDom_clearProp_mem node prev next key).mp hv
    have hs := assocFind_isSome_of_mem_keys h1
    rw [heq] at hs
    simp [isGone] at h3
    simp [h3] at hs

/-- Witness for C5: with an unchanged `id` key the diff performs no clear
for it. -/
theorem c5_attribute_diff_minimality_witness :
    (assocFind "id" [("id", Value.str "x")] =
      assocFind "id" [("id", Value.str "x"), ("k", Value.str "y")]) ∧
    Mutation.clearProp 7 "id" ∉
      updateDom 7 [("id", Value.str "x")] [("id", Value.str "x"), ("k", Value.str "y")] := by
  refine ⟨rfl, ?_⟩
  exact ((c5_attribute_diff_minimality 7 [("id", Value.str "x")]
    [("id", Value.str "x"), ("k", Value.str "y")] "id").2.2.1 rfl).2

/-- C6 (amended): the remaining-time query follows each work step rather
than preceding it: with pending work the loop always begins and completes
one unit of work even when the deadline already reports no remaining time
at entry, and when the single post-step query reports no time it suspends
with exactly that one unit processed. -/
theorem c6_query_follows_step (deadline : Nat → Nat) (fuel q : Nat) (s : State)
    (fid : Nat) (s1 : State) (nxt : Option Nat) (muts : List Mutation)
    (hnu : s.nextUnitOfWork = some fid)
    (hexp : deadline q < 1)
    (hpu : performUnitOfWork fuel s fid = some (s1, nxt, muts)) :
    workLoopAux deadline (fuel + 1) q s =
      some ({ s1 with nextUnitOfWork := nxt }, muts, 1) := by
  simp only [workLoopAux, hnu, hpu]
  rw [if_pos hexp]

/-- Witness for C6: one render-step state processed under an
already-expired deadline. -/
theorem c6_query_follows_step_witness :
    sC6.nextUnitOfWork = some 0 ∧ oneNodeTime 0 0 < 1 ∧
    workLoopAux (oneNodeTime 0) 1000 0 sC6 =
      some ({ ((performUnitOfWork 999 sC6 0).getD (baseState, none, [])).1 with
              nextUnitOfWork :=
                ((performUnitOfWork 999 sC6 0).getD (baseState, none, [])).2.1 },
            ((performUnitOfWork 999 sC6 0).getD (baseState, none, [])).2.2, 1) := by
  refine ⟨rfl, by decide, ?_⟩
  exact c6_query_follows_step (oneNodeTime 0) 999 0 sC6 0 _ _ _ rfl (by decide) (by rfl)

/-- Counterexample to C6 as stated: with a deadline that reports no
remaining time at every query, a pending work step is nonetheless begun
and completed (step count 1), so the query cannot precede the step. -/
theorem c6_counterexample :
    oneNodeTime 0 0 < 1 ∧ sC6.nextUnitOfWork.isSome = true ∧
    ((workLoopAux (oneNodeTime 0) 1000 0 sC6).map (fun r => r.2.2)) = some 1 ∧
    ((workLoopAux (oneNodeTime 0) 1000 0 sC6).map
      (fun r => r.1.nextUnitOfWork.isSome)) = some true := by
  exact ⟨by decide, by decide, by decide, by decide⟩

/-- C7 (amended): for both a PLACEMENT and a DELETION fiber, the host
parent used for attaching or detaching is the immediate parent work
node's own host reference: the attach appends to it, the detach removes
from it, and when the immediate parent owns no host node the attach or
detach is silently skipped, with no climb to an ancestor that does own
one. -/
theorem c7_domparent_is_immediate_parent (s : State) (fd : FiberData) (p : Nat)
    (pfd : FiberData) (d : Nat)
    (hp : fd.parent = some p) (hpfd : getFiber s p = some pfd)
    (hd : fd.dom = some d) :
    (fd.effectTag = some Effect.placement →
      commitOwn s fd =
        match pfd.dom with
        | some dp => some ({ s with dom := applyMut s.dom (Mutation.appendChild dp d) },
                           [Mutation.appendChild dp d])
        | none => some (s, [])) ∧
    (fd.effectTag = some Effect.deletion →
      commitOwn s fd =
        match pfd.dom with
        | some dp => some ({ s with dom := applyMut s.dom (Mutation.removeChild dp d) },
                           [Mutation.removeChild dp d])
        | none => some (s, [])) := by
  constructor
  · intro heff
    simp only [commitOwn, hp, hpfd, Option.map_some', heff, hd]
  · intro heff
    simp only [commitOwn, hp, hpfd, Option.map_some', heff, hd]

/-- Witness for C7: under the host-less parent both the PLACEMENT and
the DELETION leaf commit without any host mutation, while under the
host-owning parent (node 5) the attach appends node 7 to it and the
detach removes node 7 from it. -/
theorem c7_domparent_is_immediate_parent_witness :
    fiberLeaf.parent = some 1 ∧ fiberLeafDel.parent = some 1 ∧ fiberMid.dom = none ∧
    fiberAtt.parent = some 0 ∧ fiberDet.parent = some 0 ∧ fiberG.dom = some 5 ∧
    commitOwn sC7 fiberLeaf = some (sC7, []) ∧
    commitOwn sC7 fiberLeafDel = some (sC7, []) ∧
    commitOwn sC7 fiberAtt =
      some ({ sC7 with dom := applyMut sC7.dom (Mutation.appendChild 5 7) },
            [Mutation.appendChild 5 7]) ∧
    commitOwn sC7 fiberDet =
      some ({ sC7 with dom := applyMut sC7.dom (Mutation.removeChild 5 7) },
            [Mutation.removeChild 5 7]) := by
  refine ⟨rfl, rfl, rfl, rfl, rfl, rfl, ?_, ?_, ?_, ?_⟩
  · exact (c7_domparent_is_immediate_parent sC7 fiberLeaf 1 fiberMid 7 rfl rfl rfl).1 rfl
  · exact (c7_domparent_is_immediate_parent sC7 fiberLeafDel 1 fiberMid 7 rfl rfl rfl).2 rfl
  · exact (c7_domparent_is_immediate_parent sC7 fiberAtt 0 fiberG 7 rfl rfl rfl).1 rfl
  · exact (c7_domparent_is_immediate_parent sC7 fiberDet 0 fiberG 7 rfl rfl rfl).2 rfl

/-- Counterexample to C7 as stated: for the PLACEMENT leaf (fiber 2) and
for the DELETION leaf (fiber 3) alike, the nearest host-owning ancestor
is node 5 (per the specification's skip-up rule), yet the commit performs
no host mutation at all — neither appendChild nor removeChild — because
the immediate parent owns no host node. -/
theorem c7_counterexample :
    fiberLeaf.effectTag = some Effect.placement ∧
    fiberLeafDel.effectTag = some Effect.deletion ∧
    fiberLeaf.dom = some 7 ∧ fiberLeafDel.dom = some 7 ∧
    specNearestHostAncestorDom 10 sC7 2 = some 5 ∧
    specNearestHostAncestorDom 10 sC7 3 = some 5 ∧
    commitWork 10 sC7 (some 2) = some (sC7, []) ∧
    commitWork 10 sC7 (some 3) = some (sC7, []) := by
  exact ⟨rfl, rfl, rfl, rfl, by decide, by decide, by decide, by decide⟩

theorem commitOwn_frame (s : State) (fd : FiberData) (s1 : State) (m : List Mutation)
    (h : commitOwn s fd = some (s1, m)) : s1 = { s with dom := s1.dom } := by
  unfold commitOwn at h
  cases hp : fd.parent with
  | none =>
    simp only [hp] at h
    repeat' split at h
    all_goals first
      | exact Option.noConfusion h
      | (injection h with h1
         injection h1 with ha hb
         subst ha
         rfl)
  | some p =>
    cases hg : getFiber s p with
    | none =>
      simp only [hp, hg, Option.map_none'] at h
      exact Option.noConfusion h
    | some pfd =>
      simp only [hp, hg, Option.map_some'] at h
      repeat' split at h
      all_goals first
        | exact Option.noConfusion h
        | (injection h with h1
           injection h1 with ha hb
           subst ha
           rfl)

theorem commitWork_frame : ∀ (fuel : Nat) (s : State) (cur : Option Nat) (s1 : State)
    (m : List Mutation),
    commitWork fuel s cur = some (s1, m) → s1 = { s with dom := s1.dom } := by
  intro fuel
  induction fuel with
  | zero =>
    intro s cur s1 m h
    cases cur with
    | none =>
      injection h with h1
      injection h1 with ha hb
      subst ha
      rfl
    | some fid => exact Option.noConfusion h
  | succ f ih =>
    intro s cur s1 m h
    cases cur with
    | none =>
      injection h with h1
      injection h1 with ha hb
      subst ha
      rfl
    | some fid =>
      simp only [commitWork] at h
      cases hg : getFiber s fid with
      | none => rw [hg] at h; exact Option.noConfusion h
      | some fd =>
        rw [hg] at h
        cases hco : commitOwn s fd with
        | none => simp only [hco] at h; exact Option.noConfusion h
        | some r1 =>
          obtain ⟨sA, m1⟩ := r1
          simp only [hco] at h
          cases hcc : commitWork f sA fd.child with
          | none => simp only [hcc] at h; exact Option.noConfusion h
          | some r2 =>
            obtain ⟨sB, m2⟩ := r2
            simp only [hcc] at h
            cases hcs : commitWork f sB fd.sibling with
            | none => simp only [hcs] at h; exact Option.noConfusion h
            | some r3 =>
              obtain ⟨sC, m3⟩ := r3
              simp only [hcs] at h
              injection h with h1
              injection h1 with ha hb
              subst ha
              have h1 := commitOwn_frame s fd sA m1 hco
              have h2 := ih sA fd.child sB m2 hcc
              have h3 := ih sB fd.sibling sC m3 hcs
              calc sC = { sB with dom := sC.dom } := h3
                _ = { sA with dom := sC.dom } := by rw [h2]
                _ = { s with dom := sC.dom } := by rw [h1]

theorem commitDeletions_frame : ∀ (dels : List Nat) (fuel : Nat) (s : State) (s1 : State)
    (m : List Mutation),
    commitDeletions fuel s dels = some (s1, m) → s1 = { s with dom := s1.dom } := by
  intro dels
  induction dels with
  | nil =>
    intro fuel s s1 m h
    injection h with h1
    injection h1 with ha hb
    subst ha
    rfl
  | cons d t ih =>
    intro fuel s s1 m h
    simp only [commitDeletions] at h
    cases hw : commitWork fuel s (some d) with
    | none => rw [hw] at h; exact Option.noConfusion h
    | some r1 =>
      obtain ⟨sA, m1⟩ := r1
      rw [hw] at h
      cases hr : commitDeletions fuel sA t with
      | none => simp only [hr] at h; exact Option.noConfusion h
      | some r2 =>
        obtain ⟨sB, m2⟩ := r2
        simp only [hr] at h
        injection h with h1
        injection h1 with ha hb
        subst ha
        have h1 := commitWork_frame fuel s (some d) sA m1 hw
        have h2 := ih fuel sA sB m2 hr
        calc sB = { sA with dom := sB.dom } := h2
          _ = { s with dom := sB.dom } := by rw [h1]

theorem commitRoot_shape (fuel : Nat) (s s' : State) (muts : List Mutation)
    (hrun : commitRoot fuel s = some (s', muts)) :
    s'.deletions = s.deletions ∧ s'.wipRoot = none ∧ s'.currentRoot = s.wipRoot ∧
    s'.nextUnitOfWork = s.nextUnitOfWork ∧ s'.fibers = s.fibers := by
  unfold commitRoot at hrun
  cases hcd : commitDeletions fuel s (s.deletions.getD []) with
  | none => rw [hcd] at hrun; exact Option.noConfusion hrun
  | some r1 =>
    obtain ⟨s1, dmuts⟩ := r1
    simp only [hcd] at hrun
    have hf1 := commitDeletions_frame _ fuel s s1 dmuts hcd
    have main : ∀ (rootChild : Option Nat),
        (match commitWork fuel s1 rootChild with
          | none => none
          | some (s2, cmuts) =>
            some ({ s2 with currentRoot := s2.wipRoot, wipRoot := none },
                  dmuts ++ cmuts)) = some (s', muts) →
        s'.deletions = s.deletions ∧ s'.wipRoot = none ∧ s'.currentRoot = s.wipRoot ∧
        s'.nextUnitOfWork = s.nextUnitOfWork ∧ s'.fibers = s.fibers := by
      intro rootChild hr
      cases hcw : commitWork fuel s1 rootChild with
      | none => simp only [hcw] at hr; exact Option.noConfusion hr
      | some r2 =>
        obtain ⟨s2, cmuts⟩ := r2
        simp only [hcw] at hr
        have hf2 := commitWork_frame fuel s1 rootChild s2 cmuts hcw
        injection hr with h1
        injection h1 with ha hb
        subst ha
        refine ⟨?_, rfl, ?_, ?_, ?_⟩
        · show s2.deletions = s.deletions
          rw [hf2, hf1]
        · show s2.wipRoot = s.wipRoot
          rw [hf2, hf1]
        · show s2.nextUnitOfWork = s.nextUnitOfWork
          rw [hf2, hf1]
        · show s2.fibers = s.fibers
          rw [hf2, hf1]
    cases hw1 : s1.wipRoot with
    | none =>
      simp only [hw1] at hrun
      exact main none hrun
    | some w =>
      cases hgw : getFiber s1 w with
      | none =>
        simp only [hw1, hgw] at hrun
        exact Option.noConfusion hrun
      | some wfd1 =>
        simp only [hw1, hgw, Option.map_some'] at hrun
        exact main wfd1.child hrun

/-- C8 (amended): when the commit finishes, the work-in-progress root is
promoted to the committed root and then nulled, but the deletion list is
NOT cleared by the commit: it keeps its pre-commit contents, and only the
next `render` call resets it to the empty list. -/
theorem c8_commit_keeps_deletions (fuel : Nat) (s s' : State) (muts : List Mutation)
    (hrun : commitRoot fuel s = some (s', muts)) :
    s'.deletions = s.deletions ∧ s'.wipRoot = none ∧ s'.currentRoot = s.wipRoot ∧
    (∀ e c, (render e c s').deletions = some ([] : List Nat)) := by
  obtain ⟨h1, h2, h3, _, _⟩ := commitRoot_shape fuel s s' muts hrun
  exact ⟨h1, h2, h3, fun e c => rfl⟩

/-- Witness for C8: committing the built second concrete cycle promotes
the root and leaves the pending deletion of the old div on the list. -/
theorem c8_commit_keeps_deletions_witness :
    ((commitRoot 1000 preCommitC8).getD (baseState, [])).1.deletions =
      preCommitC8.deletions ∧
    ((commitRoot 1000 preCommitC8).getD (baseState, [])).1.wipRoot = none := by
  have h := c8_commit_keeps_deletions 1000 preCommitC8
    ((commitRoot 1000 preCommitC8).getD (baseState, [])).1
    ((commitRoot 1000 preCommitC8).getD (baseState, [])).2
    (by rfl)
  exact ⟨h.1, h.2.1⟩

/-- Counterexample to C8 as stated: after the second concrete cycle's
commit the deletion list still holds the old div (fiber 2) instead of
being empty, and it is the next `render` call that clears it. -/
theorem c8_counterexample :
    ((commitRoot 1000 preCommitC8).map (fun r => r.1.deletions)) =
      some (some [2]) ∧
    ((commitRoot 1000 preCommitC8).map (fun r => r.1.wipRoot)) = some none ∧
    ((commitRoot 1000 preCommitC8).map
      (fun r => (render elDiv 0 r.1).deletions)) = some (some []) := by
  exact ⟨by decide, by decide, by decide⟩

/-- C9 (amended): `render` performs no validation at all: for every
descriptor, malformed or not, it allocates the root work node holding the
descriptor, schedules it as the next unit of work and resets the deletion
list, all identically; a type-less non-text descriptor is later
materialised as an element host node with the empty-tag fallback rather
than being rejected. -/
theorem c9_render_never_validates (e : Element) (c : Nat) (s : State) :
    (render e c s).wipRoot = some s.fiberCounter ∧
    (render e c s).nextUnitOfWork = some s.fiberCounter ∧
    (render e c s).deletions = some ([] : List Nat) ∧
    getFiber (render e c s) s.fiberCounter = some
      { type? := none, attrs := [], children := [e], dom := some c,
        parent := none, child := none, sibling := none,
        alternate := s.currentRoot, effectTag := none } ∧
    assocFind baseState.dom.counter
        ((createDom baseState (placementFiberFD 0 badEl)).1.dom.nodes) =
      some { isText := false, tag := "", props := [], listeners := [],
             children := ([] : List Nat) } := by
  refine ⟨rfl, rfl, rfl, ?_, by rfl⟩
  exact getFiber_alloc_self s _

/-- Counterexample to C9 as stated: rendering the malformed type-less
descriptor is accepted without any rejection: the root work node holding
it is created and scheduled exactly as for a well-formed descriptor. -/
theorem c9_counterexample :
    badEl.type? = none ∧ ¬ badEl.type? = some "TEXT_ELEMENT" ∧
    sC9.wipRoot = some 0 ∧ sC9.nextUnitOfWork = some 0 ∧
    getFiber sC9 0 = some
      { type? := none, attrs := [], children := [badEl], dom := some 0,
        parent := none, child := none, sibling := none,
        alternate := none, effectTag := none } := by
  exact ⟨rfl, by decide, rfl, rfl, by decide⟩

theorem workLoop_idle (deadline : Nat → Nat) (fuel : Nat) (s : State)
    (hf : 1 ≤ fuel) (hnu : s.nextUnitOfWork = none) (hwr : s.wipRoot = none) :
    workLoop deadline fuel s = some (s, [], 0) := by
  obtain ⟨f, rfl⟩ : ∃ f, fuel = f + 1 := ⟨fuel - 1, by omega⟩
  unfold workLoop
  simp only [workLoopAux, hnu, hwr]
  rfl

theorem runSlices_idle (fuel : Nat) (s : State)
    (hf : 1 ≤ fuel) (hnu : s.nextUnitOfWork = none) (hwr : s.wipRoot = none) :
    ∀ (n : Nat) (deadlines : Nat → Nat → Nat),
    runSlices deadlines fuel n s = some (s, List.replicate n ([] : List Mutation)) := by
  intro n
  induction n with
  | zero => intro deadlines; rfl
  | succ m ih =>
    intro deadlines
    simp only [runSlices, workLoop_idle (deadlines 0) fuel s hf hnu hwr,
      ih (fun i => deadlines (i + 1))]
    rfl

/-- C10: each render call leads to at most one commit: committing nulls
the work-in-progress root, and since the loop only commits when such a
root exists and no work is pending, every later idle invocation before
the next render performs zero work steps, zero host mutations and no
commit — the state (committed root, fiber arena, deletion list, host
tree) is unchanged across arbitrarily many rescheduled idle slices. -/
theorem c10_at_most_one_commit (fuel : Nat) (s s' : State) (muts : List Mutation)
    (deadlines : Nat → Nat → Nat) (n : Nat)
    (hf : 1 ≤ fuel)
    (hnu : s.nextUnitOfWork = none)
    (hrun : commitRoot fuel s = some (s', muts)) :
    s'.wipRoot = none ∧
    runSlices deadlines fuel n s' =
      some (s', List.replicate n ([] : List Mutation)) := by
  obtain ⟨hdel, hwr, hcur, hnupres, hfib⟩ := commitRoot_shape fuel s s' muts hrun
  have hnu' : s'.nextUnitOfWork = none := by rw [hnupres]; exact hnu
  exact ⟨hwr, runSlices_idle fuel s' hf hnu' hwr n deadlines⟩

/-- Witness for C10: after committing the built second concrete cycle,
three further idle slices leave the state untouched with empty logs. -/
theorem c10_at_most_one_commit_witness :
    preCommitC8.nextUnitOfWork = none ∧
    ((commitRoot 1000 preCommitC8).getD (baseState, [])).1.wipRoot = none ∧
    runSlices fullTime 1000 3 ((commitRoot 1000 preCommitC8).getD (baseState, [])).1 =
      some (((commitRoot 1000 preCommitC8).getD (baseState, [])).1,
            List.replicate 3 ([] : List Mutation)) := by
  have h := c10_at_most_one_commit 1000 preCommitC8
    ((commitRoot 1000 preCommitC8).getD (baseState, [])).1
    ((commitRoot 1000 preCommitC8).getD (baseState, [])).2
    fullTime 3 (by omega) (by decide) (by rfl)
  exact ⟨by decide, h.1, h.2⟩

theorem setFiberChild_dom (s : State) (i : Nat) (c : Option Nat) (s' : State)
    (h : setFiberChild s i c = some s') : s'.dom = s.dom := by
  unfold setFiberChild at h
  cases hg : getFiber s i with
  | none => rw [hg] at h; exact Option.noConfusion h
  | some fd =>
    rw [hg] at h
    injection h with h1
    rw [← h1]
    rfl

theorem setFiberSibling_dom (s : State) (i : Nat) (c : Option Nat) (s' : State)
    (h : setFiberSibling s i c = some s') : s'.dom = s.dom := by
  unfold setFiberSibling at h
  cases hg : getFiber s i with
  | none => rw [hg] at h; exact Option.noConfusion h
  | some fd =>
    rw [hg] at h
    injection h with h1
    rw [← h1]
    rfl

theorem reconcileStep_dom (wip : Nat) (es : List Element) (s : State) (i : Nat)
    (c p : Option Nat) (s3 : State) (a b : Option Nat)
    (h : reconcileStep wip es s i c p = some (s3, a, b)) : s3.dom = s.dom := by
  unfold reconcileStep at h
  simp only [] at h
  split at h
  · exact Option.noConfusion h
  · rename_i oldF heqF
    split at h
    · exact Option.noConfusion h
    · rename_i s2 heqD
      have hd2 : s2.dom = s.dom := by
        split at heqD
        · injection heqD with h2
          rw [← h2]
          repeat' split
          all_goals rfl
        · split at heqD
          · split at heqD
            · injection heqD with h2
              rw [← h2]
              repeat' split
              all_goals rfl
            · exact Option.noConfusion heqD
          · injection heqD with h2
            rw [← h2]
            repeat' split
            all_goals rfl
      split at h
      · exact Option.noConfusion h
      · rename_i s3x heqL
        have hd3 : s3x.dom = s2.dom := by
          split at heqL
          · exact setFiberChild_dom _ _ _ _ heqL
          · split at heqL
            · exact setFiberSibling_dom _ _ _ _ heqL
            · exact Option.noConfusion heqL
            · injection heqL with h2
              rw [← h2]
        injection h with h1
        injection h1 with ha hb
        rw [← ha]
        exact hd3.trans hd2


theorem reconcileAux_dom (wip : Nat) (es : List Element) :
    ∀ (fuel : Nat) (s : State) (i : Nat) (c p : Option Nat) (s' : State),
    reconcileAux wip es fuel s i c p = some s' → s'.dom = s.dom := by
  intro fuel
  induction fuel with
  | zero => intro s i c p s' h; exact Option.noConfusion h
  | succ f ih =>
    intro s i c p s' h
    simp only [reconcileAux] at h
    by_cases hcond : (i < es.length || c.isSome) = true
    · rw [if_pos hcond] at h
      cases hstep : reconcileStep wip es s i c p with
      | none => rw [hstep] at h; exact Option.noConfusion h
      | some r =>
        obtain ⟨s3, oldNext, nf⟩ := r
        simp only [hstep] at h
        have h1 := ih s3 (i + 1) oldNext nf s' h
        rw [h1]
        exact reconcileStep_dom wip es s i c p s3 oldNext nf hstep
    · rw [if_neg hcond] at h
      injection h with h1
      rw [← h1]

theorem reconcileChildren_dom (fuel : Nat) (s : State) (wip : Nat) (es : List Element)
    (s' : State) (h : reconcileChildren fuel s wip es = some s') : s'.dom = s.dom := by
  unfold reconcileChildren at h
  cases hg : getFiber s wip with
  | none => rw [hg] at h; exact Option.noConfusion h
  | some wfd =>
    simp only [hg] at h
    split at h
    · exact Option.noConfusion h
    · rename_i cur heqC
      exact reconcileAux_dom wip es fuel s 0 cur none s' h

theorem updateNode_counter (d : Dom) (n : Nat) (f : DomNode → DomNode) :
    (updateNode d n f).counter = d.counter := by
  unfold updateNode
  cases assocFind n d.nodes <;> rfl

theorem updateNode_preserve (d : Dom) (n : Nat) (f : DomNode → DomNode) {id : Nat}
    (h : ¬ id = n) : assocFind id (updateNode d n f).nodes = assocFind id d.nodes := by
  unfold updateNode
  cases hg : assocFind n d.nodes with
  | none => rfl
  | some nd =>
    show assocFind id (assocSet n (f nd) d.nodes) = assocFind id d.nodes
    exact assocFind_set_ne _ _ h

theorem applyMut_counter (d : Dom) (m : Mutation) :
    (applyMut d m).counter = d.counter := by
  cases m <;> exact updateNode_counter _ _ _

theorem applyMut_preserve (d : Dom) (m : Mutation) {id : Nat}
    (h : ¬ id = mutTarget m) :
    assocFind id (applyMut d m).nodes = assocFind id d.nodes := by
  cases m <;> exact updateNode_preserve _ _ _ h

theorem applyMuts_counter (d : Dom) (muts : List Mutation) :
    (applyMuts d muts).counter = d.counter := by
  induction muts generalizing d with
  | nil => rfl
  | cons m t ih =>
    show (applyMuts (applyMut d m) t).counter = d.counter
    rw [ih, applyMut_counter]

theorem applyMuts_preserve (d : Dom) (muts : List Mutation) {id : Nat}
    (h : ∀ m ∈ muts, ¬ id = mutTarget m) :
    assocFind id (applyMuts d muts).nodes = assocFind id d.nodes := by
  induction muts generalizing d with
  | nil => rfl
  | cons m t ih =>
    show assocFind id (applyMuts (applyMut d m) t).nodes = assocFind id d.nodes
    rw [ih _ (fun m' hm' => h m' (by simp [hm'])),
        applyMut_preserve _ _ (h m (by simp))]

theorem updateDom_target (node : Nat) (prev next : Props) :
    ∀ m ∈ updateDom node prev next, mutTarget m = node := by
  intro m hm
  unfold updateDom at hm
  repeat' rcases List.mem_append.mp hm with hm | hm
  all_goals
    obtain ⟨name, hname, hmf⟩ := List.mem_map.mp hm
    subst hmf
    rfl

theorem createDom_dom (s : State) (fd : FiberData) :
    ((createDom s fd).1).dom.counter = s.dom.counter + 1 ∧
    ∀ id, id < s.dom.counter →
      assocFind id ((createDom s fd).1).dom.nodes = assocFind id s.dom.nodes := by
  constructor
  · show (applyMuts _ _).counter = _
    rw [applyMuts_counter]
  · intro id hid
    show assocFind id (applyMuts _ _).nodes = _
    rw [applyMuts_preserve]
    · have hne : ¬ s.dom.counter = id := by omega
      simp [assocFind, hne]
    · intro m hm
      rw [updateDom_target s.dom.counter [] fd.attrs m hm]
      omega


theorem performUnitOfWork_dom (fuel : Nat) (s : State) (fid : Nat) (s1 : State)
    (nxt : Option Nat) (m : List Mutation)
    (h : performUnitOfWork fuel s fid = some (s1, nxt, m)) :
    s.dom.counter ≤ s1.dom.counter ∧
    ∀ id, id < s.dom.counter →
      assocFind id s1.dom.nodes = assocFind id s.dom.nodes := by
  unfold performUnitOfWork at h
  cases hg : getFiber s fid with
  | none => rw [hg] at h; exact Option.noConfusion h
  | some fd =>
    simp only [hg] at h
    cases hd : fd.dom with
    | some d0 =>
      simp only [hd] at h
      cases hrc : reconcileChildren fuel s fid fd.children with
      | none => simp only [hrc] at h; exact Option.noConfusion h
      | some s2 =>
        simp only [hrc] at h
        have hdom := reconcileChildren_dom fuel s fid fd.children s2 hrc
        have hs : s1 = s2 := by
          split at h
          · exact Option.noConfusion h
          · rename_i fd2 heq2
            split at h
            · injection h with h1
              injection h1 with ha hb
              exact ha.symm
            · split at h
              · exact Option.noConfusion h
              · injection h with h1
                injection h1 with ha hb
                exact ha.symm
        rw [hs, hdom]
        exact ⟨Nat.le_refl _, fun id _ => rfl⟩
    | none =>
      simp only [hd] at h
      obtain ⟨sD, nid, mutsD, hcd⟩ : ∃ sD nid mutsD, createDom s fd = (sD, nid, mutsD) :=
        ⟨_, _, _, rfl⟩
      simp only [hcd] at h
      have hcnt : sD.dom.counter = s.dom.counter + 1 := by
        have hx := (createDom_dom s fd).1
        rw [hcd] at hx
        exact hx
      have hpres : ∀ id, id < s.dom.counter →
          assocFind id sD.dom.nodes = assocFind id s.dom.nodes := by
        intro id hid
        have hx := (createDom_dom s fd).2 id hid
        rw [hcd] at hx
        exact hx
      cases hrc : reconcileChildren fuel
          (setFiber sD fid { fd with dom := some nid }) fid fd.children with
      | none => simp only [hrc] at h; exact Option.noConfusion h
      | some s2 =>
        simp only [hrc] at h
        have hdom := reconcileChildren_dom fuel
          (setFiber sD fid { fd with dom := some nid }) fid fd.children s2 hrc
        have hs : s1 = s2 := by
          split at h
          · exact Option.noConfusion h
          · rename_i fd2 heq2
            split at h
            · injection h with h1
              injection h1 with ha hb
              exact ha.symm
            · split at h
              · exact Option.noConfusion h
              · injection h with h1
                injection h1 with ha hb
                exact ha.symm
        have hdomA : s2.dom = sD.dom := hdom
        rw [hs, hdomA]
        constructor
        · omega
        · intro id hid
          exact hpres id hid

theorem workLoopAux_dom (deadline : Nat → Nat) :
    ∀ (fuel q : Nat) (s : State) (s1 : State) (muts : List Mutation) (steps : Nat),
    workLoopAux deadline fuel q s = some (s1, muts, steps) →
    s.dom.counter ≤ s1.dom.counter ∧
    ∀ id, id < s.dom.counter →
      assocFind id s1.dom.nodes = assocFind id s.dom.nodes := by
  intro fuel
  induction fuel with
  | zero => intro q s s1 muts steps h; exact Option.noConfusion h
  | succ f ih =>
    intro q s s1 muts steps h
    simp only [workLoopAux] at h
    cases hnu : s.nextUnitOfWork with
    | none =>
      simp only [hnu] at h
      injection h with h1
      injection h1 with ha hb
      rw [← ha]
      exact ⟨Nat.le_refl _, fun id _ => rfl⟩
    | some fid =>
      simp only [hnu] at h
      cases hpu : performUnitOfWork f s fid with
      | none => simp only [hpu] at h; exact Option.noConfusion h
      | some r =>
        obtain ⟨sA, nxt, m1⟩ := r
        simp only [hpu] at h
        have hA := performUnitOfWork_dom f s fid sA nxt m1 hpu
        by_cases hdl : deadline q < 1
        · rw [if_pos hdl] at h
          injection h with h1
          injection h1 with ha hb
          rw [← ha]
          exact hA
        · rw [if_neg hdl] at h
          cases hrec : workLoopAux deadline f (q + 1)
              { sA with nextUnitOfWork := nxt } with
          | none => simp only [hrec] at h; exact Option.noConfusion h
          | some r2 =>
            obtain ⟨s3, rest, st⟩ := r2
            simp only [hrec] at h
            injection h with h1
            injection h1 with ha hb
            rw [← ha]
            have hB := ih (q + 1) { sA with nextUnitOfWork := nxt } s3 rest st hrec
            have hred : ({ sA with nextUnitOfWork := nxt } : State).dom.counter =
                sA.dom.counter := rfl
            constructor
            · have h1 := hA.1
              have h2 := hB.1
              omega
            · intro id hid
              have h1 := hB.2 id (by rw [hred]; have := hA.1; omega)
              have h2 := hA.2 id hid
              rw [h1]
              exact h2

theorem DomReach_lt (d : Dom) (root : Nat) (hclosed : domClosed d = true)
    (hroot : root < d.counter) : ∀ id, DomReach d.nodes root id → id < d.counter := by
  intro id h
  induction h with
  | refl => exact hroot
  | step n c nd hr hf hc ih =>
    have hmem := assocFind_mem hf
    unfold domClosed at hclosed
    rw [List.all_eq_true] at hclosed
    have h2 := hclosed (n, nd) hmem
    simp only [Bool.and_eq_true, decide_eq_true_eq, List.all_eq_true] at h2
    exact h2.2 c hc

/-- C1: during an interrupted build no host node reachable from the
container is mutated: every build slice preserves every reachable node's
record; a slice that still has pending work performs no commit at all,
and the final slice runs the whole commit to completion inside the same
invocation, emitting the build log followed by the complete commit log in
one observable transition. -/
theorem c1_commit_atomicity
    (deadline : Nat → Nat) (fuel : Nat) (s s1 : State) (muts : List Mutation)
    (steps : Nat) (container : Nat)
    (hclosed : domClosed s.dom = true) (hcont : container < s.dom.counter)
    (hrun : workLoopAux deadline fuel 0 s = some (s1, muts, steps)) :
    (∀ id, DomReach s.dom.nodes container id →
      assocFind id s1.dom.nodes = assocFind id s.dom.nodes) ∧
    (s1.nextUnitOfWork.isSome = true →
      workLoop deadline fuel s = some (s1, muts, steps)) ∧
    (∀ s2 cmuts, s1.nextUnitOfWork = none → s1.wipRoot.isSome = true →
      commitRoot fuel s1 = some (s2, cmuts) →
      workLoop deadline fuel s = some (s2, muts ++ cmuts, steps)) := by
  refine ⟨?_, ?_, ?_⟩
  · intro id hreach
    have hlt := DomReach_lt s.dom container hclosed hcont id hreach
    exact (workLoopAux_dom deadline fuel 0 s s1 muts steps hrun).2 id hlt
  · intro hsome
    unfold workLoop
    simp only [hrun]
    have hnone : s1.nextUnitOfWork.isNone = false := by
      cases hx : s1.nextUnitOfWork with
      | none => rw [hx] at hsome; exact absurd hsome (by simp)
      | some u => rfl
    simp [hnone]
  · intro s2 cmuts hnone hwip hcommit
    unfold workLoop
    simp only [hrun]
    have hcond : (s1.nextUnitOfWork.isNone && s1.wipRoot.isSome) = true := by
      rw [hnone, hwip]
      rfl
    rw [if_pos hcond]
    simp only [hcommit]

/-- Witness for C1: the first slice of a one-node-per-slice build of
`main [div, span]` still has pending work, so its `workLoop` invocation
is exactly the build-loop result with no commit. -/
theorem c1_commit_atomicity_witness :
    domClosed (render eMain1 0 baseState).dom = true ∧
    ((workLoopAux (oneNodeTime 0) 1000 0 (render eMain1 0 baseState)).getD
        (baseState, [], 0)).1.nextUnitOfWork.isSome = true ∧
    workLoop (oneNodeTime 0) 1000 (render eMain1 0 baseState) =
      some ((workLoopAux (oneNodeTime 0) 1000 0 (render eMain1 0 baseState)).getD
        (baseState, [], 0)) := by
  refine ⟨by decide, by decide, ?_⟩
  have h := c1_commit_atomicity (oneNodeTime 0) 1000 (render eMain1 0 baseState)
    ((workLoopAux (oneNodeTime 0) 1000 0 (render eMain1 0 baseState)).getD
      (baseState, [], 0)).1
    ((workLoopAux (oneNodeTime 0) 1000 0 (render eMain1 0 baseState)).getD
      (baseState, [], 0)).2.1
    ((workLoopAux (oneNodeTime 0) 1000 0 (render eMain1 0 baseState)).getD
      (baseState, [], 0)).2.2
    0 (by decide) (by decide) (by rfl)
  exact h.2.1 (by decide)

theorem updateDom_self (node : Nat) (p : Props) : updateDom node p p = [] := by
  unfold updateDom
  have hnew : ∀ key, isNew p p key = false := by
    intro key
    simp [isNew]
  have h1 : ((keysOf p).filter isEvent).filter
      (fun key => !(assocFind key p).isSome || isNew p p key) = [] := by
    rw [List.filter_eq_nil]
    intro key hk
    have hks : key ∈ keysOf p := (List.mem_filter.mp hk).1
    have hsome := assocFind_isSome_of_mem_keys hks
    simp [hsome, hnew key]
  have h2 : ((keysOf p).filter isProp).filter (isGone p) = [] := by
    rw [List.filter_eq_nil]
    intro key hk
    have hks : key ∈ keysOf p := (List.mem_filter.mp hk).1
    have hsome := assocFind_isSome_of_mem_keys hks
    simp [isGone, hsome]
  have h3 : ((keysOf p).filter isProp).filter (isNew p p) = [] := by
    rw [List.filter_eq_nil]
    intro key hk
    simp [hnew key]
  have h4 : ((keysOf p).filter isEvent).filter (isNew p p) = [] := by
    rw [List.filter_eq_nil]
    intro key hk
    simp [hnew key]
  rw [h1, h2, h3, h4]
  rfl

theorem oldMatchesBelow_mono (s : State) (n0 : Nat) :
    ∀ (F F' : Nat) (cur : Option Nat) (es : List Element), F ≤ F' →
    oldMatchesBelow s n0 F cur es = true → oldMatchesBelow s n0 F' cur es = true := by
  intro F
  induction F with
  | zero =>
    intro F' cur es _ h
    cases cur with
    | none =>
      cases es with
      | nil => cases F' <;> rfl
      | cons e es' => exact absurd h (by cases e; simp [oldMatchesBelow])
    | some i =>
      cases es with
      | nil => exact absurd h (by simp [oldMatchesBelow])
      | cons e es' => exact absurd h (by cases e; simp [oldMatchesBelow])
  | succ F ih =>
    intro F' cur es hle h
    cases cur with
    | none =>
      cases es with
      | nil => cases F' <;> rfl
      | cons e es' => exact absurd h (by cases e; simp [oldMatchesBelow])
    | some i =>
      cases es with
      | nil => exact absurd h (by simp [oldMatchesBelow])
      | cons e es' =>
        obtain ⟨t, a, c⟩ := e
        obtain ⟨G, rfl⟩ : ∃ G, F' = G + 1 := ⟨F' - 1, by omega⟩
        unfold oldMatchesBelow at h ⊢
        simp only [Bool.and_eq_true, decide_eq_true_eq] at h ⊢
        obtain ⟨hi, hrest⟩ := h
        refine ⟨hi, ?_⟩
        cases hgf : getFiber s i with
        | none => rw [hgf] at hrest; exact absurd hrest (by simp)
        | some fd =>
          rw [hgf] at hrest
          simp only [Bool.and_eq_true, decide_eq_true_eq] at hrest
          obtain ⟨⟨⟨⟨ht, ha⟩, hd⟩, hc⟩, hsb⟩ := hrest
          simp only [Bool.and_eq_true, decide_eq_true_eq]
          exact ⟨⟨⟨⟨ht, ha⟩, hd⟩, ih G fd.child c (by omega) hc⟩,
            ih G fd.sibling es' (by omega) hsb⟩

theorem oldMatchesBelow_congr (s s' : State) (n0 : Nat)
    (hpres : ∀ j, j < n0 → getFiber s' j = getFiber s j) :
    ∀ (F : Nat) (cur : Option Nat) (es : List Element),
    oldMatchesBelow s' n0 F cur es = oldMatchesBelow s n0 F cur es := by
  intro F
  induction F with
  | zero =>
    intro cur es
    cases cur with
    | none => cases es <;> rfl
    | some i =>
      cases es with
      | nil => rfl
      | cons e es' => cases e; rfl
  | succ F ih =>
    intro cur es
    cases cur with
    | none => cases es <;> rfl
    | some i =>
      cases es with
      | nil => rfl
      | cons e es' =>
        obtain ⟨t, a, c⟩ := e
        show (decide (i < n0) && _) = (decide (i < n0) && _)
        by_cases hi : i < n0
        · simp only [hi, decide_True, Bool.true_and]
          rw [hpres i hi]
          cases hgf : getFiber s i with
          | none => simp only [hgf]
          | some fd =>
            simp only [hgf]
            rw [ih fd.child c, ih fd.sibling es']
        · simp [hi]

theorem oldMatchesBelow_chain : ∀ (es : List Element) (s : State) (n0 F : Nat)
    (cur : Option Nat),
    oldMatchesBelow s n0 (F + 1) cur es = true →
    ∃ olds : List (Nat × FiberData), isChainB s cur olds = true ∧
      olds.length = es.length ∧
      ∀ k e, es.get? k = some e →
        ∃ oid ofd, olds.get? k = some (oid, ofd) ∧ oid < n0 ∧
          ofd.type? = e.type? ∧ ofd.attrs = e.attrs ∧ ofd.dom.isSome = true ∧
          oldMatchesBelow s n0 F ofd.child e.children = true := by
  intro es
  induction es with
  | nil =>
    intro s n0 F cur h
    cases cur with
    | none => exact ⟨[], rfl, rfl, fun k e he => by simp at he⟩
    | some i => simp [oldMatchesBelow] at h
  | cons e es' ih =>
    intro s n0 F cur h
    obtain ⟨t, a, c⟩ := e
    cases cur with
    | none => simp [oldMatchesBelow] at h
    | some i =>
      unfold oldMatchesBelow at h
      simp only [Bool.and_eq_true, decide_eq_true_eq] at h
      obtain ⟨hi, hrest⟩ := h
      cases hgf : getFiber s i with
      | none => rw [hgf] at hrest; exact absurd hrest (by simp)
      | some fd =>
        rw [hgf] at hrest
        simp only [Bool.and_eq_true, decide_eq_true_eq] at hrest
        obtain ⟨⟨⟨⟨ht, ha⟩, hd⟩, hc⟩, hsb⟩ := hrest
        have hsb' := oldMatchesBelow_mono s n0 F (F + 1) fd.sibling es' (by omega) hsb
        obtain ⟨olds', hch', hlen', hget'⟩ := ih s n0 F fd.sibling hsb'
        refine ⟨(i, fd) :: olds', ?_, by simp [hlen'], ?_⟩
        · show (decide (i = i) && decide (getFiber s i = some fd) &&
            isChainB s fd.sibling olds') = true
          simp [hgf, hch']
        · intro k e2 he2
          cases k with
          | zero =>
            have he0 : Element.mk t a c = e2 := by simpa using he2
            subst he0
            exact ⟨i, fd, rfl, hi, ht, ha, hd, hc⟩
          | succ k' =>
            have he' : es'.get? k' = some e2 := by simpa using he2
            obtain ⟨oid, ofd, h1, h2, h3, h4, h5, h6⟩ := hget' k' e2 he'
            exact ⟨oid, ofd, by simpa using h1, h2, h3, h4, h5, h6⟩

theorem reconcileDels_nil_of_match : ∀ (es : List Element) (olds : List (Nat × FiberData)),
    olds.length = es.length →
    (∀ k e oid ofd, es.get? k = some e → olds.get? k = some (oid, ofd) →
      ofd.type? = e.type?) →
    reconcileDels es olds = [] := by
  intro es
  induction es with
  | nil =>
    intro olds hlen _
    have h0 : olds = [] := List.eq_nil_of_length_eq_zero (by simpa using hlen)
    subst h0
    rfl
  | cons e es' ih =>
    intro olds hlen hmatch
    cases olds with
    | nil => simp at hlen
    | cons o olds' =>
      obtain ⟨oid, ofd⟩ := o
      have ht := hmatch 0 e oid ofd rfl rfl
      show reconcileDels (e :: es') ((oid, ofd) :: olds') = []
      simp only [reconcileDels]
      rw [if_pos ht]
      exact ih olds' (by simpa using hlen)
        (fun k e2 oid2 ofd2 he ho =>
          hmatch (k + 1) e2 oid2 ofd2 (by simpa using he) (by simpa using ho))

theorem reconcileNews_get?_update (wip : Nat) :
    ∀ (k : Nat) (es : List Element) (olds : List (Nat × FiberData)) (ctr : Nat)
      (e : Element) (oid : Nat) (ofd : FiberData),
    es.get? k = some e → olds.get? k = some (oid, ofd) → ofd.type? = e.type? →
    (reconcileNews wip ctr es olds).get? k =
      some { updateFiberFD wip oid ofd e with
             sibling := if (es.drop (k + 1)).isEmpty then none else some (ctr + k + 1) } := by
  intro k
  induction k with
  | zero =>
    intro es olds ctr e oid ofd he ho htype
    cases es with
    | nil => simp at he
    | cons e0 es' =>
      cases olds with
      | nil => simp at ho
      | cons o0 olds' =>
        have he0 : e0 = e := by simpa using he
        have ho0 : o0 = (oid, ofd) := by simpa using ho
        subst he0
        subst ho0
        show (reconcileNews wip ctr (e0 :: es') ((oid, ofd) :: olds')).get? 0 = _
        simp only [reconcileNews]
        rw [if_pos htype]
        rfl
  | succ k ih =>
    intro es olds ctr e oid ofd he ho htype
    cases es with
    | nil => simp at he
    | cons e0 es' =>
      cases olds with
      | nil => simp at ho
      | cons o0 olds' =>
        obtain ⟨oid0, ofd0⟩ := o0
        have he' : es'.get? k = some e := by simpa using he
        have ho' : olds'.get? k = some (oid, ofd) := by simpa using ho
        have hstep := ih es' olds' (ctr + 1) e oid ofd he' ho' htype
        show (reconcileNews wip ctr (e0 :: es') ((oid0, ofd0) :: olds')).get? (k + 1) = _
        simp only [reconcileNews]
        rw [List.get?_cons_succ]
        rw [show ((oid0, ofd0) :: olds').tail = olds' from rfl]
        rw [hstep]
        have h1 : (e0 :: es').drop (k + 1 + 1) = es'.drop (k + 1) := rfl
        have h2 : ctr + 1 + k + 1 = ctr + (k + 1) + 1 := by omega
        rw [h1, h2]

theorem reconcileNews_length (wip : Nat) : ∀ (es : List Element)
    (olds : List (Nat × FiberData)) (ctr : Nat),
    (reconcileNews wip ctr es olds).length = es.length := by
  intro es
  induction es with
  | nil => intro olds ctr; rfl
  | cons e es' ih =>
    intro olds ctr
    show ((_ : FiberData) :: reconcileNews wip (ctr + 1) es' olds.tail).length = _
    simp [ih]

theorem inRangeOpt_mono {n0 c c' : Nat} (h : c ≤ c') (x : Option Nat)
    (hx : inRangeOpt n0 c x = true) : inRangeOpt n0 c' x = true := by
  cases x with
  | none => rfl
  | some i =>
    simp only [inRangeOpt, Bool.and_eq_true, decide_eq_true_eq] at hx ⊢
    omega

theorem goodFiber_mono (F : Nat) (s s' : State) (n0 id : Nat)
    (hid : getFiber s' id = getFiber s id)
    (hlow : ∀ j, j < n0 → getFiber s' j = getFiber s j)
    (hctr : s.fiberCounter ≤ s'.fiberCounter)
    (h : goodFiber F s n0 id = true) : goodFiber F s' n0 id = true := by
  unfold goodFiber at h ⊢
  rw [hid]
  cases hg : getFiber s id with
  | none => rw [hg] at h; exact absurd h (by simp)
  | some fd =>
    rw [hg] at h
    simp only [Bool.and_eq_true] at h ⊢
    obtain ⟨⟨⟨⟨⟨h1, h2⟩, h3⟩, h4⟩, h5⟩, h6⟩ := h
    refine ⟨⟨⟨⟨⟨h1, h2⟩, inRangeOpt_mono hctr _ h3⟩, inRangeOpt_mono hctr _ h4⟩,
      inRangeOpt_mono hctr _ h5⟩, ?_⟩
    cases halt : fd.alternate with
    | none => rw [halt] at h6; exact absurd h6 (by simp)
    | some a =>
      rw [halt] at h6
      simp only [Bool.and_eq_true, decide_eq_true_eq] at h6
      obtain ⟨ha, h7⟩ := h6
      simp only [Bool.and_eq_true, decide_eq_true_eq]
      refine ⟨ha, ?_⟩
      rw [hlow a ha]
      cases hga : getFiber s a with
      | none => rw [hga] at h7; exact absurd h7 (by simp)
      | some afd =>
        rw [hga] at h7
        simp only [Bool.and_eq_true] at h7 ⊢
        exact ⟨h7.1, by rw [oldMatchesBelow_congr s s' n0 hlow]; exact h7.2⟩

theorem rangeAll_get {F : Nat} {s : State} {n0 : Nat} (h : rangeAll F s n0 = true)
    {id : Nat} (hlo : n0 ≤ id) (hhi : id < s.fiberCounter) :
    goodFiber F s n0 id = true := by
  unfold rangeAll at h
  rw [List.all_eq_true] at h
  have h2 := h (id - n0) (by rw [List.mem_range]; omega)
  have h3 : n0 + (id - n0) = id := by omega
  rw [h3] at h2
  exact h2

theorem assocSet_mem {κ α : Type} [DecidableEq κ] (k : κ) (v : α) :
    ∀ (l : List (κ × α)) (p : κ × α), p ∈ assocSet k v l → p ∈ l ∨ p = (k, v) := by
  intro l
  induction l with
  | nil =>
    intro p hp
    simp [assocSet] at hp
    exact Or.inr hp
  | cons hd t ih =>
    intro p hp
    obtain ⟨k', v'⟩ := hd
    by_cases hk : k' = k
    · simp only [assocSet, if_pos hk] at hp
      rcases List.mem_cons.mp hp with h1 | h2
      · exact Or.inr h1
      · exact Or.inl (List.mem_cons_of_mem _ h2)
    · simp only [assocSet, if_neg hk] at hp
      rcases List.mem_cons.mp hp with h1 | h2
      · exact Or.inl (by simp [h1])
      · rcases ih p h2 with h3 | h3
        · exact Or.inl (List.mem_cons_of_mem _ h3)
        · exact Or.inr h3

theorem fibersBelow_setFiber {s : State} {i : Nat} (fd : FiberData)
    (hfb : fibersBelow s = true) (hi : i < s.fiberCounter) :
    fibersBelow (setFiber s i fd) = true := by
  unfold fibersBelow at hfb ⊢
  rw [List.all_eq_true] at hfb ⊢
  intro p hp
  rcases assocSet_mem i fd s.fibers p hp with h1 | h1
  · exact hfb p h1
  · subst h1
    simpa using hi

theorem fibersBelow_allocNews (s : State) (news : List FiberData)
    (hfb : fibersBelow s = true) : fibersBelow (allocNews s news) = true := by
  induction news generalizing s with
  | nil => exact hfb
  | cons fd t ih =>
    rw [allocNews_cons]
    refine ih _ ?_
    unfold fibersBelow at hfb ⊢
    rw [List.all_eq_true] at hfb ⊢
    intro p hp
    simp only [decide_eq_true_eq]
    show p.1 < s.fiberCounter + 1
    have hp' : p ∈ (s.fiberCounter, fd) :: s.fibers := hp
    rcases List.mem_cons.mp hp' with h1 | h1
    · subst h1
      omega
    · have h2 := hfb p h1
      simp only [decide_eq_true_eq] at h2
      omega

theorem setChildTotal_fiberCounter (s : State) (i : Nat) (c : Option Nat) :
    (setChildTotal s i c).fiberCounter = s.fiberCounter := by
  unfold setChildTotal
  cases getFiber s i <;> rfl

theorem markDeletion_scalars (s : State) (oid : Nat) :
    (markDeletion s oid).dom = s.dom ∧ (markDeletion s oid).wipRoot = s.wipRoot ∧
    (markDeletion s oid).currentRoot = s.currentRoot ∧
    (markDeletion s oid).nextUnitOfWork = s.nextUnitOfWork := by
  unfold markDeletion
  cases getFiber s oid <;> exact ⟨rfl, rfl, rfl, rfl⟩

theorem markDeletions_scalars (s : State) (dels : List Nat) :
    (markDeletions s dels).dom = s.dom ∧ (markDeletions s dels).wipRoot = s.wipRoot ∧
    (markDeletions s dels).currentRoot = s.currentRoot ∧
    (markDeletions s dels).nextUnitOfWork = s.nextUnitOfWork := by
  induction dels generalizing s with
  | nil => exact ⟨rfl, rfl, rfl, rfl⟩
  | cons d t ih =>
    rw [markDeletions_cons]
    obtain ⟨h1, h2, h3, h4⟩ := ih (markDeletion s d)
    obtain ⟨g1, g2, g3, g4⟩ := markDeletion_scalars s d
    exact ⟨h1.trans g1, h2.trans g2, h3.trans g3, h4.trans g4⟩

theorem allocNews_scalars (s : State) (news : List FiberData) :
    (allocNews s news).dom = s.dom ∧ (allocNews s news).wipRoot = s.wipRoot ∧
    (allocNews s news).currentRoot = s.currentRoot ∧
    (allocNews s news).nextUnitOfWork = s.nextUnitOfWork := by
  induction news generalizing s with
  | nil => exact ⟨rfl, rfl, rfl, rfl⟩
  | cons fd t ih =>
    rw [allocNews_cons]
    obtain ⟨h1, h2, h3, h4⟩ := ih ((allocFiber s fd).1)
    exact ⟨h1, h2, h3, h4⟩

theorem setChildTotal_scalars (s : State) (i : Nat) (c : Option Nat) :
    (setChildTotal s i c).dom = s.dom ∧ (setChildTotal s i c).wipRoot = s.wipRoot ∧
    (setChildTotal s i c).currentRoot = s.currentRoot ∧
    (setChildTotal s i c).nextUnitOfWork = s.nextUnitOfWork := by
  unfold setChildTotal
  cases getFiber s i <;> exact ⟨rfl, rfl, rfl, rfl⟩

theorem applyReconcile_scalars (s : State) (wip : Nat) (es : List Element)
    (olds : List (Nat × FiberData)) :
    (applyReconcile s wip es olds).dom = s.dom ∧
    (applyReconcile s wip es olds).wipRoot = s.wipRoot ∧
    (applyReconcile s wip es olds).currentRoot = s.currentRoot ∧
    (applyReconcile s wip es olds).nextUnitOfWork = s.nextUnitOfWork := by
  unfold applyReconcile
  obtain ⟨a1, a2, a3, a4⟩ := allocNews_scalars s (reconcileNews wip s.fiberCounter es olds)
  obtain ⟨m1, m2, m3, m4⟩ := markDeletions_scalars
    (allocNews s (reconcileNews wip s.fiberCounter es olds)) (reconcileDels es olds)
  cases hemp : (es.isEmpty && olds.isEmpty) with
  | true =>
    simp only [hemp, if_true]
    exact ⟨m1.trans a1, m2.trans a2, m3.trans a3, m4.trans a4⟩
  | false =>
    simp only [hemp, Bool.false_eq_true, if_false]
    obtain ⟨c1, c2, c3, c4⟩ := setChildTotal_scalars
      (markDeletions (allocNews s (reconcileNews wip s.fiberCounter es olds))
        (reconcileDels es olds)) wip (if es.isEmpty then none else some s.fiberCounter)
    exact ⟨c1.trans (m1.trans a1), c2.trans (m2.trans a2),
      c3.trans (m3.trans a3), c4.trans (m4.trans a4)⟩

theorem applyReconcile_fiberCounter (s : State) (wip : Nat) (es : List Element)
    (olds : List (Nat × FiberData)) :
    (applyReconcile s wip es olds).fiberCounter =
      s.fiberCounter + (reconcileNews wip s.fiberCounter es olds).length := by
  unfold applyReconcile
  cases hemp : (es.isEmpty && olds.isEmpty) with
  | true =>
    simp only [hemp, if_true]
    rw [markDeletions_fiberCounter, allocNews_fiberCounter]
  | false =>
    simp only [hemp, Bool.false_eq_true, if_false]
    rw [setChildTotal_fiberCounter, markDeletions_fiberCounter, allocNews_fiberCounter]

theorem getFiber_applyReconcile_ne (s : State) (wip : Nat) (es : List Element)
    (olds : List (Nat × FiberData)) (id : Nat)
    (hlt : id < s.fiberCounter) (hne : id ≠ wip)
    (hnd : id ∉ reconcileDels es olds) :
    getFiber (applyReconcile s wip es olds) id = getFiber s id := by
  have hbase : getFiber (markDeletions
      (allocNews s (reconcileNews wip s.fiberCounter es olds))
      (reconcileDels es olds)) id = getFiber s id := by
    rw [getFiber_markDeletions_notMem _ _ hnd, getFiber_allocNews_low _ _ hlt]
  unfold applyReconcile
  cases hemp : (es.isEmpty && olds.isEmpty) with
  | true =>
    simp only [hemp, if_true]
    exact hbase
  | false =>
    simp only [hemp, Bool.false_eq_true, if_false]
    unfold setChildTotal
    cases hgw : getFiber (markDeletions
        (allocNews s (reconcileNews wip s.fiberCounter es olds))
        (reconcileDels es olds)) wip with
    | none => exact hbase
    | some fd2 =>
      rw [getFiber_set_ne _ _ hne]
      exact hbase

theorem climb_range (F : Nat) (s : State) (n0 : Nat) :
    ∀ (fuel : Nat) (fid : Nat) (r : Option Nat),
    rangeAll F s n0 = true → n0 ≤ fid → fid < s.fiberCounter →
    climb fuel s fid = some r → inRangeOpt n0 s.fiberCounter r = true := by
  intro fuel
  induction fuel with
  | zero => intro fid r _ _ _ h; exact Option.noConfusion h
  | succ f ih =>
    intro fid r hall hlo hhi h
    have hg := rangeAll_get hall hlo hhi
    unfold goodFiber at hg
    cases hgf : getFiber s fid with
    | none => rw [hgf] at hg; exact absurd hg (by simp)
    | some fd =>
      rw [hgf] at hg
      simp only [Bool.and_eq_true] at hg
      obtain ⟨⟨⟨⟨⟨h1, h2⟩, hpar⟩, hch⟩, hsib⟩, hal⟩ := hg
      unfold climb at h
      simp only [hgf] at h
      cases hsb : fd.sibling with
      | some sib =>
        simp only [hsb] at h
        injection h with h1'
        rw [← h1']
        rw [hsb] at hsib
        exact hsib
      | none =>
        simp only [hsb] at h
        cases hp : fd.parent with
        | none =>
          simp only [hp] at h
          injection h with h1'
          rw [← h1']
          rfl
        | some p =>
          simp only [hp] at h
          rw [hp] at hpar
          simp only [inRangeOpt, Bool.and_eq_true, decide_eq_true_eq] at hpar
          exact ih p r hall hpar.1 hpar.2 h

theorem fibersBelow_lt {s : State} {j : Nat} {fd : FiberData}
    (hfb : fibersBelow s = true) (h : getFiber s j = some fd) :
    j < s.fiberCounter := by
  unfold fibersBelow at hfb
  rw [List.all_eq_true] at hfb
  have hmem := assocFind_mem h
  have h2 := hfb (j, fd) hmem
  simpa using h2

theorem fibersBelow_markDeletion (s : State) (oid : Nat)
    (hfb : fibersBelow s = true) : fibersBelow (markDeletion s oid) = true := by
  unfold markDeletion
  cases hg : getFiber s oid with
  | none => exact hfb
  | some fd =>
    show fibersBelow (pushDeletion (setFiber s oid _) oid) = true
    have hlt := fibersBelow_lt hfb hg
    have h2 := fibersBelow_setFiber { fd with effectTag := some Effect.deletion } hfb hlt
    exact h2

theorem fibersBelow_markDeletions (s : State) (dels : List Nat)
    (hfb : fibersBelow s = true) : fibersBelow (markDeletions s dels) = true := by
  induction dels generalizing s with
  | nil => exact hfb
  | cons d t ih =>
    rw [markDeletions_cons]
    exact ih _ (fibersBelow_markDeletion s d hfb)

theorem fibersBelow_setChildTotal (s : State) (i : Nat) (c : Option Nat)
    (hfb : fibersBelow s = true) : fibersBelow (setChildTotal s i c) = true := by
  unfold setChildTotal
  cases hg : getFiber s i with
  | none => exact hfb
  | some fd =>
    exact fibersBelow_setFiber _ hfb (fibersBelow_lt hfb hg)

theorem fibersBelow_applyReconcile (s : State) (wip : Nat) (es : List Element)
    (olds : List (Nat × FiberData)) (hfb : fibersBelow s = true) :
    fibersBelow (applyReconcile s wip es olds) = true := by
  unfold applyReconcile
  have h1 := fibersBelow_allocNews s (reconcileNews wip s.fiberCounter es olds) hfb
  have h2 := fibersBelow_markDeletions _ (reconcileDels es olds) h1
  cases hemp : (es.isEmpty && olds.isEmpty) with
  | true =>
    simp only [hemp, if_true]
    exact h2
  | false =>
    simp only [hemp, Bool.false_eq_true, if_false]
    exact fibersBelow_setChildTotal _ wip _ h2

theorem getFiber_setNext (s : State) (x : Option Nat) (j : Nat) :
    getFiber { s with nextUnitOfWork := x } j = getFiber s j := rfl

theorem goodFiber_setNext (F : Nat) (s : State) (x : Option Nat) (n0 id : Nat) :
    goodFiber F { s with nextUnitOfWork := x } n0 id = goodFiber F s n0 id := by
  cases hg : goodFiber F s n0 id with
  | true =>
    exact goodFiber_mono F s { s with nextUnitOfWork := x } n0 id rfl
      (fun j _ => rfl) (Nat.le_refl _) hg
  | false =>
    cases hg2 : goodFiber F { s with nextUnitOfWork := x } n0 id with
    | false => rfl
    | true =>
      have h3 := goodFiber_mono F { s with nextUnitOfWork := x } s n0 id rfl
        (fun j _ => rfl) (Nat.le_refl _) hg2
      rw [hg] at h3
      exact h3.symm

theorem rangeAll_setNext (F : Nat) (s : State) (x : Option Nat) (n0 : Nat) :
    rangeAll F { s with nextUnitOfWork := x } n0 = rangeAll F s n0 := by
  unfold rangeAll
  show (List.range (s.fiberCounter - n0)).all _ =
    (List.range (s.fiberCounter - n0)).all _
  congr 1
  funext j
  exact goodFiber_setNext F s x n0 (n0 + j)

theorem noop_puow (F : Nat) (s : State) (n0 fid : Nat) (fuel : Nat)
    (s1 : State) (nxt : Option Nat) (m : List Mutation)
    (hinv : noopInv F s n0 = true)
    (hlo : n0 ≤ fid) (hhi : fid < s.fiberCounter)
    (hrun : performUnitOfWork fuel s fid = some (s1, nxt, m)) :
    m = [] ∧ noopInv F { s1 with nextUnitOfWork := nxt } n0 = true ∧
    s1.wipRoot = s.wipRoot ∧ s1.currentRoot = s.currentRoot ∧ s1.dom = s.dom := by
  unfold noopInv at hinv
  simp only [Bool.and_eq_true, decide_eq_true_eq] at hinv
  obtain ⟨⟨⟨⟨⟨hn0le, hfb⟩, hdel⟩, hwip⟩, hnuo⟩, hall⟩ := hinv
  have hgood := rangeAll_get hall hlo hhi
  unfold goodFiber at hgood
  cases hgf : getFiber s fid with
  | none => rw [hgf] at hgood; exact absurd hgood (by simp)
  | some fd =>
    rw [hgf] at hgood
    simp only [Bool.and_eq_true] at hgood
    obtain ⟨⟨⟨⟨⟨hdom, heff⟩, hpar⟩, hchl⟩, hsib⟩, haltb⟩ := hgood
    cases halt : fd.alternate with
    | none => rw [halt] at haltb; exact absurd haltb (by simp)
    | some a =>
      rw [halt] at haltb
      simp only [Bool.and_eq_true, decide_eq_true_eq] at haltb
      obtain ⟨haLt, haltb2⟩ := haltb
      cases hgfa : getFiber s a with
      | none => rw [hgfa] at haltb2; exact absurd haltb2 (by simp)
      | some afd =>
        rw [hgfa] at haltb2
        simp only [Bool.and_eq_true] at haltb2
        obtain ⟨hattr, hmatch⟩ := haltb2
        have hmatch' := oldMatchesBelow_mono s n0 F (F + 1) afd.child fd.children
          (by omega) hmatch
        obtain ⟨olds, hch, hlen, hget⟩ :=
          oldMatchesBelow_chain fd.children s n0 F afd.child hmatch'
        have hbn0 : ∀ jj ∈ olds.map Prod.fst, jj < n0 := by
          intro jj hjj
          obtain ⟨pr, hpr, hfst⟩ := List.mem_map.mp hjj
          obtain ⟨k, hk⟩ := List.mem_iff_get?.mp hpr
          have hklen0 : k < olds.length := by
            by_contra hc
            rw [List.get?_eq_none.mpr (by omega)] at hk
            exact Option.noConfusion hk
          have hklen : k < fd.children.length := by omega
          obtain ⟨e, he⟩ : ∃ e, fd.children.get? k = some e := by
            cases hx : fd.children.get? k with
            | none => rw [List.get?_eq_none] at hx; omega
            | some e => exact ⟨e, rfl⟩
          obtain ⟨oid, ofd, ho, hoLt, _, _, _, _⟩ := hget k e he
          rw [ho] at hk
          injection hk with h2
          rw [← hfst, ← h2]
          exact hoLt
        have hbolds : ∀ jj ∈ olds.map Prod.fst, jj < s.fiberCounter :=
          fun jj hjj => lt_of_lt_of_le (hbn0 jj hjj) hn0le
        have hfidnot : fid ∉ olds.map Prod.fst :=
          fun hmem => absurd (hbn0 _ hmem) (by omega)
        have htypes : ∀ k e oid ofd, fd.children.get? k = some e →
            olds.get? k = some (oid, ofd) → ofd.type? = e.type? := by
          intro k e oid ofd he ho
          obtain ⟨oid', ofd', ho', _, ht', _, _, _⟩ := hget k e he
          rw [ho] at ho'
          injection ho' with hpr
          injection hpr with h1 h2
          rw [← h2] at ht'
          exact ht'
        have hdels : reconcileDels fd.children olds = [] :=
          reconcileDels_nil_of_match fd.children olds hlen htypes
        unfold performUnitOfWork at hrun
        simp only [hgf] at hrun
        obtain ⟨d, hdm⟩ := Option.isSome_iff_exists.mp hdom
        simp only [hdm] at hrun
        cases hrc : reconcileChildren fuel s fid fd.children with
        | none => simp only [hrc] at hrun; exact Option.noConfusion hrun
        | some s2 =>
          simp only [hrc] at hrun
          have hcur : oldChainCursor s fd = some afd.child := by
            unfold oldChainCursor
            simp only [halt, hgfa, Option.map]
          rw [reconcileChildren_run fuel s fid fd.children fd afd.child hgf hcur] at hrc
          have hs2 : s2 = applyReconcile s fid fd.children olds :=
            reconcileAux_head fid fd.children olds fuel s afd.child s2
              hch hbolds hgf hhi hfidnot hrc
          obtain ⟨hsd, hsw, hsc, hsn⟩ := applyReconcile_scalars s fid fd.children olds
          rw [← hs2] at hsd hsw hsc hsn
          have hctr2 : s2.fiberCounter = s.fiberCounter + fd.children.length := by
            rw [hs2, applyReconcile_fiberCounter, reconcileNews_length]
          have hfb2 : fibersBelow s2 = true := by
            rw [hs2]
            exact fibersBelow_applyReconcile s fid fd.children olds hfb
          have hdel2 : s2.deletions = some ([] : List Nat) := by
            rw [hs2]
            have hx := applyReconcile_deletions s fid fd.children olds [] hdel hbolds
              (by rw [hdels]; intro d2 hd2; simp at hd2)
            rw [hdels] at hx
            exact hx
          have hlowpres : ∀ j, j < n0 → getFiber s2 j = getFiber s j := by
            intro j hj
            rw [hs2]
            exact getFiber_applyReconcile_ne s fid fd.children olds j
              (by omega) (by omega) (by rw [hdels]; simp)
          have holdpres : ∀ id, id < s.fiberCounter → ¬ id = fid →
              getFiber s2 id = getFiber s id := by
            intro id hid hne
            rw [hs2]
            exact getFiber_applyReconcile_ne s fid fd.children olds id hid hne
              (by rw [hdels]; simp)
          have hwipread := getFiber_applyReconcile_wip s fid fd.children olds fd
            hgf hhi hfidnot
          rw [← hs2] at hwipread
          have hnews_at : ∀ k, k < fd.children.length →
              getFiber s2 (s.fiberCounter + k) =
                (reconcileNews fid s.fiberCounter fd.children olds).get? k := by
            intro k hk
            rw [hs2]
            exact getFiber_applyReconcile_new s fid fd.children olds k hhi hbolds
              (by rw [reconcileNews_length]; exact hk)
          have hgoodOld : ∀ id, n0 ≤ id → id < s.fiberCounter → ¬ id = fid →
              goodFiber F s2 n0 id = true := by
            intro id h1 h2 h3
            exact goodFiber_mono F s s2 n0 id (holdpres id h2 h3) hlowpres
              (by omega) (rangeAll_get hall h1 h2)
          have hgoodNew : ∀ k e oid ofd, fd.children.get? k = some e →
              olds.get? k = some (oid, ofd) →
              goodFiber F s2 n0 (s.fiberCounter + k) = true := by
            intro k e oid ofd he ho
            have hklen : k < fd.children.length := by
              by_contra hc
              rw [List.get?_eq_none.mpr (by omega)] at he
              exact Option.noConfusion he
            obtain ⟨oid', ofd', ho', hoLt, ht', ha', hd', hm'⟩ := hget k e he
            rw [ho] at ho'
            injection ho' with hpr
            injection hpr with hq1 hq2
            subst hq1
            subst hq2
            have hread := hnews_at k hklen
            rw [reconcileNews_get?_update fid k fd.children olds s.fiberCounter
              e oid ofd he ho ht'] at hread
            unfold goodFiber
            rw [hread]
            simp only [Bool.and_eq_true]
            refine ⟨⟨⟨⟨⟨?_, ?_⟩, ?_⟩, ?_⟩, ?_⟩, ?_⟩
            · show ofd.dom.isSome = true
              exact hd'
            · show (decide (s.fiberCounter + k = n0 ∧ some Effect.update = none) ||
                decide ((some Effect.update : Option Effect) = some Effect.update)) = true
              simp
            · show inRangeOpt n0 s2.fiberCounter (some fid) = true
              simp only [inRangeOpt, Bool.and_eq_true, decide_eq_true_eq]
              omega
            · show inRangeOpt n0 s2.fiberCounter none = true
              rfl
            · show inRangeOpt n0 s2.fiberCounter
                (if (fd.children.drop (k + 1)).isEmpty then none
                 else some (s.fiberCounter + k + 1)) = true
              cases hdrp : (fd.children.drop (k + 1)).isEmpty with
              | true => rw [if_pos rfl]; rfl
              | false =>
                rw [if_neg (by simp)]
                have hk1 : k + 1 < fd.children.length := by
                  by_contra hc
                  have hnil : fd.children.drop (k + 1) = [] :=
                    List.drop_eq_nil_iff_le.mpr (by omega)
                  rw [hnil] at hdrp
                  exact Bool.noConfusion hdrp
                simp only [inRangeOpt, Bool.and_eq_true, decide_eq_true_eq]
                omega
            · show (match (some oid : Option Nat) with
                | none => false
                | some a2 => decide (a2 < n0) &&
                  (match getFiber s2 a2 with
                   | none => false
                   | some afd2 =>
                     (!decide ((some Effect.update : Option Effect) = some Effect.update) ||
                       decide (afd2.attrs = e.attrs)) &&
                     oldMatchesBelow s2 n0 F afd2.child e.children)) = true
              have hgo : getFiber s2 oid = some ofd := by
                rw [hlowpres oid hoLt]
                exact isChainB_entries hch (oid, ofd) (List.get?_mem ho)
              simp only [hgo, Bool.and_eq_true, decide_eq_true_eq]
              refine ⟨hoLt, ?_, ?_⟩
              · simp [ha']
              · rw [oldMatchesBelow_congr s s2 n0 hlowpres]
                exact hm'
          by_cases hempB : (fd.children.isEmpty && olds.isEmpty) = true
          · -- both empty: the reconcile is a no-op and the state is unchanged
            have hcn : fd.children = [] := by
              rw [Bool.and_eq_true] at hempB
              exact List.isEmpty_iff.mp hempB.1
            have hon : olds = [] := by
              rw [Bool.and_eq_true] at hempB
              exact List.isEmpty_iff.mp hempB.2
            have hs2s : s2 = s := by
              rw [hs2, hcn, hon]
              rfl
            rw [hs2s] at hrun
            simp only [hgf] at hrun
            have hfin : ∀ (nxt2 : Option Nat), inRangeOpt n0 s.fiberCounter nxt2 = true →
                s1 = s → nxt = nxt2 → m = [] →
                m = [] ∧ noopInv F { s1 with nextUnitOfWork := nxt } n0 = true ∧
                s1.wipRoot = s.wipRoot ∧ s1.currentRoot = s.currentRoot ∧
                s1.dom = s.dom := by
              intro nxt2 hr2 he1 he2 he3
              subst he3
              subst he2
              refine ⟨rfl, ?_, by rw [he1], by rw [he1], by rw [he1]⟩
              rw [he1]
              unfold noopInv
              simp only [Bool.and_eq_true, decide_eq_true_eq]
              refine ⟨⟨⟨⟨⟨?_, ?_⟩, ?_⟩, ?_⟩, ?_⟩, ?_⟩
              · show n0 ≤ s.fiberCounter
                exact hn0le
              · show fibersBelow { s with nextUnitOfWork := nxt } = true
                exact hfb
              · exact hdel
              · exact hwip
              · show inRangeOpt n0 s.fiberCounter nxt = true
                exact hr2
              · show rangeAll F { s with nextUnitOfWork := nxt } n0 = true
                rw [rangeAll_setNext]
                exact hall
            cases hc2 : fd.child with
            | some c =>
              simp only [hc2] at hrun
              injection hrun with h1
              injection h1 with ha1 hb1
              injection hb1 with hb2 hb3
              rw [hc2] at hchl
              exact hfin (some c) hchl ha1.symm hb2.symm hb3.symm
            | none =>
              simp only [hc2] at hrun
              cases hcl : climb fuel s fid with
              | none => simp only [hcl] at hrun; exact Option.noConfusion hrun
              | some nx2 =>
                simp only [hcl] at hrun
                injection hrun with h1
                injection h1 with ha1 hb1
                injection hb1 with hb2 hb3
                exact hfin nx2 (climb_range F s n0 fuel fid nx2 hall hlo hhi hcl)
                  ha1.symm hb2.symm hb3.symm
          · -- at least one descriptor: the child link goes to the first new fiber
            have hcne : fd.children ≠ [] := by
              intro hc
              apply hempB
              rw [Bool.and_eq_true]
              constructor
              · rw [List.isEmpty_iff]; exact hc
              · rw [List.isEmpty_iff]
                refine List.eq_nil_of_length_eq_zero ?_
                rw [hlen, hc]
                rfl
            have hlenpos : 0 < fd.children.length := by
              cases hx : fd.children with
              | nil => exact absurd hx hcne
              | cons e t => simp [hx]
            have hempF : (fd.children.isEmpty && olds.isEmpty) = false := by
              cases hx : (fd.children.isEmpty && olds.isEmpty) with
              | false => rfl
              | true => exact absurd hx hempB
            have hesne : fd.children.isEmpty = false := by
              cases hx : fd.children.isEmpty with
              | false => rfl
              | true => exact absurd (List.isEmpty_iff.mp hx) hcne
            have hfid2 : getFiber s2 fid =
                some { fd with child := some s.fiberCounter } := by
              rw [hwipread, hempF, hesne]
              rfl
            simp only [hfid2] at hrun
            injection hrun with h1
            injection h1 with ha1 hb1
            injection hb1 with hb2 hb3
            subst ha1
            subst hb2
            subst hb3
            refine ⟨rfl, ?_, hsw, hsc, hsd⟩
            unfold noopInv
            simp only [Bool.and_eq_true, decide_eq_true_eq]
            refine ⟨⟨⟨⟨⟨?_, ?_⟩, ?_⟩, ?_⟩, ?_⟩, ?_⟩
            · show n0 ≤ s2.fiberCounter
              omega
            · show fibersBelow { s2 with nextUnitOfWork := some s.fiberCounter } = true
              exact hfb2
            · exact hdel2
            · show s2.wipRoot = some n0
              rw [hsw]
              exact hwip
            · show inRangeOpt n0 s2.fiberCounter (some s.fiberCounter) = true
              simp only [inRangeOpt, Bool.and_eq_true, decide_eq_true_eq]
              omega
            · show rangeAll F { s2 with nextUnitOfWork := some s.fiberCounter } n0 = true
              rw [rangeAll_setNext]
              unfold rangeAll
              rw [List.all_eq_true]
              intro j hj
              rw [List.mem_range] at hj
              show goodFiber F s2 n0 (n0 + j) = true
              by_cases hcase : n0 + j < s.fiberCounter
              · by_cases hfidq : n0 + j = fid
                · rw [hfidq]
                  unfold goodFiber
                  rw [hfid2]
                  simp only [Bool.and_eq_true]
                  refine ⟨⟨⟨⟨⟨hdom, heff⟩, inRangeOpt_mono (by omega) _ hpar⟩, ?_⟩,
                    inRangeOpt_mono (by omega) _ hsib⟩, ?_⟩
                  · show inRangeOpt n0 s2.fiberCounter (some s.fiberCounter) = true
                    simp only [inRangeOpt, Bool.and_eq_true, decide_eq_true_eq]
                    omega
                  · show (match fd.alternate with
                      | none => false
                      | some a2 => decide (a2 < n0) &&
                        (match getFiber s2 a2 with
                         | none => false
                         | some afd2 =>
                           (!decide (fd.effectTag = some Effect.update) ||
                             decide (afd2.attrs = fd.attrs)) &&
                           oldMatchesBelow s2 n0 F afd2.child fd.children)) = true
                    rw [halt]
                    have hga2 : getFiber s2 a = some afd := by
                      rw [hlowpres a haLt]
                      exact hgfa
                    simp only [hga2, Bool.and_eq_true, decide_eq_true_eq]
                    refine ⟨haLt, hattr, ?_⟩
                    rw [oldMatchesBelow_congr s s2 n0 hlowpres]
                    exact hmatch
                · exact hgoodOld (n0 + j) (by omega) hcase hfidq
              · have hk : n0 + j - s.fiberCounter < fd.children.length := by omega
                obtain ⟨e, he⟩ : ∃ e, fd.children.get? (n0 + j - s.fiberCounter) = some e := by
                  cases hx : fd.children.get? (n0 + j - s.fiberCounter) with
                  | none => rw [List.get?_eq_none] at hx; omega
                  | some e => exact ⟨e, rfl⟩
                obtain ⟨oid, ofd, ho, hx1, hx2, hx3, hx4, hx5⟩ :=
                  hget (n0 + j - s.fiberCounter) e he
                have hgd := hgoodNew (n0 + j - s.fiberCounter) e oid ofd he ho
                have heq : s.fiberCounter + (n0 + j - s.fiberCounter) = n0 + j := by
                  omega
                rw [heq] at hgd
                exact hgd
/-- `commitOwn` applied to a good fiber of a no-op generation performs no
mutation and leaves the state unchanged. -/
theorem commitOwn_noop (F : Nat) (s : State) (n0 fid : Nat) (fd : FiberData)
    (hall : rangeAll F s n0 = true)
    (hlo : n0 ≤ fid) (hhi : fid < s.fiberCounter)
    (hgfd : getFiber s fid = some fd) :
    commitOwn s fd = some (s, []) := by
  have hgood := rangeAll_get hall hlo hhi
  unfold goodFiber at hgood
  rw [hgfd] at hgood
  simp only [Bool.and_eq_true] at hgood
  obtain ⟨⟨⟨⟨⟨hdom, heff⟩, hpar⟩, hchl⟩, hsib⟩, haltb⟩ := hgood
  obtain ⟨dp, hdp⟩ : ∃ dp, (match fd.parent with
      | none => some none
      | some p => (getFiber s p).map (fun pfd => pfd.dom)) = some dp := by
    cases hp : fd.parent with
    | none => exact ⟨none, rfl⟩
    | some p =>
      rw [hp] at hpar
      simp only [inRangeOpt, Bool.and_eq_true, decide_eq_true_eq] at hpar
      have hg := rangeAll_get hall hpar.1 hpar.2
      unfold goodFiber at hg
      cases hgp : getFiber s p with
      | none => rw [hgp] at hg; exact absurd hg (by simp)
      | some pfd =>
        refine ⟨pfd.dom, ?_⟩
        show (getFiber s p).map (fun pfd => pfd.dom) = some pfd.dom
        rw [hgp]
        rfl
  cases halt : fd.alternate with
  | none => rw [halt] at haltb; exact absurd haltb (by simp)
  | some a =>
    rw [halt] at haltb
    simp only [Bool.and_eq_true, decide_eq_true_eq] at haltb
    obtain ⟨haLt, haltb2⟩ := haltb
    cases hgfa : getFiber s a with
    | none => rw [hgfa] at haltb2; exact absurd haltb2 (by simp)
    | some afd =>
      rw [hgfa] at haltb2
      simp only [Bool.and_eq_true] at haltb2
      obtain ⟨hattr, _⟩ := haltb2
      obtain ⟨d, hd⟩ := Option.isSome_iff_exists.mp hdom
      unfold commitOwn
      simp only [hdp]
      rw [Bool.or_eq_true, decide_eq_true_eq, decide_eq_true_eq] at heff
      cases heff with
      | inl hnone =>
        simp only [hnone.2, hd]
      | inr hupd =>
        simp only [hupd, hd, halt, hgfa]
        have hae : afd.attrs = fd.attrs := by
          rw [hupd] at hattr
          simpa using hattr
        rw [hae, updateDom_self]
        rfl

/-- `commitWork` over a no-op generation tree touches nothing: the state
comes back unchanged with an empty mutation list. -/
theorem commitWork_noop (F : Nat) (s : State) (n0 : Nat)
    (hall : rangeAll F s n0 = true) :
    ∀ (fuel : Nat) (cur : Option Nat) (s2 : State) (m : List Mutation),
    inRangeOpt n0 s.fiberCounter cur = true →
    commitWork fuel s cur = some (s2, m) → s2 = s ∧ m = [] := by
  intro fuel
  induction fuel with
  | zero =>
    intro cur s2 m hr h
    cases cur with
    | none =>
      injection h with h1
      injection h1 with h2 h3
      exact ⟨h2.symm, h3.symm⟩
    | some fid => exact Option.noConfusion h
  | succ f ih =>
    intro cur s2 m hr h
    cases cur with
    | none =>
      injection h with h1
      injection h1 with h2 h3
      exact ⟨h2.symm, h3.symm⟩
    | some fid =>
      simp only [inRangeOpt, Bool.and_eq_true, decide_eq_true_eq] at hr
      unfold commitWork at h
      cases hgf : getFiber s fid with
      | none => simp only [hgf] at h; exact Option.noConfusion h
      | some fd =>
        simp only [hgf] at h
        simp only [commitOwn_noop F s n0 fid fd hall hr.1 hr.2 hgf] at h
        have hgood := rangeAll_get hall hr.1 hr.2
        unfold goodFiber at hgood
        rw [hgf] at hgood
        simp only [Bool.and_eq_true] at hgood
        obtain ⟨⟨⟨⟨⟨_, _⟩, _⟩, hchl⟩, hsib⟩, _⟩ := hgood
        cases hcw1 : commitWork f s fd.child with
        | none => simp only [hcw1] at h; exact Option.noConfusion h
        | some r1 =>
          obtain ⟨s1', m1'⟩ := r1
          obtain ⟨hs1, hm1⟩ := ih fd.child s1' m1' hchl hcw1
          simp only [hcw1] at h
          rw [hs1] at h
          cases hcw2 : commitWork f s fd.sibling with
          | none => simp only [hcw2] at h; exact Option.noConfusion h
          | some r2 =>
            obtain ⟨s2', m2'⟩ := r2
            obtain ⟨hs2, hm2⟩ := ih fd.sibling s2' m2' hsib hcw2
            simp only [hcw2] at h
            injection h with h1
            injection h1 with h2 h3
            constructor
            · rw [← h2]
              exact hs2
            · rw [← h3, hm1, hm2]
              rfl

/-- `commitRoot` on a no-op build state performs no mutation: it only
promotes the work-in-progress root to committed root and nulls the
work-in-progress root. -/
theorem commitRoot_noop (F : Nat) (s : State) (n0 : Nat) (fuel : Nat)
    (s2 : State) (m : List Mutation)
    (hinv : noopInv F s n0 = true)
    (hrun : commitRoot fuel s = some (s2, m)) :
    m = [] ∧ s2 = { s with currentRoot := some n0, wipRoot := none } := by
  unfold noopInv at hinv
  simp only [Bool.and_eq_true, decide_eq_true_eq] at hinv
  obtain ⟨⟨⟨⟨⟨hn0le, hfb⟩, hdel⟩, hwip⟩, _⟩, hall⟩ := hinv
  unfold commitRoot at hrun
  rw [hdel] at hrun
  simp only [Option.getD_some, commitDeletions] at hrun
  simp only [hwip] at hrun
  cases hg : getFiber s n0 with
  | none =>
    simp only [hg, Option.map_none'] at hrun
    exact Option.noConfusion hrun
  | some wfd =>
    simp only [hg, Option.map_some'] at hrun
    have hn0lt : n0 < s.fiberCounter := fibersBelow_lt hfb hg
    have hgood := rangeAll_get hall (le_refl n0) hn0lt
    unfold goodFiber at hgood
    rw [hg] at hgood
    simp only [Bool.and_eq_true] at hgood
    obtain ⟨⟨⟨⟨⟨_, _⟩, _⟩, hchl⟩, _⟩, _⟩ := hgood
    cases hcw : commitWork fuel s wfd.child with
    | none => simp only [hcw] at hrun; exact Option.noConfusion hrun
    | some r =>
      obtain ⟨s3, cmuts⟩ := r
      obtain ⟨hs3, hcm⟩ := commitWork_noop F s n0 hall fuel wfd.child s3 cmuts hchl hcw
      simp only [hcw] at hrun
      rw [hs3, hcm, hwip] at hrun
      injection hrun with h1
      injection h1 with h2 h3
      exact ⟨h3.symm, h2.symm⟩

/-- The stepping loop over a no-op build state performs no mutation and
preserves the no-op invariant: whatever the deadline schedule, no step
touches the host tree. -/
theorem workLoopAux_noop (F : Nat) (n0 : Nat) (deadline : Nat → Nat) :
    ∀ (fuel q : Nat) (s s1 : State) (muts : List Mutation) (st : Nat),
    noopInv F s n0 = true →
    workLoopAux deadline fuel q s = some (s1, muts, st) →
    muts = [] ∧ noopInv F s1 n0 = true ∧ s1.dom = s.dom ∧
      s1.currentRoot = s.currentRoot := by
  intro fuel
  induction fuel with
  | zero =>
    intro q s s1 muts st _ h
    exact Option.noConfusion h
  | succ f ih =>
    intro q s s1 muts st hinv h
    unfold workLoopAux at h
    cases hnu : s.nextUnitOfWork with
    | none =>
      simp only [hnu] at h
      injection h with h1
      injection h1 with h2 h3
      injection h3 with h4 h5
      refine ⟨h4.symm, ?_, ?_, ?_⟩
      · rw [← h2]
        exact hinv
      · rw [h2]
      · rw [h2]
    | some fid =>
      simp only [hnu] at h
      have hinv' := hinv
      unfold noopInv at hinv'
      simp only [Bool.and_eq_true, decide_eq_true_eq] at hinv'
      obtain ⟨⟨⟨⟨⟨_, _⟩, _⟩, _⟩, hnuo⟩, _⟩ := hinv'
      rw [hnu] at hnuo
      simp only [inRangeOpt, Bool.and_eq_true, decide_eq_true_eq] at hnuo
      cases hpu : performUnitOfWork f s fid with
      | none => simp only [hpu] at h; exact Option.noConfusion h
      | some r =>
        obtain ⟨sA, nxt, pmuts⟩ := r
        obtain ⟨hm0, hinvA, hwipA, hcrA, hdomA⟩ :=
          noop_puow F s n0 fid f sA nxt pmuts hinv hnuo.1 hnuo.2 hpu
        simp only [hpu] at h
        by_cases hdl : deadline q < 1
        · rw [if_pos hdl] at h
          injection h with h1
          injection h1 with h2 h3
          injection h3 with h4 h5
          refine ⟨by rw [← h4]; exact hm0, by rw [← h2]; exact hinvA, ?_, ?_⟩
          · rw [← h2]
            exact hdomA
          · rw [← h2]
            exact hcrA
        · rw [if_neg hdl] at h
          cases hrec : workLoopAux deadline f (q + 1) { sA with nextUnitOfWork := nxt } with
          | none => simp only [hrec] at h; exact Option.noConfusion h
          | some r2 =>
            obtain ⟨sB, mutsB, stB⟩ := r2
            obtain ⟨hmB, hinvB, hdomB, hcrB⟩ :=
              ih (q + 1) { sA with nextUnitOfWork := nxt } sB mutsB stB hinvA hrec
            simp only [hrec] at h
            injection h with h1
            injection h1 with h2 h3
            injection h3 with h4 h5
            refine ⟨?_, by rw [← h2]; exact hinvB, ?_, ?_⟩
            · rw [← h4, hm0, hmB]
              rfl
            · rw [← h2, hdomB]
              exact hdomA
            · rw [← h2, hcrB]
              exact hcrA

/-- One `workLoop` invocation over a no-op build state performs no
mutation; afterwards either the build invariant still holds or the state
is idle (no pending work, no work-in-progress root). -/
theorem workLoop_noop (F : Nat) (n0 : Nat) (deadline : Nat → Nat) (fuel : Nat)
    (s s1 : State) (muts : List Mutation) (st : Nat)
    (hinv : noopInv F s n0 = true)
    (hrun : workLoop deadline fuel s = some (s1, muts, st)) :
    muts = [] ∧ (noopInv F s1 n0 = true ∨
      (s1.nextUnitOfWork = none ∧ s1.wipRoot = none)) := by
  unfold workLoop at hrun
  cases haux : workLoopAux deadline fuel 0 s with
  | none => rw [haux] at hrun; exact Option.noConfusion hrun
  | some r =>
    obtain ⟨sA, mutsA, stA⟩ := r
    obtain ⟨hmA, hinvA, hdomA, hcrA⟩ :=
      workLoopAux_noop F n0 deadline fuel 0 s sA mutsA stA hinv haux
    simp only [haux] at hrun
    by_cases hc : (sA.nextUnitOfWork.isNone && sA.wipRoot.isSome) = true
    · rw [if_pos hc] at hrun
      cases hcr : commitRoot fuel sA with
      | none => simp only [hcr] at hrun; exact Option.noConfusion hrun
      | some r2 =>
        obtain ⟨sB, cmuts⟩ := r2
        obtain ⟨hcm, hsB⟩ := commitRoot_noop F sA n0 fuel sB cmuts hinvA hcr
        simp only [hcr] at hrun
        injection hrun with h1
        injection h1 with h2 h3
        injection h3 with h4 h5
        constructor
        · rw [← h4, hmA, hcm]
          rfl
        · right
          rw [← h2, hsB]
          rw [Bool.and_eq_true] at hc
          constructor
          · show sA.nextUnitOfWork = none
            exact Option.isNone_iff_eq_none.mp hc.1
          · rfl
    · rw [if_neg hc] at hrun
      injection hrun with h1
      injection h1 with h2 h3
      injection h3 with h4 h5
      exact ⟨by rw [← h4]; exact hmA, Or.inl (by rw [← h2]; exact hinvA)⟩

/-- Any number of idle slices over a no-op build state logs no mutation in
any slice. -/
theorem runSlices_noop (F : Nat) (n0 : Nat) (fuel : Nat) :
    ∀ (n : Nat) (deadlines : Nat → Nat → Nat) (s s1 : State)
      (logs : List (List Mutation)),
    noopInv F s n0 = true ∨ (s.nextUnitOfWork = none ∧ s.wipRoot = none) →
    runSlices deadlines fuel n s = some (s1, logs) →
    ∀ log ∈ logs, log = [] := by
  intro n
  induction n with
  | zero =>
    intro deadlines s s1 logs _ h log hlog
    injection h with h1
    injection h1 with h2 h3
    rw [← h3] at hlog
    simp at hlog
  | succ k ih =>
    intro deadlines s s1 logs hinv h log hlog
    unfold runSlices at h
    cases hwl : workLoop (deadlines 0) fuel s with
    | none => simp only [hwl] at h; exact Option.noConfusion h
    | some r =>
      obtain ⟨sA, mutsA, stA⟩ := r
      simp only [hwl] at h
      have hstep : mutsA = [] ∧ (noopInv F sA n0 = true ∨
          (sA.nextUnitOfWork = none ∧ sA.wipRoot = none)) := by
        cases hinv with
        | inl hi => exact workLoop_noop F n0 (deadlines 0) fuel s sA mutsA stA hi hwl
        | inr hidle =>
          cases fuel with
          | zero => exact Option.noConfusion hwl
          | succ f =>
            rw [workLoop_idle (deadlines 0) (f + 1) s (by omega) hidle.1 hidle.2] at hwl
            injection hwl with h1
            injection h1 with h2 h3
            injection h3 with h4 h5
            refine ⟨h4.symm, Or.inr ?_⟩
            rw [← h2]
            exact hidle
      obtain ⟨hmA, hinvA⟩ := hstep
      cases hrs : runSlices (fun i => deadlines (i + 1)) fuel k sA with
      | none => simp only [hrs] at h; exact Option.noConfusion h
      | some r2 =>
        obtain ⟨sB, rest⟩ := r2
        simp only [hrs] at h
        injection h with h1
        injection h1 with h2 h3
        rw [← h3] at hlog
        rcases List.mem_cons.mp hlog with hh | hh
        · rw [hh, hmA]
        · exact ih (fun i => deadlines (i + 1)) sA sB rest hinvA hrs log hh

/-- `render` of a descriptor matching the committed tree establishes the
no-op build invariant at the old fiber-counter boundary. -/
theorem render_noopInv (F : Nat) (s : State) (e : Element) (c : Nat)
    (hfb : fibersBelow s = true) (hrm : rootOldMatches F s e = true) :
    noopInv F (render e c s) s.fiberCounter = true := by
  unfold rootOldMatches at hrm
  cases hcr : s.currentRoot with
  | none =>
    simp only [hcr] at hrm
    exact Bool.noConfusion hrm
  | some r =>
    simp only [hcr] at hrm
    cases hgr : getFiber s r with
    | none =>
      simp only [hgr] at hrm
      exact Bool.noConfusion hrm
    | some rfd =>
      simp only [hgr] at hrm
      have hrlt : r < s.fiberCounter := fibersBelow_lt hfb hgr
      have hctr : (render e c s).fiberCounter = s.fiberCounter + 1 := rfl
      have hdel : (render e c s).deletions = some ([] : List Nat) := rfl
      have hwip : (render e c s).wipRoot = some s.fiberCounter := rfl
      have hnuo : (render e c s).nextUnitOfWork = some s.fiberCounter := rfl
      have hfibers : (render e c s).fibers =
          (s.fiberCounter, renderRootFd e c s.currentRoot) :: s.fibers := rfl
      have hgets : ∀ j, j < s.fiberCounter →
          getFiber (render e c s) j = getFiber s j := by
        intro j hj
        show assocFind j ((s.fiberCounter, renderRootFd e c s.currentRoot) :: s.fibers) =
          getFiber s j
        unfold assocFind
        rw [if_neg (by omega)]
        rfl
      have hgn0 : getFiber (render e c s) s.fiberCounter =
          some (renderRootFd e c s.currentRoot) := by
        show assocFind s.fiberCounter
          ((s.fiberCounter, renderRootFd e c s.currentRoot) :: s.fibers) = _
        unfold assocFind
        rw [if_pos rfl]
      unfold noopInv
      simp only [Bool.and_eq_true, decide_eq_true_eq]
      refine ⟨⟨⟨⟨⟨?_, ?_⟩, ?_⟩, ?_⟩, ?_⟩, ?_⟩
      · rw [hctr]
        omega
      · unfold fibersBelow
        rw [hfibers, hctr, List.all_eq_true]
        intro p hp
        simp only [decide_eq_true_eq]
        rcases List.mem_cons.mp hp with hh | hh
        · rw [hh]
          omega
        · unfold fibersBelow at hfb
          rw [List.all_eq_true] at hfb
          have := hfb p hh
          simp only [decide_eq_true_eq] at this
          omega
      · exact hdel
      · exact hwip
      · rw [hctr, hnuo]
        simp only [inRangeOpt, Bool.and_eq_true, decide_eq_true_eq]
        omega
      · unfold rangeAll
        rw [hctr]
        have h1 : s.fiberCounter + 1 - s.fiberCounter = 1 := by omega
        have h2 : List.range 1 = [0] := by decide
        rw [h1, h2, List.all_eq_true]
        intro j hj
        have hj0 : j = 0 := by simpa using hj
        subst hj0
        rw [Nat.add_zero]
        unfold goodFiber
        simp only [hgn0]
        simp only [Bool.and_eq_true]
        have haltR : (renderRootFd e c s.currentRoot).alternate = some r := by
          show s.currentRoot = some r
          exact hcr
        refine ⟨⟨⟨⟨⟨?_, ?_⟩, ?_⟩, ?_⟩, ?_⟩, ?_⟩
        · rfl
        · simp [renderRootFd]
        · rfl
        · rfl
        · rfl
        · simp only [haltR]
          rw [hgets r hrlt]
          simp only [hgr, Bool.and_eq_true, decide_eq_true_eq]
          refine ⟨hrlt, ?_, ?_⟩
          · simp [renderRootFd]
          · show oldMatchesBelow (render e c s) s.fiberCounter F rfd.child [e] = true
            rw [oldMatchesBelow_congr s (render e c s) s.fiberCounter hgets]
            exact hrm
/-- C3: calling `render` a second time with a descriptor tree structurally
identical to the one just committed produces zero host-tree mutations over
the whole second cycle: under any deadline schedule and any number of idle
slices, every per-slice mutation log of the re-render run is empty — every
child pair resolves to an UPDATE whose attribute diff is empty, so no
attribute write, listener detach or listener attach is performed. -/
theorem c3_noop_second_render (F fuel n c : Nat) (deadlines : Nat → Nat → Nat)
    (s s' : State) (e : Element) (logs : List (List Mutation))
    (hfb : fibersBelow s = true)
    (hrm : rootOldMatches F s e = true)
    (hrun : runSlices deadlines fuel n (render e c s) = some (s', logs)) :
    ∀ log ∈ logs, log = [] := by
  have hinv := render_noopInv F s e c hfb hrm
  exact runSlices_noop F s.fiberCounter fuel n deadlines (render e c s) s' logs
    (Or.inl hinv) hrun

/-- Concrete witness for C3: re-rendering the identical `main [div, span]`
descriptor over the committed first cycle logs no mutation in either
slice. -/
theorem c3_noop_second_render_witness :
    fibersBelow s1c = true ∧ rootOldMatches 10 s1c eMain1 = true ∧
    List.getD logs3c 0 [] = [] ∧ List.getD logs3c 1 [] = [] :=
  ⟨by decide, by decide,
    c3_noop_second_render 10 1000 2 0 fullTime s1c s3c eMain1 logs3c
      (by decide) (by decide) rfl (List.getD logs3c 0 []) (by decide),
    c3_noop_second_render 10 1000 2 0 fullTime s1c s3c eMain1 logs3c
      (by decide) (by decide) rfl (List.getD logs3c 1 []) (by decide)⟩

end ReactFiber
